import Mathlib

/-!
# HypothesisStack and Manager (moses decoder): a shallow embedding

Sources: `src/branches/hieu_async/moses/src/HypothesisStack.cpp` (the stack) and
`src/src/Manager.cpp` (the decoder loop; its conventions are given where its model starts).

Modelling conventions.

* A `float` score is an `Int`, and the stack fields `m_bestScore`, `m_worstScore`,
  `m_beamThreshold`, which the constructor sets to minus infinity, range over `WithBot Int`
  (`⊥` is minus infinity).  The code compares scores and adds in one place only: the sum
  `m_bestScore + m_beamThreshold` of lines 64, 65 and 165, which `float` rounds.  That sum is
  `FloatAdd.sum`, an operation of which nothing is fixed but what `LawfulFloatAdd` says
  (it grows with the best score, and a sum with minus infinity is minus infinity); so the
  integers stand for the `float` values by their order, and what is proved holds for every
  rounding with these properties.  The examples run on `binary32`, the addition of IEEE 754
  binary32 on integer values (round to nearest, ties to even).  NaN and plus infinity are
  outside the model.
* `m_hypos` is a `std::set<Hypothesis*, HypothesisRecombinationOrderer>`.  The orderer is not
  part of the sources at hand; a hypothesis carries the rank `key` of its recombination class
  under that ordering, so two hypotheses are equivalent iff their keys are equal, and the set
  is the list of its members in iteration order (ascending key).
* `size_t` is 64 bits wide; `2*m_maxHypoStackSize-1` is computed modulo `2^64`.
* `std::priority_queue<float>` is the descending list of its elements: `push` is ordered
  insertion, `top` the head, `pop` the tail.  `top()` of an empty queue is undefined
  behaviour and is reported as `Fault.emptyHeapTop`.
* The global `SentenceStats` and the effects `AddArc` / `FREEHYPO` on hypotheses are threaded
  through the stack state as call counters and call logs.
-/

namespace Moses

/-! ## The model -/

/-- A score field of the stack: a `float` value or minus infinity (`⊥`). -/
abbrev Score := WithBot Int

/-- The addition of two `float` values as the code computes it, the sum rounded to a
`float`.  The stack adds in one place only: `m_bestScore + m_beamThreshold` (lines 64, 65
and 165), evaluated in `float` at each of the three lines. -/
class FloatAdd where
  sum : Score → Score → Score

/-- What the proofs use of the addition of `float`.  IEEE 754 addition with rounding to
nearest has these properties on the values other than NaN and plus infinity: the rounded sum
grows with its first operand, and a sum with minus infinity is minus infinity. -/
class LawfulFloatAdd [FloatAdd] : Prop where
  mono : ∀ a b beam : Score, a ≤ b → FloatAdd.sum a beam ≤ FloatAdd.sum b beam
  bot_sum : ∀ beam : Score, FloatAdd.sum ⊥ beam = ⊥
  sum_bot : ∀ a : Score, FloatAdd.sum a ⊥ = ⊥

/-- The distance between neighbouring binary32 values at the magnitude `n`: the power of two
`u` with `n / u` below `2^24`, the 24 bits of the significand (`1` for `n` below `2^24`).
The largest binary32 exponent bounds the recursion. -/
def spacing : Nat → Nat → Nat
  | 0, _ => 1
  | fuel + 1, n => if n < 16777216 then 1 else 2 * spacing fuel (n / 2)

/-- The multiple of `u` nearest to `n`; of two nearest ones, the even multiple. -/
def roundTo (u n : Nat) : Nat :=
  u * (n / u + (if 2 * (n % u) < u then 0 else if u < 2 * (n % u) then 1 else (n / u) % 2))

/-- The binary32 value nearest to the natural number `n`, ties to even. -/
def roundNat (n : Nat) : Nat := roundTo (spacing 104 n) n

/-- The binary32 value nearest to the integer `z`, ties to even. -/
def roundInt (z : Int) : Int :=
  if 0 ≤ z then (roundNat z.toNat : Int) else - (roundNat (-z).toNat : Int)

/-- The sum of two integer-valued binary32 values, or minus infinity, in binary32 arithmetic:
the exact sum, rounded.  Sums of magnitude `2^128` and more, which are infinite in binary32,
are outside the model. -/
def binary32Sum (a b : Score) : Score :=
  match (a : Option Int), (b : Option Int) with
  | some x, some y => ((roundInt (x + y) : Int) : Score)
  | _, _ => ⊥

/-- The addition of IEEE 754 binary32, which `float` is on the usual platforms, on integer
values. -/
def binary32 : FloatAdd := { sum := binary32Sum }

/-- The value of `std::numeric_limits<size_t>::max()`. -/
def SIZE_MAX : Nat := 18446744073709551615

/-- A hypothesis as far as the stack looks at it: its identity, the rank of its recombination
class under `HypothesisRecombinationOrderer`, and `GetTotalScore()`. -/
structure Hypothesis where
  id : Nat
  key : Nat
  score : Int
deriving DecidableEq, Repr

/-- The counters of `StaticData::Instance().GetSentenceStats()` that the stack touches:
the number of `AddDiscarded()`, `AddRecombination(..)` and `AddPruning()` calls so far. -/
structure SentenceStats where
  discarded : Nat
  recombinations : Nat
  pruned : Nat
deriving DecidableEq, Repr

/-- The state of one `HypothesisStack`, together with the effects its operations have on
the outside: the statistics counters, the log of `winner->AddArc(loser)` calls and the
log of released hypotheses (`FREEHYPO`). -/
structure HypothesisStack where
  m_hypos : List Hypothesis
  m_bestScore : Score
  m_worstScore : Score
  m_beamThreshold : Score
  m_maxHypoStackSize : Nat
  m_nBestIsEnabled : Bool
  stats : SentenceStats
  arcs : List (Hypothesis × Hypothesis)
  freed : List Hypothesis
deriving DecidableEq

/-- The ways an operation can fail to return: `top()` on an empty `priority_queue`
(line 179) and the `assert(false)` of line 127. -/
inductive Fault where
  | emptyHeapTop
  | assertFailed
deriving DecidableEq, Repr

/-- The constructor `HypothesisStack::HypothesisStack()` (lines 32-39: no members, best and
worst score minus infinity) followed by `SetMaxHypoStackSize` and `SetBeamThreshold`, which
`Manager::Manager` calls on every stack before the first insertion (`Manager.cpp`, lines
62-69).  The n-best flag is `StaticData::Instance().IsNBestEnabled()`. -/
def HypothesisStack.init (nBestIsEnabled : Bool) (maxHypoStackSize : Nat)
    (beamThreshold : Score) : HypothesisStack :=
  { m_hypos := []
    m_bestScore := ⊥
    m_worstScore := ⊥
    m_beamThreshold := beamThreshold
    m_maxHypoStackSize := maxHypoStackSize
    m_nBestIsEnabled := nBestIsEnabled
    stats := { discarded := 0, recombinations := 0, pruned := 0 }
    arcs := []
    freed := [] }

/-- The member of the set equivalent to `hypo`, which `m_hypos.insert` / `m_hypos.find`
return when there is one. -/
def findEquiv (hypo : Hypothesis) (l : List Hypothesis) : Option Hypothesis :=
  l.find? (fun m => m.key == hypo.key)

/-- Insertion of a hypothesis without an equivalent member at its place in the iteration
order of the set. -/
def setInsert (hypo : Hypothesis) : List Hypothesis → List Hypothesis
  | [] => [hypo]
  | m :: rest => if hypo.key < m.key then hypo :: m :: rest else m :: setInsert hypo rest

/-- Modelled from the spec: `Detach(iter)` of the absent `HypothesisStack.h`, which takes the
member the iterator points at out of the set without releasing it; `Remove(iter)` is
`FREEHYPO` followed by `Detach`. -/
def detach (existing : Hypothesis) (l : List Hypothesis) : List Hypothesis :=
  l.erase existing

/-- The operation `priority_queue<float>::push`. -/
def pqPush (x : Int) : List Int → List Int
  | [] => [x]
  | y :: q => if y ≤ x then x :: y :: q else y :: pqPush x q

/-- The operation `priority_queue<float>::top`; `none` on an empty queue. -/
def pqTop (q : List Int) : Option Int := q.head?

/-- The operation `priority_queue<float>::pop`. -/
def pqPop (q : List Int) : List Int := q.tail

/-- Lines 159-170: push the score of every member that is above `bound`, the `float` sum
`m_bestScore+m_beamThreshold`. -/
def pushScores (bound : Score) : List Hypothesis → List Int → List Int
  | [], q => q
  | hypo :: rest, q =>
    pushScores bound rest (if bound < (hypo.score : Score) then pqPush hypo.score q else q)

/-- Lines 175-176: `n` iterations of `bestScores.pop()`. -/
def popLoop : Nat → List Int → List Int
  | 0, q => q
  | n + 1, q => popLoop n (pqPop q)

/-- The value of `2*m_maxHypoStackSize-1` in `size_t` arithmetic. -/
def lazyLimit (maxHypoStackSize : Nat) : Nat :=
  (2 * maxHypoStackSize + SIZE_MAX) % (SIZE_MAX + 1)

/-- The function `HypothesisStack::PruneToSize` (lines 148-215).  The bound of line 165
is the `float` sum of the best score and the beam threshold. -/
def PruneToSize [FloatAdd] (s : HypothesisStack) : Except Fault HypothesisStack :=
  if s.m_maxHypoStackSize = SIZE_MAX then .ok s
  else if s.m_hypos.length > s.m_maxHypoStackSize then
    let bestScores := pushScores (FloatAdd.sum s.m_bestScore s.m_beamThreshold) s.m_hypos []
    let minNewSizeHeapSize :=
      if s.m_maxHypoStackSize > bestScores.length then bestScores.length
      else s.m_maxHypoStackSize
    match pqTop (popLoop (minNewSizeHeapSize - 1) bestScores) with
    | none => .error Fault.emptyHeapTop
    | some scoreThreshold =>
      let removed := s.m_hypos.filter (fun hypo => decide (hypo.score < scoreThreshold))
      .ok { s with
            m_hypos := s.m_hypos.filter (fun hypo => !decide (hypo.score < scoreThreshold))
            m_worstScore := (scoreThreshold : Score)
            stats := { s.stats with pruned := s.stats.pruned + removed.length }
            freed := s.freed ++ removed }
  else .ok s

/-- Lines 58-66 of `Add`: the update of best and worst score for a newly inserted `hypo`.
Line 62 has made `hypo`'s score the best score when lines 64 and 65 add the beam threshold
to it, in `float`. -/
def updateScores [FloatAdd] (s : HypothesisStack) (hypo : Hypothesis) : HypothesisStack :=
  if s.m_bestScore < (hypo.score : Score) then
    if s.m_worstScore < FloatAdd.sum (hypo.score : Score) s.m_beamThreshold then
      { s with m_bestScore := (hypo.score : Score)
               m_worstScore := FloatAdd.sum (hypo.score : Score) s.m_beamThreshold }
    else { s with m_bestScore := (hypo.score : Score) }
  else s

/-- The function `HypothesisStack::Add` (lines 50-80).  Returns the new state, the
hypothesis the returned iterator points at, and whether `hypo` was inserted. -/
def Add [FloatAdd] (s : HypothesisStack) (hypo : Hypothesis) :
    Except Fault (HypothesisStack × Hypothesis × Bool) :=
  match findEquiv hypo s.m_hypos with
  | some existing => .ok (s, existing, false)
  | none =>
    let s1 := updateScores { s with m_hypos := setInsert hypo s.m_hypos } hypo
    if s1.m_hypos.length > lazyLimit s1.m_maxHypoStackSize then
      match PruneToSize s1 with
      | .ok s2 => .ok (s2, hypo, true)
      | .error e => .error e
    else .ok (s1, hypo, true)

/-- The function `HypothesisStack::AddPrune` (lines 82-146). -/
def AddPrune [FloatAdd] (s : HypothesisStack) (hypo : Hypothesis) : Except Fault HypothesisStack :=
  if (hypo.score : Score) < s.m_worstScore then
    .ok { s with stats := { s.stats with discarded := s.stats.discarded + 1 }
                 freed := s.freed ++ [hypo] }
  else
    match Add s hypo with
    | .error e => .error e
    | .ok (s1, _, true) => .ok s1
    | .ok (s1, hypoExisting, false) =>
      let s2 := { s1 with stats :=
        { s1.stats with recombinations := s1.stats.recombinations + 1 } }
      if hypoExisting.score < hypo.score then
        let s3 :=
          if s2.m_nBestIsEnabled then
            { s2 with arcs := s2.arcs ++ [(hypo, hypoExisting)]
                      m_hypos := detach hypoExisting s2.m_hypos }
          else
            { s2 with freed := s2.freed ++ [hypoExisting]
                      m_hypos := detach hypoExisting s2.m_hypos }
        match Add s3 hypo with
        | .error e => .error e
        | .ok (s4, _, true) => .ok s4
        | .ok (_, _, false) => .error Fault.assertFailed
      else
        if s2.m_nBestIsEnabled then
          .ok { s2 with arcs := s2.arcs ++ [(hypoExisting, hypo)] }
        else
          .ok { s2 with freed := s2.freed ++ [hypo] }

/-- The function `HypothesisStack::RemoveDeadendHypotheses` (lines 258-274); `refCount` is
`Hypothesis::GetRefCount` at the time of the call, `excludeHypo` may be null. -/
def RemoveDeadendHypotheses (s : HypothesisStack) (excludeHypo : Option Hypothesis)
    (refCount : Hypothesis → Nat) : HypothesisStack :=
  let dead := fun hypo => decide (some hypo ≠ excludeHypo) && decide (refCount hypo = 0)
  { s with m_hypos := s.m_hypos.filter (fun hypo => !dead hypo)
           freed := s.freed ++ s.m_hypos.filter dead }

/-- One call on a stack. -/
inductive StackOp where
  | add (hypo : Hypothesis)
  | addPrune (hypo : Hypothesis)
  | pruneToSize
  | removeDeadend (excludeHypo : Option Hypothesis) (refCount : Hypothesis → Nat)

/-- The effect of one call. -/
def StackOp.apply [FloatAdd] (s : HypothesisStack) : StackOp → Except Fault HypothesisStack
  | .add hypo =>
    match Add s hypo with
    | .ok (s1, _, _) => .ok s1
    | .error e => .error e
  | .addPrune hypo => AddPrune s hypo
  | .pruneToSize => PruneToSize s
  | .removeDeadend excludeHypo refCount => .ok (RemoveDeadendHypotheses s excludeHypo refCount)

/-- A sequence of calls, each starting after the previous one has returned. -/
def run [FloatAdd] (s : HypothesisStack) : List StackOp → Except Fault HypothesisStack
  | [] => .ok s
  | op :: ops =>
    match op.apply s with
    | .ok s1 => run s1 ops
    | .error e => .error e

/-- The calls `AddPrune` and `PruneToSize`. -/
def StackOp.isAddPruneOrPrune : StackOp → Bool
  | .addPrune _ => true
  | .pruneToSize => true
  | _ => false

/-- The calls `Add`, `AddPrune` and `PruneToSize`. -/
def StackOp.isAddOrAddPruneOrPrune : StackOp → Bool
  | .removeDeadend _ _ => false
  | _ => true

/-- Every call: `Add`, `AddPrune`, `PruneToSize` and `RemoveDeadendHypotheses`. -/
def StackOp.isAny : StackOp → Bool := fun _ => true

/-- The calls `Add` and `AddPrune`. -/
def StackOp.isAddOrAddPrune : StackOp → Bool
  | .add _ => true
  | .addPrune _ => true
  | _ => false

/-- The state `s` is what a stack constructed as `s0` is in after some sequence of calls
of the kinds `allowed`, every one of which returned. -/
def ReachableBy [FloatAdd] (allowed : StackOp → Bool) (s0 s : HypothesisStack) : Prop :=
  ∃ ops : List StackOp, (∀ op ∈ ops, allowed op = true) ∧ run s0 ops = .ok s

/-! ## Predicates and intermediate states of the proofs -/

/-- The scores that `PruneToSize` pushes to its heap: those of the members strictly above
`bound`, which is `m_bestScore+m_beamThreshold`. -/
def scoresAbove (bound : Score) (l : List Hypothesis) : List Int :=
  (l.filter (fun hypo => decide (bound < (hypo.score : Score)))).map (fun hypo => hypo.score)

/-- The value `t` is the `n`-th largest of the list `L`, duplicates counted: it occurs in `L`,
fewer than `n` entries are strictly larger, and at least `n` entries are at least `t`. -/
def IsNthLargest (L : List Int) (n : Nat) (t : Int) : Prop :=
  t ∈ L ∧ L.countP (fun x => decide (t < x)) < n ∧ n ≤ L.countP (fun x => decide (t ≤ x))

instance (L : List Int) (n : Nat) (t : Int) : Decidable (IsNthLargest L n t) := by
  unfold IsNthLargest
  exact inferInstance

/-- The state `PruneToSize` leaves when it prunes with threshold `t`. -/
def prunedAt (s : HypothesisStack) (t : Int) : HypothesisStack :=
  { s with
    m_hypos := s.m_hypos.filter (fun hypo => !decide (hypo.score < t))
    m_worstScore := (t : Score)
    stats := { s.stats with
      pruned := s.stats.pruned + (s.m_hypos.filter (fun hypo => decide (hypo.score < t))).length }
    freed := s.freed ++ s.m_hypos.filter (fun hypo => decide (hypo.score < t)) }

/-- The number of members whose score is strictly above `w`. -/
def countAbove (w : Score) (l : List Hypothesis) : Nat :=
  l.countP (fun hypo => decide (w < (hypo.score : Score)))

/-- The number of members whose score equals `w`. -/
def countTies (w : Score) (l : List Hypothesis) : Nat :=
  l.countP (fun hypo => decide ((hypo.score : Score) = w))

/-- The state of `Add` after the insertion and the update of the scores (line 66), before
the test for lazy pruning. -/
def inserted [FloatAdd] (s : HypothesisStack) (hypo : Hypothesis) : HypothesisStack :=
  updateScores { s with m_hypos := setInsert hypo s.m_hypos } hypo

/-- The state of `AddPrune` after line 120: the recombination is recorded and the existing,
worse hypothesis is out of the set (an arc of `hypo` with n-best, released without). -/
def loserRemoved (s : HypothesisStack) (hypo hypoExisting : Hypothesis) : HypothesisStack :=
  if s.m_nBestIsEnabled then
    { s with stats := { s.stats with recombinations := s.stats.recombinations + 1 }
             arcs := s.arcs ++ [(hypo, hypoExisting)]
             m_hypos := detach hypoExisting s.m_hypos }
  else
    { s with stats := { s.stats with recombinations := s.stats.recombinations + 1 }
             freed := s.freed ++ [hypoExisting]
             m_hypos := detach hypoExisting s.m_hypos }

/-- The state of `AddPrune` when the incoming hypothesis loses the recombination. -/
def loserDropped (s : HypothesisStack) (hypo hypoExisting : Hypothesis) : HypothesisStack :=
  if s.m_nBestIsEnabled then
    { s with stats := { s.stats with recombinations := s.stats.recombinations + 1 }
             arcs := s.arcs ++ [(hypoExisting, hypo)] }
  else
    { s with stats := { s.stats with recombinations := s.stats.recombinations + 1 }
             freed := s.freed ++ [hypo] }

/-- The state of `AddPrune` when it discards the incoming hypothesis (lines 84-90). -/
def discarded (s : HypothesisStack) (hypo : Hypothesis) : HypothesisStack :=
  { s with stats := { s.stats with discarded := s.stats.discarded + 1 }
           freed := s.freed ++ [hypo] }

/-- Two states agree on the members, the scores and the two parameters. -/
def SameCore (s s1 : HypothesisStack) : Prop :=
  s1.m_hypos = s.m_hypos ∧ s1.m_bestScore = s.m_bestScore ∧
    s1.m_worstScore = s.m_worstScore ∧ s1.m_beamThreshold = s.m_beamThreshold ∧
    s1.m_maxHypoStackSize = s.m_maxHypoStackSize

/-- No two distinct members are equivalent under the recombination key. -/
def NoEquiv (l : List Hypothesis) : Prop := l.Pairwise (fun a b => a.key ≠ b.key)

/-- The invariants of a stack that do not depend on how full it is. -/
structure Local [FloatAdd] (s : HypothesisStack) : Prop where
  noEquiv : NoEquiv s.m_hypos
  le_best : ∀ m ∈ s.m_hypos, (m.score : Score) ≤ s.m_bestScore
  beam_le_worst : FloatAdd.sum s.m_bestScore s.m_beamThreshold ≤ s.m_worstScore
  above_beam : ∀ m ∈ s.m_hypos,
    FloatAdd.sum s.m_bestScore s.m_beamThreshold < (m.score : Score) →
      s.m_worstScore ≤ (m.score : Score)
  best_attained : s.m_bestScore = ⊥ ∨ ∃ m ∈ s.m_hypos, (m.score : Score) = s.m_bestScore

/-- What holds right after `PruneToSize` has pruned: every member is at or above the worst
score, which is above the beam, and fewer than `max 1 MaxSize` members are strictly above it. -/
structure Pruned [FloatAdd] (s : HypothesisStack) : Prop where
  ge_worst : ∀ m ∈ s.m_hypos, s.m_worstScore ≤ (m.score : Score)
  few_above : countAbove s.m_worstScore s.m_hypos ≤ s.m_maxHypoStackSize - 1
  beam_lt_worst : FloatAdd.sum s.m_bestScore s.m_beamThreshold < s.m_worstScore

/-- The invariant of the states reached by `AddPrune` and `PruneToSize`: the local
invariants, and a stack on which the next insertion prunes has just been pruned. -/
structure Inv [FloatAdd] (s : HypothesisStack) : Prop where
  loc : Local s
  pruned : lazyLimit s.m_maxHypoStackSize < s.m_hypos.length →
    s.m_maxHypoStackSize ≠ SIZE_MAX → s.m_maxHypoStackSize < s.m_hypos.length → Pruned s

/-- Two states have the same beam threshold and maximal size. -/
def SameParams (s s1 : HypothesisStack) : Prop :=
  s1.m_beamThreshold = s.m_beamThreshold ∧ s1.m_maxHypoStackSize = s.m_maxHypoStackSize

/-- The bound on the size that `Add` and `AddPrune` keep: twice the maximal size minus one,
plus the members tied at the worst score. -/
def SizeBound (s : HypothesisStack) : Prop :=
  1 ≤ s.m_maxHypoStackSize → s.m_maxHypoStackSize ≠ SIZE_MAX →
    s.m_hypos.length ≤ 2 * s.m_maxHypoStackSize - 1 + countTies s.m_worstScore s.m_hypos

/-- Modelled from the spec: the arc list of a hypothesis, which `Hypothesis::AddArc` of the
absent `Hypothesis.cpp` appends to: the losers of the `AddArc` calls made on it, in order. -/
def arcsOf (s : HypothesisStack) (winner : Hypothesis) : List Hypothesis :=
  (s.arcs.filter (fun p => decide (p.1 = winner))).map (fun p => p.2)

/-- Fewer than `M` of the hypotheses `hs` score strictly higher than `h`. -/
def AmongBest (hs : List Hypothesis) (M : Nat) (h : Hypothesis) : Prop :=
  hs.countP (fun g => decide (h.score < g.score)) < M

/-- The invariant of a stack without beam into which some of the pairwise non-equivalent
hypotheses `hs` have been inserted: its members are among `hs`, and none of the `M` best of
`hs` is below its worst score. -/
structure KeepsBest (hs : List Hypothesis) (M : Nat) (s : HypothesisStack) : Prop where
  beam : s.m_beamThreshold = ⊥
  max : s.m_maxHypoStackSize = M
  noEquiv : NoEquiv s.m_hypos
  sub : ∀ m ∈ s.m_hypos, m ∈ hs
  worst : ∀ g ∈ hs, AmongBest hs M g → s.m_worstScore ≤ (g.score : Score)

/-! ## The decoder loop: the model

Source: `src/src/Manager.cpp`.  The classes the loop works with (`WordsBitmap`,
`WordsRange`, `TranslationOption`, `Hypothesis::CreateNext`, the orderers of the sets, the
input sentence and the option store) are not part of the sources at hand; they are modelled
from the specification or taken as parameters of the environment `DecoderEnv`. -/

/-- Modelled from the spec: a `WordsRange`, the inclusive range of source positions
`[startPos, endPos]`. -/
structure WordsRange where
  startPos : Nat
  endPos : Nat
deriving DecidableEq, Repr

/-- Modelled from the spec: a `WordsBitmap`, the set of covered source positions. -/
abbrev WordsBitmap := Finset Nat

/-- Modelled from the spec: `WordsBitmap::GetFirstGapPos`, the smallest position that is
not covered, or the sentence length when every position is covered. -/
def GetFirstGapPos (sourceSize : Nat) (bitmap : WordsBitmap) : Nat :=
  ((List.range sourceSize).find? (fun pos => decide (pos ∉ bitmap))).getD sourceSize

/-- Modelled from the spec: `WordsBitmap::Overlap`, whether some position of the range is
covered. -/
def Overlap (bitmap : WordsBitmap) (range : WordsRange) : Bool :=
  decide (¬ Disjoint bitmap (Finset.Icc range.startPos range.endPos))

/-- Modelled from the spec: `WordsBitmap::GetNumWordsCovered`, the count of set bits. -/
def GetNumWordsCovered (bitmap : WordsBitmap) : Nat := bitmap.card

/-- A translation option as far as the loop looks at it: its identity, its rank under
`TranslationOptionOrderer` (options of equal rank are equivalent for the option set), and
the source range it covers. -/
structure TranslationOption where
  id : Nat
  rank : Nat
  sourceRange : WordsRange
deriving DecidableEq, Repr

/-- A `Hypothesis` object as the decoder loop sees it: what the stack sees of it (`hypo`),
`GetWordsBitmap()`, `GetCurrSourceWordsRange()` and the grid position set by
`SetGridPosition`. -/
structure SearchHypothesis where
  hypo : Hypothesis
  wordsBitmap : WordsBitmap
  currSourceRange : WordsRange
  gridX : Nat
  gridY : Nat
deriving DecidableEq

/-- The collaborators of the decoder loop that are not part of the sources at hand, as
parameters: the input sentence (`GetSize`, `IsCoveragePossible`, `IsExtensionPossible`,
`ComputeDistortionDistance`, the input type), the configuration (`GetMaxDistortion`,
`GetMaxPhraseLength`), the option store (`GetTranslationOptionList`), and what
`CreateNext` with `CalcScore` gives a new hypothesis that the loop does not decide: its
total score and its recombination class.  The last three fields describe the seed
hypothesis of `Hypothesis::Create` and `WordsBitmap::GetCompressedRepresentation`. -/
structure DecoderEnv where
  sourceSize : Nat
  maxDistortion : Int
  maxPhraseLength : Nat
  isWordLattice : Bool
  isCoveragePossible : WordsRange → Bool
  isExtensionPossible : WordsRange → WordsRange → Bool
  computeDistortionDistance : WordsRange → WordsRange → Int
  translationOptionList : WordsRange → List TranslationOption
  totalScore : SearchHypothesis → TranslationOption → Int
  recombinationKey : SearchHypothesis → TranslationOption → Nat
  seedKey : Nat
  seedRange : WordsRange
  compressedRepresentation : WordsBitmap → List Nat

/-- The values of `startPos` in the outer loops of `ProcessCoverageVector` (lines 186 and
218): from the first gap to the end of the sentence. -/
def startPositions (env : DecoderEnv) (hypoBitmap : WordsBitmap) : List Nat :=
  List.range' (GetFirstGapPos env.sourceSize hypoBitmap)
    (env.sourceSize - GetFirstGapPos env.sourceSize hypoBitmap)

/-- The values of `endPos` in the inner loops (lines 189-194 and 220-228): `maxSize`
positions from `startPos`, where `maxSize` is the smaller of the rest of the sentence and
the maximal phrase length. -/
def endPositions (env : DecoderEnv) (startPos : Nat) : List Nat :=
  let maxSize := env.sourceSize - startPos
  let maxSizePhrase := env.maxPhraseLength
  let maxSize := if maxSize < maxSizePhrase then maxSize else maxSizePhrase
  List.range' startPos maxSize

/-- The ranges `[startPos, endPos]` that the two nested loops go through, in order. -/
def candidateRanges (env : DecoderEnv) (hypoBitmap : WordsBitmap) : List WordsRange :=
  (startPositions env hypoBitmap).flatMap
    (fun startPos => (endPositions env startPos).map (fun endPos => ⟨startPos, endPos⟩))

/-- The body of the loop without reordering limit (lines 196-205): whether `CubePruning` is
invoked for the range. -/
def noLimitInvokes (env : DecoderEnv) (hypoBitmap : WordsBitmap) (range : WordsRange) : Bool :=
  if !Overlap hypoBitmap range then
    decide ((env.translationOptionList range).length > 0)
  else false

/-- The body of the main loop (lines 231-274): whether `CubePruning` is invoked for the
range `extRange`; `hypothesis` is `coverageVec[0]`. -/
def limitedInvokes (env : DecoderEnv) (hypothesis : SearchHypothesis)
    (hypoBitmap : WordsBitmap) (extRange : WordsRange) : Bool :=
  let hypoFirstGapPos := GetFirstGapPos env.sourceSize hypoBitmap
  if Overlap hypoBitmap extRange ||
      (env.isWordLattice && (!env.isCoveragePossible extRange ||
        !env.isExtensionPossible hypothesis.currSourceRange extRange)) then
    false
  else
    let leftMostEdge := decide (hypoFirstGapPos = extRange.startPos)
    if leftMostEdge then
      decide ((env.translationOptionList extRange).length > 0)
    else
      let bestNextExtension : WordsRange := ⟨hypoFirstGapPos, hypoFirstGapPos⟩
      let required_distortion := env.computeDistortionDistance extRange bestNextExtension
      if required_distortion ≤ env.maxDistortion then
        decide ((env.translationOptionList extRange).length > 0)
      else false

/-- The ranges for which `ProcessCoverageVector` (lines 175-277) invokes `CubePruning`, in
the order of the invocations; `hypothesis` is `coverageVec[0]`. -/
def extensionRanges (env : DecoderEnv) (hypothesis : SearchHypothesis)
    (hypoBitmap : WordsBitmap) : List WordsRange :=
  if env.maxDistortion < 0 then
    (candidateRanges env hypoBitmap).filter (noLimitInvokes env hypoBitmap)
  else
    (candidateRanges env hypoBitmap).filter (limitedInvokes env hypothesis hypoBitmap)

/-- Modelled from the spec: the seed hypothesis of `Hypothesis::Create`, with empty
coverage, score 0 and the first identity. -/
def seedHypothesis (env : DecoderEnv) : SearchHypothesis :=
  { hypo := { id := 0, key := env.seedKey, score := 0 }
    wordsBitmap := ∅
    currSourceRange := env.seedRange
    gridX := 0
    gridY := 0 }

/-- An environment for the examples: a sentence of `sourceSize` words, `optionsPerRange`
options for every range (option `k` has rank `k`), the distortion distance
`|prev.endPos + 1 - current.startPos|`, every extension possible, every coverage possible
or none (`coveragePossible`), the total score of an extension the score of the extended
hypothesis minus the rank of the option, and the compressed representation of a coverage the
list of the positions of the sentence that it covers. -/
def exampleEnv (sourceSize : Nat) (maxDistortion : Int) (maxPhraseLength : Nat)
    (isWordLattice coveragePossible : Bool) (optionsPerRange : Nat) : DecoderEnv :=
  { sourceSize := sourceSize
    maxDistortion := maxDistortion
    maxPhraseLength := maxPhraseLength
    isWordLattice := isWordLattice
    isCoveragePossible := fun _ => coveragePossible
    isExtensionPossible := fun _ _ => true
    computeDistortionDistance := fun prev current =>
      |(prev.endPos : Int) + 1 - (current.startPos : Int)|
    translationOptionList := fun range =>
      (List.range optionsPerRange).map (fun k => ⟨k, k, range⟩)
    totalScore := fun hypothesis option => hypothesis.hypo.score - (option.rank : Int)
    recombinationKey := fun hypothesis option => 10 * hypothesis.hypo.key + option.rank + 1
    seedKey := 0
    seedRange := ⟨0, 0⟩
    compressedRepresentation := fun bitmap =>
      (List.range sourceSize).filter (fun pos => decide (pos ∈ bitmap)) }

/-- The constant `top_k` of line 49, the `k` of cube pruning. -/
def top_k : Nat := 3

/-- The variable `extra` of line 328, the slack of the buffer. -/
def extra : Nat := 0

/-- Insertion into `set<TranslationOption*, TranslationOptionOrderer>`: at the place of
the rank, and not at all when an option of the same rank is in the set. -/
def optionSetInsert (opt : TranslationOption) : List TranslationOption → List TranslationOption
  | [] => [opt]
  | other :: rest =>
    if opt.rank < other.rank then opt :: other :: rest
    else if opt.rank = other.rank then other :: rest
    else other :: optionSetInsert opt rest

/-- Lines 281-282: the set `translationOptionSet` filled from `tol`, in iteration order. -/
def translationOptionSet (tol : List TranslationOption) : List TranslationOption :=
  tol.foldl (fun set opt => optionSetInsert opt set) []

/-- Lines 286-299: the first `top_k` options of the set. -/
def topkOptions (tol : List TranslationOption) : List TranslationOption :=
  (translationOptionSet tol).take top_k

/-- Modelled from the spec: `HypothesisScoreOrderer`, the ordering of `cand`, `buf` and `D`:
total score descending, hypothesis id ascending as tie-break. -/
def scoreOrderBefore (a b : SearchHypothesis) : Bool :=
  decide (b.hypo.score < a.hypo.score) ||
    (decide (a.hypo.score = b.hypo.score) && decide (a.hypo.id < b.hypo.id))

/-- Insertion into `set<Hypothesis*, HypothesisScoreOrderer>`: at the place the ordering
gives, and not at all when an equivalent element is in the set. -/
def scoreSetInsert (h : SearchHypothesis) : List SearchHypothesis → List SearchHypothesis
  | [] => [h]
  | m :: rest =>
    if scoreOrderBefore h m then h :: m :: rest
    else if scoreOrderBefore m h then m :: scoreSetInsert h rest
    else m :: rest

/-- Modelled from the spec: `CreateNext` followed by `CalcScore` and `SetGridPosition`, the
extension of `hypothesis` by `opt`: the coverage is the union with the source range of the
option, the current source range is that of the option; identity, total score and
recombination class come from the environment. -/
def CreateNext (env : DecoderEnv) (id : Nat) (hypothesis : SearchHypothesis)
    (opt : TranslationOption) (x y : Nat) : SearchHypothesis :=
  { hypo := { id := id
              key := env.recombinationKey hypothesis opt
              score := env.totalScore hypothesis opt }
    wordsBitmap := hypothesis.wordsBitmap ∪
      Finset.Icc opt.sourceRange.startPos opt.sourceRange.endPos
    currSourceRange := opt.sourceRange
    gridX := x
    gridY := y }

/-- The variables of the main loop of `CubePruning`: the sets `cand` and `buf` in iteration
order, all hypotheses created so far, the identity the next one gets, and the number of
iterations made. -/
structure CubeState where
  cand : List SearchHypothesis
  buf : List SearchHypothesis
  created : List SearchHypothesis
  nextId : Nat
  iterations : Nat

/-- Lines 353-356 and 368-371: create the hypothesis at grid position `(x, y)` and insert
it into `cand`. -/
def cubePush (env : DecoderEnv) (st : CubeState) (hypothesis : SearchHypothesis)
    (opt : TranslationOption) (x y : Nat) : CubeState :=
  let newHypo := CreateNext env st.nextId hypothesis opt x y
  { st with cand := scoreSetInsert newHypo st.cand
            created := st.created ++ [newHypo]
            nextId := st.nextId + 1 }

/-- The body of the main loop (lines 342-379): move the best candidate to `buf` and push
its neighbours to the right and below, where they exist, into `cand`. -/
def cubeStep (env : DecoderEnv) (coverageVec : List SearchHypothesis)
    (topk : List TranslationOption) (st : CubeState) : CubeState :=
  match st.cand with
  | [] => st
  | item :: candRest =>
    let x := item.gridX
    let y := item.gridY
    let st1 := { st with buf := scoreSetInsert item st.buf
                         cand := candRest
                         iterations := st.iterations + 1 }
    let st2 :=
      match coverageVec.get? x, topk.get? (y + 1) with
      | some hypothesis, some opt => cubePush env st1 hypothesis opt x (y + 1)
      | _, _ => st1
    match coverageVec.get? (x + 1), topk.get? y with
    | some hypothesis, some opt => cubePush env st2 hypothesis opt (x + 1) y
    | _, _ => st2

/-- The main loop (line 329), for at most `fuel` iterations. -/
def cubeLoop (env : DecoderEnv) (coverageVec : List SearchHypothesis)
    (topk : List TranslationOption) : Nat → CubeState → CubeState
  | 0, st => st
  | fuel + 1, st =>
    if !st.cand.isEmpty && decide (st.buf.length < top_k + extra) then
      cubeLoop env coverageVec topk fuel (cubeStep env coverageVec topk st)
    else st

/-- Lines 310-315: the state before the main loop, with the hypothesis at grid position
`(0, 0)` in `cand`; `none` when `coverageVec[0]` or `topkOptions[0]` does not exist. -/
def cubeInit (env : DecoderEnv) (coverageVec : List SearchHypothesis)
    (topk : List TranslationOption) (nextId : Nat) : Option CubeState :=
  match coverageVec.get? 0, topk.get? 0 with
  | some hypothesis, some opt =>
    let newHypo := CreateNext env nextId hypothesis opt 0 0
    some { cand := scoreSetInsert newHypo []
           buf := []
           created := [newHypo]
           nextId := nextId + 1
           iterations := 0 }
  | _, _ => none

/-- Lines 281-380 of `CubePruning`: the state after the main loop.  The loop is given
`top_k + extra` iterations, which is all it makes. -/
def cubeSearch (env : DecoderEnv) (coverageVec : List SearchHypothesis)
    (tol : List TranslationOption) (nextId : Nat) : Option CubeState :=
  match cubeInit env coverageVec (topkOptions tol) nextId with
  | some st => some (cubeLoop env coverageVec (topkOptions tol) (top_k + extra) st)
  | none => none

/-- Lines 383-392: the set `D`, the first `top_k` elements of `buf`; these are the
hypotheses that lines 395-400 pass to `AddPrune`, in this order. -/
def cubeD (st : CubeState) : List SearchHypothesis :=
  (st.buf.take top_k).foldl (fun D h => scoreSetInsert h D) []

/-! ## Predicates and intermediate states of the proofs about the decoder loop -/

/-- The hypothesis that the loop body pushes as right neighbour of `item` (lines 351-364),
if the grid has one; `nextId` is the identity it gets. -/
def rightPush (env : DecoderEnv) (coverageVec : List SearchHypothesis)
    (topk : List TranslationOption) (nextId : Nat) (item : SearchHypothesis) :
    List SearchHypothesis :=
  match coverageVec.get? item.gridX, topk.get? (item.gridY + 1) with
  | some hypothesis, some opt =>
    [CreateNext env nextId hypothesis opt item.gridX (item.gridY + 1)]
  | _, _ => []

/-- The hypothesis that the loop body pushes as neighbour below `item` (lines 366-379), if
the grid has one; `nextId` is the identity it gets. -/
def belowPush (env : DecoderEnv) (coverageVec : List SearchHypothesis)
    (topk : List TranslationOption) (nextId : Nat) (item : SearchHypothesis) :
    List SearchHypothesis :=
  match coverageVec.get? (item.gridX + 1), topk.get? item.gridY with
  | some hypothesis, some opt =>
    [CreateNext env nextId hypothesis opt (item.gridX + 1) item.gridY]
  | _, _ => []

/-- The hypotheses that the loop body pushes for `item`, in order. -/
def pushes (env : DecoderEnv) (coverageVec : List SearchHypothesis)
    (topk : List TranslationOption) (nextId : Nat) (item : SearchHypothesis) :
    List SearchHypothesis :=
  rightPush env coverageVec topk nextId item ++
    belowPush env coverageVec topk
      (nextId + (rightPush env coverageVec topk nextId item).length) item

/-- Insertion of several hypotheses, one after the other, into a set ordered by
`HypothesisScoreOrderer`. -/
def scoreSetInsertAll (l set : List SearchHypothesis) : List SearchHypothesis :=
  l.foldl (fun set h => scoreSetInsert h set) set

/-- The number of hypotheses of a list at grid position `(x, y)`. -/
def countCell (x y : Nat) (l : List SearchHypothesis) : Nat :=
  l.countP (fun a => decide (a.gridX = x) && decide (a.gridY = y))

/-- The number of hypotheses of a list at a grid position of which `(x, y)` is the right
neighbour or the neighbour below. -/
def countParents (x y : Nat) (l : List SearchHypothesis) : Nat :=
  l.countP (fun a => (decide (a.gridX = x) && decide (a.gridY + 1 = y)) ||
    (decide (a.gridX + 1 = x) && decide (a.gridY = y)))

/-- The invariant of the main loop of `CubePruning` on the grid of the rows `coverageVec`
and the columns `topk`: identities are fresh and distinct; every hypothesis created is in
`cand` or in `buf`; `cand` is ordered by score; every hypothesis sits at a grid position and
is the extension that belongs there; every grid position is in `buf` or to the right of or
below a position in `cand`; a grid position has no more hypotheses than popped positions
that push onto it, and position `(0, 0)` has one. -/
structure CubeInv (env : DecoderEnv) (coverageVec : List SearchHypothesis)
    (topk : List TranslationOption) (st : CubeState) : Prop where
  ids_lt : ∀ a ∈ st.created, a.hypo.id < st.nextId
  ids_nodup : (st.created.map (fun a => a.hypo.id)).Nodup
  perm : (st.cand ++ st.buf).Perm st.created
  sorted : st.cand.Pairwise (fun a b => b.hypo.score ≤ a.hypo.score)
  wf : ∀ a ∈ st.created, ∃ h o, coverageVec.get? a.gridX = some h ∧
    topk.get? a.gridY = some o ∧ a = CreateNext env a.hypo.id h o a.gridX a.gridY
  frontier : ∀ x y, x < coverageVec.length → y < topk.length →
    (∃ b ∈ st.buf, b.gridX = x ∧ b.gridY = y) ∨
      (∃ a ∈ st.cand, a.gridX ≤ x ∧ a.gridY ≤ y)
  count : ∀ x y, countCell x y st.created ≤
    if x = 0 ∧ y = 0 then 1 else countParents x y st.buf
  origin : ∃ a ∈ st.created, a.gridX = 0 ∧ a.gridY = 0
  iters : st.buf.length = st.iterations

/-- The total score of the extension at grid position `(x, y)`: of row `x` by column `y`
(0 outside the grid). -/
def extensionScore (env : DecoderEnv) (rows : List SearchHypothesis)
    (cols : List TranslationOption) (x y : Nat) : Int :=
  match rows.get? x, cols.get? y with
  | some hypothesis, some opt => env.totalScore hypothesis opt
  | _, _ => 0

/-- The total scores of the extensions at all grid positions, row by row. -/
def gridScores (env : DecoderEnv) (rows : List SearchHypothesis)
    (cols : List TranslationOption) : List Int :=
  (List.range rows.length ×ˢ List.range cols.length).map
    (fun p => extensionScore env rows cols p.1 p.2)

/-- The grid of extension scores is monotone: non-increasing in `x` and in `y`. -/
def MonotoneGrid (env : DecoderEnv) (rows : List SearchHypothesis)
    (cols : List TranslationOption) : Prop :=
  (∀ x2, x2 < rows.length → ∀ x1, x1 ≤ x2 → ∀ y, y < cols.length →
    extensionScore env rows cols x2 y ≤ extensionScore env rows cols x1 y) ∧
  (∀ y2, y2 < cols.length → ∀ y1, y1 ≤ y2 → ∀ x, x < rows.length →
    extensionScore env rows cols x y2 ≤ extensionScore env rows cols x y1)

instance (env : DecoderEnv) (rows : List SearchHypothesis) (cols : List TranslationOption) :
    Decidable (MonotoneGrid env rows cols) := by
  unfold MonotoneGrid
  infer_instance

/-- The `k` largest values of a list, largest first. -/
def largest (k : Nat) (l : List Int) : List Int :=
  (l.insertionSort (fun a b => b ≤ a)).take k

/-- No candidate scores higher than a hypothesis that was popped. -/
def CubeDom (st : CubeState) : Prop :=
  ∀ b ∈ st.buf, ∀ a ∈ st.cand, a.hypo.score ≤ b.hypo.score

/-- A row for the examples: a hypothesis with coverage `{0}` whose recombination class is
its identity. -/
def exampleRow (id : Nat) (score : Int) : SearchHypothesis :=
  { hypo := { id := id, key := id, score := score }
    wordsBitmap := {0}
    currSourceRange := ⟨0, 0⟩
    gridX := 0
    gridY := 0 }

/-- Modelled from the spec: `HypothesisStack::GetCoverageSet`, the members of the stack
whose coverage is `wb`, as a set ordered by `HypothesisScoreOrderer`; `members` are the
members of the stack in iteration order. -/
def GetCoverageSet (members : List SearchHypothesis) (wb : WordsBitmap) :
    List SearchHypothesis :=
  (members.filter (fun h => decide (h.wordsBitmap = wb))).foldl
    (fun set h => scoreSetInsert h set) []

/-- Lines 137-157 of `ProcessSentence`: the first `top_k` hypotheses of the coverage set are
inserted into `topkCoverageSet`, which is turned into the vector `coverageVec`. -/
def topkCoverageVec (coverageSet : List SearchHypothesis) : List SearchHypothesis :=
  (coverageSet.take top_k).foldl (fun set h => scoreSetInsert h set) []

/-- The variables of the loop over the members of one stack (lines 120-163): the set
`seenCoverages`, and the invocations of `ProcessCoverageVector` made so far, each with
its arguments `coverageVec` and `hypoBitmap`. -/
structure CoverageLoop where
  seenCoverages : List (List Nat)
  invocations : List (List SearchHypothesis × WordsBitmap)

/-- The body of the loop over the members of one stack (lines 126-162), for the member
`hypothesis`; `members` are the members of the stack. -/
def coverageStep (env : DecoderEnv) (members : List SearchHypothesis)
    (st : CoverageLoop) (hypothesis : SearchHypothesis) : CoverageLoop :=
  let wb := hypothesis.wordsBitmap
  let cov := env.compressedRepresentation wb
  if st.seenCoverages.count cov = 0 then
    let coverageSet := GetCoverageSet members wb
    let coverageVec := topkCoverageVec coverageSet
    { seenCoverages := cov :: st.seenCoverages
      invocations :=
        if coverageVec.length > 0 then st.invocations ++ [(coverageVec, wb)]
        else st.invocations }
  else st

/-- The invocations of `ProcessCoverageVector` that `ProcessSentence` makes for one stack
(lines 119-163), in order, each with its arguments `coverageVec` and `hypoBitmap`. -/
def coverageInvocations (env : DecoderEnv) (members : List SearchHypothesis) :
    List (List SearchHypothesis × WordsBitmap) :=
  (members.foldl (coverageStep env members) ⟨[], []⟩).invocations

/-- A hypothesis for the examples, with the given coverage, whose recombination class is
its identity. -/
def exampleHypothesis (id : Nat) (score : Int) (coverage : WordsBitmap) : SearchHypothesis :=
  { hypo := { id := id, key := id, score := score }
    wordsBitmap := coverage
    currSourceRange := ⟨0, 0⟩
    gridX := 0
    gridY := 0 }

/-- What the loop over the members of one stack keeps, after the members `done`: the
coverages seen are those of `done`, and `ProcessCoverageVector` was invoked once for each
of them, with the beginning of its coverage set. -/
structure CoverageLoopInv (env : DecoderEnv) (members done : List SearchHypothesis)
    (st : CoverageLoop) : Prop where
  seen : ∀ c, c ∈ st.seenCoverages ↔
    ∃ h ∈ done, env.compressedRepresentation h.wordsBitmap = c
  nodup : (st.invocations.map Prod.snd).Nodup
  mem : ∀ B, B ∈ st.invocations.map Prod.snd ↔ ∃ h ∈ done, h.wordsBitmap = B
  vec : ∀ c ∈ st.invocations, c.1 = topkCoverageVec (GetCoverageSet members c.2)

/-! ## The decoder loop: the stacks

`ProcessSentence`, `ProcessCoverageVector` and `CubePruning` of `src/src/Manager.cpp` as
functions on the state of the `Manager`.  Expanding stack `i` reads that stack as it is
after its `PruneToSize`: no `AddPrune` call of the expansion writes to it, which is part of
what is proved below about the calls recorded in `addPruneCalls`. -/

/-- What a step of the decoder loop can run into: a stack operation that is undefined, an
index beyond the stacks `m_hypoStackColl`, an index beyond `coverageVec` or `topkOptions`,
or a stack member for which no `Hypothesis` object exists. -/
inductive ManagerFault where
  | stack (fault : Fault)
  | stackIndex
  | emptyGrid
  | dangling
deriving DecidableEq, Repr

/-- One call `m_hypoStackColl[wordsTranslated].AddPrune(newHypo)` of line 399, with the
value that the variable `i` of `ProcessSentence` has at the call. -/
structure AddPruneCall where
  expanding : Nat
  wordsTranslated : Nat
  newHypo : SearchHypothesis

/-- The state of the `Manager`: the stacks `m_hypoStackColl`, the `Hypothesis` objects
created so far, the identity the next one gets, the variable `i` of `ProcessSentence`, and
the record of the `AddPrune` calls that `CubePruning` has made. -/
structure Manager where
  m_hypoStackColl : List HypothesisStack
  objects : List SearchHypothesis
  nextId : Nat
  i : Nat
  addPruneCalls : List AddPruneCall

/-- The constructor (lines 51-69): one stack for every number of covered words from 0 to
the length of the sentence, each with the configured maximal size and beam threshold. -/
def Manager.init (env : DecoderEnv) (nBestIsEnabled : Bool) (maxHypoStackSize : Nat)
    (beamThreshold : Score) : Manager :=
  { m_hypoStackColl := List.replicate (env.sourceSize + 1)
      (HypothesisStack.init nBestIsEnabled maxHypoStackSize beamThreshold)
    objects := []
    nextId := 0
    i := 0
    addPruneCalls := [] }

/-- Lines 104 and 399: `m_hypoStackColl[index].AddPrune(hypo)`. -/
def addPruneAt [FloatAdd] (m : Manager) (index : Nat) (hypo : SearchHypothesis) :
    Except ManagerFault Manager :=
  match m.m_hypoStackColl.get? index with
  | none => .error .stackIndex
  | some stack =>
    match AddPrune stack hypo.hypo with
    | .error fault => .error (.stack fault)
    | .ok stack1 => .ok { m with m_hypoStackColl := m.m_hypoStackColl.set index stack1 }

/-- Lines 395-400 for one hypothesis of `D`: the stack is chosen by the number of words
that the hypothesis covers. -/
def addToStack [FloatAdd] (m : Manager)
    (newHypo : SearchHypothesis) : Except ManagerFault Manager :=
  let wordsTranslated := GetNumWordsCovered newHypo.wordsBitmap
  match addPruneAt m wordsTranslated newHypo with
  | .error fault => .error fault
  | .ok m1 =>
    .ok { m1 with addPruneCalls := m1.addPruneCalls ++ [⟨m1.i, wordsTranslated, newHypo⟩] }

/-- The function `CubePruning` (lines 279-401): the search over the grid, then every
hypothesis of `D` is added to the stack that its number of covered words gives. -/
def CubePruning [FloatAdd] (env : DecoderEnv) (coverageVec : List SearchHypothesis)
    (tol : List TranslationOption) (m : Manager) : Except ManagerFault Manager :=
  match cubeSearch env coverageVec tol m.nextId with
  | none => .error .emptyGrid
  | some st =>
    (cubeD st).foldlM addToStack
      { m with objects := m.objects ++ st.created, nextId := st.nextId }

/-- The function `ProcessCoverageVector` (lines 175-277): `CubePruning` for every range it
accepts, with the options of the range. -/
def ProcessCoverageVector [FloatAdd] (env : DecoderEnv) (coverageVec : List SearchHypothesis)
    (hypoBitmap : WordsBitmap) (m : Manager) : Except ManagerFault Manager :=
  match coverageVec.get? 0 with
  | none => .error .emptyGrid
  | some hypothesis =>
    (extensionRanges env hypothesis hypoBitmap).foldlM
      (fun m range => CubePruning env coverageVec (env.translationOptionList range) m) m

/-- The `Hypothesis` objects that the pointers of a list point to; `none` when a pointer
points to no object. -/
def objectsOf (objects : List SearchHypothesis) : List Hypothesis → Option (List SearchHypothesis)
  | [] => some []
  | h :: rest =>
    match objects.find? (fun o => decide (o.hypo = h)), objectsOf objects rest with
    | some o, some os => some (o :: os)
    | _, _ => none

/-- The `Hypothesis` objects of the members of a stack, in the iteration order of the
stack. -/
def stackMembers (m : Manager) (stack : HypothesisStack) : Option (List SearchHypothesis) :=
  objectsOf m.objects stack.m_hypos

/-- Modelled from the spec: `PruneToSize(newSize)`, which line 115 of `Manager.cpp` calls on
the stack and which is not in the sources at hand: the stack of `HypothesisStack.cpp` has
`PruneToSize()` only, which prunes to `m_maxHypoStackSize`.  The call is the
`prune_to_size()` of the decoder loop of the specification: the pruning of `PruneToSize()`
with `newSize` as the maximal size of the stack. -/
def PruneToSizeTo [FloatAdd] (newSize : Nat) (s : HypothesisStack) :
    Except Fault HypothesisStack :=
  PruneToSize { s with m_maxHypoStackSize := newSize }

/-- The body of the loop over the stacks (lines 112-166), for the stack with index `i`:
`PruneToSize(staticData.GetMaxHypoStackSize())`, then `ProcessCoverageVector` for every
coverage of its members, then `i++`.  The value `maxHypoStackSize` is the one that the
constructor has given to every stack (line 66).  `CleanupArcList` (line 117) changes no
member and is left out. -/
def processStack [FloatAdd] (env : DecoderEnv) (maxHypoStackSize : Nat) (m : Manager) :
    Except ManagerFault Manager :=
  match m.m_hypoStackColl.get? m.i with
  | none => .error .stackIndex
  | some sourceHypoColl =>
    match PruneToSizeTo maxHypoStackSize sourceHypoColl with
    | .error fault => .error (.stack fault)
    | .ok pruned =>
      let m1 := { m with m_hypoStackColl := m.m_hypoStackColl.set m.i pruned }
      match stackMembers m1 pruned with
      | none => .error .dangling
      | some members =>
        match (coverageInvocations env members).foldlM
            (fun m c => ProcessCoverageVector env c.1 c.2 m) m1 with
        | .error fault => .error fault
        | .ok m2 => .ok { m2 with i := m2.i + 1 }

/-- The state after the seed hypothesis was created (line 103). -/
def Manager.seeded (env : DecoderEnv) (nBestIsEnabled : Bool) (maxHypoStackSize : Nat)
    (beamThreshold : Score) : Manager :=
  { Manager.init env nBestIsEnabled maxHypoStackSize beamThreshold with
    objects := [seedHypothesis env]
    nextId := 1 }

/-- The function `ProcessSentence` (lines 87-171): the seed hypothesis is added to stack 0,
then the stacks are expanded one after the other. -/
def ProcessSentence [FloatAdd] (env : DecoderEnv) (nBestIsEnabled : Bool) (maxHypoStackSize : Nat)
    (beamThreshold : Score) : Except ManagerFault Manager :=
  match addPruneAt (Manager.seeded env nBestIsEnabled maxHypoStackSize beamThreshold) 0
      (seedHypothesis env) with
  | .error fault => .error fault
  | .ok m =>
    (List.range (env.sourceSize + 1)).foldlM
      (fun m _ => processStack env maxHypoStackSize m) m

/-- The members of the stacks with their coverage: for every stack, in order, the
identity, the score and the coverage of every member. -/
def Manager.summary (env : DecoderEnv) (m : Manager) : List (List (Nat × Int × List Nat)) :=
  m.m_hypoStackColl.map (fun stack =>
    ((stackMembers m stack).getD []).map
      (fun o => (o.hypo.id, o.hypo.score, env.compressedRepresentation o.wordsBitmap)))

/-! ## Predicates of the proofs about the stacks of the decoder loop -/

/-- What is shown of the outcome of a step of the decoder loop: a state that it returns
satisfies `P`; it runs into no fault other than an undefined stack operation; and not into
that either when `total` holds. -/
def Outcome (total : Prop) (P : Manager → Prop) : Except ManagerFault Manager → Prop
  | .ok m => P m
  | .error (.stack _) => ¬ total
  | .error _ => False

/-- The invariant of the decoder loop for a sentence of `env.sourceSize` words: there is
one stack for every number of covered words; the objects have different identities, below
the next one; every member of stack `j` is an object that covers `j` words, all of them
words of the sentence; every stack satisfies the invariant of the stack and has the beam
threshold `beam`; and every `AddPrune` call of `CubePruning` went to the stack of the number
of words covered, which is a later stack than the one expanded, and one that exists. -/
structure ManagerInv [FloatAdd] (env : DecoderEnv) (beam : Score) (m : Manager) : Prop where
  len : m.m_hypoStackColl.length = env.sourceSize + 1
  ids_lt : ∀ o ∈ m.objects, o.hypo.id < m.nextId
  ids_nodup : (m.objects.map (fun o => o.hypo.id)).Nodup
  members : ∀ j stack, m.m_hypoStackColl.get? j = some stack → ∀ h ∈ stack.m_hypos,
    ∃ o ∈ m.objects, o.hypo = h ∧ GetNumWordsCovered o.wordsBitmap = j ∧
      ∀ p ∈ o.wordsBitmap, p < env.sourceSize
  stackInv : ∀ stack ∈ m.m_hypoStackColl, Inv stack ∧ stack.m_beamThreshold = beam
  calls : ∀ c ∈ m.addPruneCalls, c.expanding < c.wordsTranslated ∧
    c.wordsTranslated ≤ env.sourceSize ∧
    GetNumWordsCovered c.newHypo.wordsBitmap = c.wordsTranslated

/-- The identities that a search gives are not below the identity it starts with. -/
def IdsFrom (n : Nat) (st : CubeState) : Prop :=
  n ≤ st.nextId ∧ ∀ a ∈ st.created, n ≤ a.hypo.id

/-! ## The best hypothesis and the n-best list: the model

Sources: `HypothesisStack::GetBestHypothesis` and `GetSortedList` of
`src/branches/hieu_async/moses/src/HypothesisStack.cpp`, `Manager::GetBestHypothesis` and
`Manager::CalcNBest` of `src/src/Manager.cpp`.  The classes `TrellisPath`,
`TrellisPathCollection`, `TrellisPathList` and `Phrase` are not part of the sources at hand:
a path is what `CalcNBest` looks at of it, the collection of contenders is modelled from the
specification, and what `TrellisPath(hypo)` and `CreateDeviantPaths` produce are parameters
of the environment `NBestEnv`. -/

/-- The function `HypothesisStack::GetBestHypothesis` (lines 217-232); `none` is `NULL`. -/
def GetBestHypothesis (s : HypothesisStack) : Option Hypothesis :=
  match s.m_hypos with
  | [] => none
  | first :: rest =>
    some (rest.foldl
      (fun bestHypo hypo => if hypo.score > bestHypo.score then hypo else bestHypo) first)

/-- The function `Manager::GetBestHypothesis` (lines 408-412): the best hypothesis of
`m_hypoStackColl.back()`; without any stack `back()` is undefined. -/
def Manager.GetBestHypothesis (m : Manager) : Except ManagerFault (Option Hypothesis) :=
  match m.m_hypoStackColl.getLast? with
  | none => .error .stackIndex
  | some hypoColl => .ok (Moses.GetBestHypothesis hypoColl)

/-- The function `HypothesisStack::GetSortedList` (lines 234-241): the members, sorted.  The
comparison `CompareHypothesisTotalScore` is modelled from its name: total score descending.
`std::sort` leaves the order of members with equal scores open; the model keeps them in the
iteration order of the set, which is one of the orders that `std::sort` may give. -/
def GetSortedList (s : HypothesisStack) : List Hypothesis :=
  s.m_hypos.insertionSort (fun a b => b.score ≤ a.score)

/-- Modelled from the spec: a `TrellisPath`, a path through the hypothesis graph, with the
identities of the hypotheses on it, its score and its surface phrase. -/
structure TrellisPath where
  edges : List Nat
  score : Int
  surfacePhrase : List Nat
deriving DecidableEq, Repr

/-- The collaborators of `CalcNBest` that are not part of the sources at hand, as
parameters: the path `TrellisPath(hypo)` of a hypothesis of the final stack, the paths that
`CreateDeviantPaths` adds to the contenders for a path, and the configured n-best factor. -/
structure NBestEnv where
  purePath : Hypothesis → TrellisPath
  deviantPaths : TrellisPath → List TrellisPath
  nBestFactor : Nat

/-- Modelled from the spec: `TrellisPathCollection::Add`; the contenders are ordered by
path score, descending. -/
def contendersAdd (path : TrellisPath) : List TrellisPath → List TrellisPath
  | [] => [path]
  | other :: rest =>
    if other.score < path.score then path :: other :: rest
    else other :: contendersAdd path rest

/-- Modelled from the spec: `TrellisPathCollection::Prune`, which keeps the best `newSize`
contenders. -/
def contendersPrune (newSize : Nat) (contenders : List TrellisPath) : List TrellisPath :=
  contenders.take newSize

/-- Insertion into the `set<Phrase>` `distinctHyps`, of which only the size is read. -/
def phraseSetInsert (phrase : List Nat) (set : List (List Nat)) : List (List Nat) :=
  if phrase ∈ set then set else set ++ [phrase]

/-- A product of two `size_t` values. -/
def sizeMul (a b : Nat) : Nat := (a * b) % (SIZE_MAX + 1)

/-- The variables of the main loop of `CalcNBest`. -/
structure NBestState where
  ret : List TrellisPath
  contenders : List TrellisPath
  distinctHyps : List (List Nat)
  iteration : Nat

/-- The condition of the main loop (line 483). -/
def nbestContinues (count : Nat) (onlyDistinct : Bool) (st : NBestState) : Bool :=
  decide ((if onlyDistinct then st.distinctHyps.length else st.ret.length) < count) &&
    decide (st.contenders.length > 0) && decide (st.iteration < sizeMul count 20)

/-- The body of the main loop (lines 485-507) with the increment of `iteration`. -/
def nbestBody (env : NBestEnv) (count : Nat) (onlyDistinct : Bool) (st : NBestState) :
    NBestState :=
  match st.contenders with
  | [] => st
  | path :: rest =>
    let distinctHyps :=
      if onlyDistinct then phraseSetInsert path.surfacePhrase st.distinctHyps
      else st.distinctHyps
    let ret := st.ret ++ [path]
    let contenders := (env.deviantPaths path).foldl (fun c p => contendersAdd p c) rest
    let contenders :=
      if onlyDistinct then
        if env.nBestFactor > 0 then contendersPrune (sizeMul count env.nBestFactor) contenders
        else contenders
      else contendersPrune count contenders
    { ret := ret, contenders := contenders, distinctHyps := distinctHyps
      iteration := st.iteration + 1 }

/-- The main loop (line 483), for at most `fuel` iterations. -/
def nbestLoop (env : NBestEnv) (count : Nat) (onlyDistinct : Bool) :
    Nat → NBestState → NBestState
  | 0, st => st
  | fuel + 1, st =>
    if nbestContinues count onlyDistinct st then
      nbestLoop env count onlyDistinct fuel (nbestBody env count onlyDistinct st)
    else st

/-- The function `Manager::CalcNBest` (lines 459-509) for the final stack
`m_hypoStackColl.back()`: the variables when it returns, `ret` among them.  The loop is
given `count * 20` iterations, which is all its condition allows. -/
def CalcNBest (env : NBestEnv) (finalStack : HypothesisStack) (count : Nat)
    (ret : List TrellisPath) (onlyDistinct : Bool) : NBestState :=
  if count ≤ 0 then { ret := ret, contenders := [], distinctHyps := [], iteration := 0 }
  else
    let sortedPureHypo := GetSortedList finalStack
    if sortedPureHypo.length = 0 then
      { ret := ret, contenders := [], distinctHyps := [], iteration := 0 }
    else
      let contenders :=
        sortedPureHypo.foldl (fun c hypo => contendersAdd (env.purePath hypo) c) []
      nbestLoop env count onlyDistinct (sizeMul count 20)
        { ret := ret, contenders := contenders, distinctHyps := [], iteration := 0 }

/-- An environment for the examples: the path of a hypothesis of the final stack has the
identity of the hypothesis as only edge, its score, and the surface phrase that `phrases`
lists for the identity; the deviations of a path are the paths that `deviations` lists for
its edges. -/
def exampleNBestEnv (phrases : List (Nat × List Nat))
    (deviations : List (List Nat × TrellisPath)) (nBestFactor : Nat) : NBestEnv :=
  { purePath := fun hypo => ⟨[hypo.id], hypo.score, (phrases.lookup hypo.id).getD []⟩
    deviantPaths := fun path =>
      (deviations.filter (fun d => decide (d.1 = path.edges))).map Prod.snd
    nBestFactor := nBestFactor }

/-- The first candidate of the main loop of `CubePruning` is at grid position `(0, 0)`, and
it is in `buf` from the first iteration on. -/
def OriginFirst (st : CubeState) : Prop :=
  (st.buf = [] ∧ ∀ a ∈ st.cand, a.gridX = 0 ∧ a.gridY = 0) ∨
    ∃ b ∈ st.buf, b.gridX = 0 ∧ b.gridY = 0

/-! ## The set and the heap -/

theorem setInsert_perm (hypo : Hypothesis) (l : List Hypothesis) :
    (setInsert hypo l).Perm (hypo :: l) := by
  induction l with
  | nil => exact List.Perm.refl _
  | cons m rest ih =>
    unfold setInsert
    split
    · exact List.Perm.refl _
    · exact (List.Perm.cons m ih).trans (List.Perm.swap hypo m rest)

theorem findEquiv_none {hypo : Hypothesis} {l : List Hypothesis}
    (h : findEquiv hypo l = none) : ∀ m ∈ l, m.key ≠ hypo.key := by
  intro m hm
  have := List.find?_eq_none.mp h m hm
  simpa using this

theorem findEquiv_some {hypo e : Hypothesis} {l : List Hypothesis}
    (h : findEquiv hypo l = some e) : e ∈ l ∧ e.key = hypo.key := by
  refine ⟨List.mem_of_find?_eq_some h, ?_⟩
  have := List.find?_some h
  simpa using this

theorem findEquiv_of_mem {hypo e : Hypothesis} {l : List Hypothesis}
    (he : e ∈ l) (hk : e.key = hypo.key) : ∃ e1, findEquiv hypo l = some e1 := by
  cases hf : findEquiv hypo l with
  | some e1 => exact ⟨e1, rfl⟩
  | none => exact absurd hk (findEquiv_none hf e he)

theorem pqPush_perm (x : Int) (q : List Int) : (pqPush x q).Perm (x :: q) := by
  induction q with
  | nil => exact List.Perm.refl _
  | cons y q ih =>
    unfold pqPush
    split
    · exact List.Perm.refl _
    · exact (List.Perm.cons y ih).trans (List.Perm.swap x y q)

theorem pqPush_sorted (x : Int) (q : List Int) (hq : q.Pairwise (fun a b => b ≤ a)) :
    (pqPush x q).Pairwise (fun a b => b ≤ a) := by
  induction q with
  | nil => simp [pqPush]
  | cons y q ih =>
    unfold pqPush
    have hy := List.pairwise_cons.mp hq
    split
    · rename_i hyx
      refine List.pairwise_cons.mpr ⟨?_, hq⟩
      intro z hz
      rcases List.mem_cons.mp hz with rfl | hz
      · exact hyx
      · exact le_trans (hy.1 z hz) hyx
    · rename_i hyx
      refine List.pairwise_cons.mpr ⟨?_, ih hy.2⟩
      intro z hz
      rcases List.mem_cons.mp ((pqPush_perm x q).mem_iff.mp hz) with rfl | hz
      · omega
      · exact hy.1 z hz

theorem pushScores_perm (bound : Score) (l : List Hypothesis) (q : List Int) :
    (pushScores bound l q).Perm (scoresAbove bound l ++ q) := by
  induction l generalizing q with
  | nil => simp [pushScores, scoresAbove]
  | cons m rest ih =>
    unfold pushScores
    by_cases hb : bound < (m.score : Score)
    · rw [if_pos hb]
      refine (ih _).trans ?_
      have h1 : scoresAbove bound (m :: rest) = m.score :: scoresAbove bound rest := by
        simp [scoresAbove, hb]
      rw [h1]
      refine (List.Perm.append_left _ (pqPush_perm m.score q)).trans ?_
      exact List.perm_middle
    · rw [if_neg hb]
      have h1 : scoresAbove bound (m :: rest) = scoresAbove bound rest := by
        simp [scoresAbove, hb]
      rw [h1]
      exact ih q

theorem pushScores_sorted (bound : Score) (l : List Hypothesis) (q : List Int)
    (hq : q.Pairwise (fun a b => b ≤ a)) :
    (pushScores bound l q).Pairwise (fun a b => b ≤ a) := by
  induction l generalizing q with
  | nil => simpa [pushScores] using hq
  | cons m rest ih =>
    unfold pushScores
    split
    · exact ih _ (pqPush_sorted _ _ hq)
    · exact ih _ hq

theorem popLoop_top_none (k : Nat) (q : List Int) :
    pqTop (popLoop k q) = none ↔ q.length ≤ k := by
  induction k generalizing q with
  | zero => cases q <;> simp [popLoop, pqTop]
  | succ k ih =>
    cases q with
    | nil => simp [popLoop, pqPop, ih]
    | cons y q => simp [popLoop, pqPop, ih]

theorem popLoop_top_some (k : Nat) (q : List Int) (t : Int)
    (hq : q.Pairwise (fun a b => b ≤ a)) (ht : pqTop (popLoop k q) = some t) :
    t ∈ q ∧ q.countP (fun x => decide (t < x)) ≤ k ∧
      k + 1 ≤ q.countP (fun x => decide (t ≤ x)) := by
  induction k generalizing q with
  | zero =>
    cases q with
    | nil => simp [popLoop, pqTop] at ht
    | cons y q =>
      simp only [popLoop, pqTop, List.head?_cons, Option.some.injEq] at ht
      subst ht
      have hy := List.pairwise_cons.mp hq
      refine ⟨List.mem_cons_self _ _, ?_, ?_⟩
      · rw [Nat.le_zero, List.countP_eq_zero]
        intro z hz
        rcases List.mem_cons.mp hz with rfl | hz
        · simp
        · have := hy.1 z hz
          simp only [decide_eq_true_eq]; omega
      · simp [List.countP_cons]
  | succ k ih =>
    cases q with
    | nil =>
      have hn := (popLoop_top_none (k + 1) []).mpr (by simp)
      rw [hn] at ht
      exact absurd ht (by simp)
    | cons y q =>
      simp only [popLoop, pqPop, List.tail_cons] at ht
      have hy := List.pairwise_cons.mp hq
      obtain ⟨h1, h2, h3⟩ := ih q hy.2 ht
      have hty : t ≤ y := hy.1 t h1
      refine ⟨List.mem_cons_of_mem _ h1, ?_, ?_⟩
      · rw [List.countP_cons]
        split <;> omega
      · rw [List.countP_cons]
        simp only [hty, decide_True, if_true]
        omega

/-- Two values at the same rank of the same list are equal. -/
theorem rank_unique (L : List Int) (k : Nat) (t u : Int)
    (ht1 : L.countP (fun x => decide (t < x)) ≤ k)
    (ht2 : k + 1 ≤ L.countP (fun x => decide (t ≤ x)))
    (hu1 : L.countP (fun x => decide (u < x)) ≤ k)
    (hu2 : k + 1 ≤ L.countP (fun x => decide (u ≤ x))) : t = u := by
  rcases lt_trichotomy t u with h | h | h
  · exfalso
    have : L.countP (fun x => decide (u ≤ x)) ≤ L.countP (fun x => decide (t < x)) := by
      apply List.countP_mono_left
      intro x _ hx
      simp only [decide_eq_true_eq] at hx ⊢
      omega
    omega
  · exact h
  · exfalso
    have : L.countP (fun x => decide (t ≤ x)) ≤ L.countP (fun x => decide (u < x)) := by
      apply List.countP_mono_left
      intro x _ hx
      simp only [decide_eq_true_eq] at hx ⊢
      omega
    omega

/-! ## The addition of binary32 is an addition of `float` -/

theorem roundTo_mono {u n m : Nat} (hu : 0 < u) (h : n ≤ m) : roundTo u n ≤ roundTo u m := by
  unfold roundTo
  apply Nat.mul_le_mul_left
  have hq : n / u ≤ m / u := Nat.div_le_div_right h
  have hn := Nat.div_add_mod n u
  have hm := Nat.div_add_mod m u
  have hrn := Nat.mod_lt n hu
  have hrm := Nat.mod_lt m hu
  generalize n / u = qn at *
  generalize m / u = qm at *
  generalize n % u = rn at *
  generalize m % u = rm at *
  rcases Nat.lt_or_ge qn qm with hlt | hge
  · split_ifs <;> omega
  · have heq : qn = qm := by omega
    subst heq
    split_ifs <;> omega

/-- A multiple of the spacing is not rounded. -/
theorem roundTo_mul (u k : Nat) (hu : 0 < u) : roundTo u (k * u) = k * u := by
  unfold roundTo
  rw [Nat.mul_mod_left, Nat.mul_div_cancel _ hu]
  simp [hu, Nat.mul_comm]

/-- The spacing at `n` is a power of two `2^i`, with `n` at least `2^(23+i)` unless `i` is 0
and below `2^(24+i)` unless the recursion has run out. -/
theorem spacing_spec (fuel : Nat) : ∀ n, ∃ i, i ≤ fuel ∧ spacing fuel n = 2 ^ i ∧
    (0 < i → 2 ^ (23 + i) ≤ n) ∧ (i < fuel → n < 2 ^ (24 + i)) := by
  induction fuel with
  | zero =>
    intro n
    exact ⟨0, le_refl _, rfl, fun h => absurd h (lt_irrefl _), fun h => absurd h (lt_irrefl _)⟩
  | succ fuel ih =>
    intro n
    by_cases hn : n < 16777216
    · refine ⟨0, Nat.zero_le _, ?_, fun h => absurd h (lt_irrefl _), fun _ => ?_⟩
      · simp [spacing, hn]
      · simpa using hn
    · obtain ⟨i, hi, hs, h1, h2⟩ := ih (n / 2)
      refine ⟨i + 1, by omega, ?_, fun _ => ?_, fun h => ?_⟩
      · simp [spacing, hn, hs, pow_succ, Nat.mul_comm]
      · rcases Nat.eq_zero_or_pos i with h0 | hpos
        · subst h0
          have : (2 : Nat) ^ (23 + (0 + 1)) = 16777216 := by norm_num
          omega
        · have := h1 hpos
          have e : (2 : Nat) ^ (23 + (i + 1)) = 2 * 2 ^ (23 + i) := by
            rw [← Nat.add_assoc, pow_succ, Nat.mul_comm]
          omega
      · have := h2 (by omega)
        have e : (2 : Nat) ^ (24 + (i + 1)) = 2 * 2 ^ (24 + i) := by
          rw [← Nat.add_assoc, pow_succ, Nat.mul_comm]
        omega

theorem spacing_mono (fuel : Nat) : ∀ n m, n ≤ m → spacing fuel n ≤ spacing fuel m := by
  induction fuel with
  | zero => intro n m _; exact le_refl _
  | succ fuel ih =>
    intro n m h
    unfold spacing
    by_cases hm : m < 16777216
    · have hn : n < 16777216 := by omega
      simp [hn, hm]
    · by_cases hn : n < 16777216
      · simp only [hn, hm, if_true, if_false]
        obtain ⟨i, _, hs, _⟩ := spacing_spec fuel (m / 2)
        have : 0 < 2 ^ i := Nat.two_pow_pos _
        omega
      · simp only [hn, hm, if_false]
        have := ih (n / 2) (m / 2) (Nat.div_le_div_right h)
        omega

theorem roundNat_mono {n m : Nat} (h : n ≤ m) : roundNat n ≤ roundNat m := by
  unfold roundNat
  obtain ⟨i, hi, hsi, hi1, hi2⟩ := spacing_spec 104 n
  obtain ⟨j, hj, hsj, hj1, hj2⟩ := spacing_spec 104 m
  have hle := spacing_mono 104 n m h
  rw [hsi, hsj] at hle ⊢
  have hij : i ≤ j := (Nat.pow_le_pow_iff_right (by norm_num)).mp hle
  have hui : 0 < 2 ^ i := Nat.two_pow_pos _
  have huj : 0 < 2 ^ j := Nat.two_pow_pos _
  rcases Nat.eq_or_lt_of_le hij with heq | hlt
  · subst heq
    exact roundTo_mono hui h
  · -- a power of two that both spacings divide lies between `n` and `m`
    have hn := hi2 (by omega)
    have hm := hj1 (by omega)
    have h1 : roundTo (2 ^ i) n ≤ 2 ^ (24 + i) := by
      have := roundTo_mono hui (le_of_lt hn)
      rw [pow_add, roundTo_mul _ _ hui] at this
      rw [pow_add]; exact this
    have h2 : 2 ^ (23 + j) ≤ roundTo (2 ^ j) m := by
      have := roundTo_mono huj hm
      rw [pow_add, roundTo_mul _ _ huj] at this
      rw [pow_add]; exact this
    have h3 : (2 : Nat) ^ (24 + i) ≤ 2 ^ (23 + j) :=
      Nat.pow_le_pow_right (by norm_num) (by omega)
    omega

theorem roundInt_mono {z w : Int} (h : z ≤ w) : roundInt z ≤ roundInt w := by
  unfold roundInt
  by_cases hz : 0 ≤ z
  · have hw : 0 ≤ w := le_trans hz h
    rw [if_pos hz, if_pos hw]
    exact Int.ofNat_le.mpr (roundNat_mono (Int.toNat_le_toNat h))
  · by_cases hw : 0 ≤ w
    · rw [if_neg hz, if_pos hw]
      have h1 : (0 : Int) ≤ (roundNat w.toNat : Int) := Int.ofNat_nonneg _
      have h2 : (0 : Int) ≤ (roundNat (-z).toNat : Int) := Int.ofNat_nonneg _
      omega
    · rw [if_neg hz, if_neg hw]
      have : (roundNat (-w).toNat : Int) ≤ (roundNat (-z).toNat : Int) :=
        Int.ofNat_le.mpr (roundNat_mono (Int.toNat_le_toNat (by omega)))
      omega

/-- The addition of binary32 has what the proofs use of the addition of `float`. -/
theorem binary32_lawful : @LawfulFloatAdd binary32 := by
  refine @LawfulFloatAdd.mk binary32 ?_ ?_ ?_
  · intro a b beam h
    show binary32Sum a beam ≤ binary32Sum b beam
    induction beam using WithBot.recBotCoe with
    | bot =>
      induction a using WithBot.recBotCoe <;> induction b using WithBot.recBotCoe <;>
        exact le_refl _
    | coe c =>
      induction a using WithBot.recBotCoe with
      | bot => exact bot_le
      | coe x =>
        induction b using WithBot.recBotCoe with
        | bot => exact absurd h (not_le.mpr (WithBot.bot_lt_coe x))
        | coe y =>
          show ((roundInt (x + c) : Int) : Score) ≤ ((roundInt (y + c) : Int) : Score)
          exact WithBot.coe_le_coe.mpr
            (roundInt_mono (by have := WithBot.coe_le_coe.mp h; omega))
  · intro beam
    rfl
  · intro a
    show binary32Sum a ⊥ = ⊥
    induction a using WithBot.recBotCoe <;> rfl

/-! ## What `PruneToSize` does -/

theorem PruneToSize_noop [FloatAdd] (s : HypothesisStack)
    (h : s.m_maxHypoStackSize = SIZE_MAX ∨ s.m_hypos.length ≤ s.m_maxHypoStackSize) :
    PruneToSize s = .ok s := by
  unfold PruneToSize
  rcases h with h | h
  · rw [if_pos h]
  · split
    · rfl
    · rw [if_neg (by omega)]

theorem PruneToSize_prune [FloatAdd] (s : HypothesisStack) (hM : s.m_maxHypoStackSize ≠ SIZE_MAX)
    (hlen : s.m_maxHypoStackSize < s.m_hypos.length) :
    (scoresAbove (FloatAdd.sum s.m_bestScore s.m_beamThreshold) s.m_hypos = [] ∧
        PruneToSize s = .error Fault.emptyHeapTop) ∨
    ∃ t : Int, PruneToSize s = .ok (prunedAt s t) ∧
      t ∈ scoresAbove (FloatAdd.sum s.m_bestScore s.m_beamThreshold) s.m_hypos ∧
      (scoresAbove (FloatAdd.sum s.m_bestScore s.m_beamThreshold) s.m_hypos).countP
          (fun x => decide (t < x)) ≤
        min s.m_maxHypoStackSize
          (scoresAbove (FloatAdd.sum s.m_bestScore s.m_beamThreshold) s.m_hypos).length - 1 ∧
      min s.m_maxHypoStackSize
          (scoresAbove (FloatAdd.sum s.m_bestScore s.m_beamThreshold) s.m_hypos).length - 1 + 1 ≤
        (scoresAbove (FloatAdd.sum s.m_bestScore s.m_beamThreshold) s.m_hypos).countP
          (fun x => decide (t ≤ x)) := by
  have hperm := pushScores_perm (FloatAdd.sum s.m_bestScore s.m_beamThreshold) s.m_hypos []
  rw [List.append_nil] at hperm
  have hsorted := pushScores_sorted (FloatAdd.sum s.m_bestScore s.m_beamThreshold) s.m_hypos []
    List.Pairwise.nil
  have hk : (if s.m_maxHypoStackSize >
        (pushScores (FloatAdd.sum s.m_bestScore s.m_beamThreshold) s.m_hypos []).length
      then (pushScores (FloatAdd.sum s.m_bestScore s.m_beamThreshold) s.m_hypos []).length
      else s.m_maxHypoStackSize) =
      min s.m_maxHypoStackSize
        (scoresAbove (FloatAdd.sum s.m_bestScore s.m_beamThreshold) s.m_hypos).length := by
    rw [hperm.length_eq]
    split <;> omega
  unfold PruneToSize
  rw [if_neg hM, if_pos hlen]
  simp only [hk]
  cases htop : pqTop (popLoop (min s.m_maxHypoStackSize
      (scoresAbove (FloatAdd.sum s.m_bestScore s.m_beamThreshold) s.m_hypos).length - 1)
      (pushScores (FloatAdd.sum s.m_bestScore s.m_beamThreshold) s.m_hypos [])) with
  | none =>
    left
    refine ⟨?_, rfl⟩
    have hl := (popLoop_top_none _ _).mp htop
    rw [hperm.length_eq] at hl
    apply List.eq_nil_of_length_eq_zero
    omega
  | some t =>
    right
    obtain ⟨h1, h2, h3⟩ := popLoop_top_some _ _ t hsorted htop
    refine ⟨t, rfl, hperm.mem_iff.mp h1, ?_, ?_⟩
    · rw [← hperm.countP_eq]; exact h2
    · rw [← hperm.countP_eq]; exact h3

theorem mem_scoresAbove {bound : Score} {l : List Hypothesis} {t : Int} :
    t ∈ scoresAbove bound l ↔ ∃ m ∈ l, bound < (m.score : Score) ∧ m.score = t := by
  simp [scoresAbove, and_assoc]

theorem countP_scoresAbove (bound : Score) (l : List Hypothesis) (p : Int → Bool) :
    (scoresAbove bound l).countP p =
      l.countP (fun m => decide (bound < (m.score : Score)) && p m.score) := by
  induction l with
  | nil => rfl
  | cons m rest ih =>
    by_cases hb : bound < (m.score : Score)
    · have h1 : scoresAbove bound (m :: rest) = m.score :: scoresAbove bound rest := by
        simp [scoresAbove, hb]
      rw [h1, List.countP_cons, List.countP_cons, ih]
      simp [hb]
    · have h1 : scoresAbove bound (m :: rest) = scoresAbove bound rest := by
        simp [scoresAbove, hb]
      rw [h1, List.countP_cons, ih]
      simp [hb]

theorem countAbove_of_bound {bound : Score} {t : Int} (hbt : bound < (t : Score))
    (l : List Hypothesis) :
    (scoresAbove bound l).countP (fun x => decide (t < x)) = countAbove (t : Score) l := by
  rw [countP_scoresAbove, countAbove]
  apply List.countP_congr
  intro m _
  simp only [Bool.and_eq_true, decide_eq_true_eq, WithBot.coe_lt_coe]
  constructor
  · exact fun h => h.2
  · intro h
    exact ⟨lt_trans hbt (WithBot.coe_lt_coe.mpr h), h⟩

theorem PruneToSize_ok [FloatAdd] {s s1 : HypothesisStack} (h : PruneToSize s = .ok s1) :
    (s1 = s ∧ (s.m_maxHypoStackSize = SIZE_MAX ∨ s.m_hypos.length ≤ s.m_maxHypoStackSize)) ∨
    (s.m_maxHypoStackSize ≠ SIZE_MAX ∧ s.m_maxHypoStackSize < s.m_hypos.length ∧
      ∃ t : Int, s1 = prunedAt s t ∧
        t ∈ scoresAbove (FloatAdd.sum s.m_bestScore s.m_beamThreshold) s.m_hypos ∧
        (scoresAbove (FloatAdd.sum s.m_bestScore s.m_beamThreshold) s.m_hypos).countP
            (fun x => decide (t < x)) ≤
          min s.m_maxHypoStackSize
            (scoresAbove (FloatAdd.sum s.m_bestScore s.m_beamThreshold) s.m_hypos).length - 1 ∧
        min s.m_maxHypoStackSize
            (scoresAbove (FloatAdd.sum s.m_bestScore s.m_beamThreshold) s.m_hypos).length - 1 + 1 ≤
          (scoresAbove (FloatAdd.sum s.m_bestScore s.m_beamThreshold) s.m_hypos).countP
            (fun x => decide (t ≤ x))) := by
  by_cases hM : s.m_maxHypoStackSize = SIZE_MAX
  · left
    rw [PruneToSize_noop s (Or.inl hM)] at h
    exact ⟨(Except.ok.inj h).symm, Or.inl hM⟩
  · by_cases hlen : s.m_hypos.length ≤ s.m_maxHypoStackSize
    · left
      rw [PruneToSize_noop s (Or.inr hlen)] at h
      exact ⟨(Except.ok.inj h).symm, Or.inr hlen⟩
    · right
      refine ⟨hM, by omega, ?_⟩
      rcases PruneToSize_prune s hM (by omega) with ⟨_, he⟩ | ⟨t, ht, h1, h2, h3⟩
      · rw [he] at h; cases h
      · rw [ht] at h
        exact ⟨t, (Except.ok.inj h).symm, h1, h2, h3⟩

theorem inserted_hypos [FloatAdd] (s : HypothesisStack) (hypo : Hypothesis) :
    (inserted s hypo).m_hypos = setInsert hypo s.m_hypos := by
  unfold inserted updateScores
  split
  · split <;> rfl
  · rfl

theorem inserted_beam [FloatAdd] (s : HypothesisStack) (hypo : Hypothesis) :
    (inserted s hypo).m_beamThreshold = s.m_beamThreshold := by
  unfold inserted updateScores
  split
  · split <;> rfl
  · rfl

theorem inserted_max [FloatAdd] (s : HypothesisStack) (hypo : Hypothesis) :
    (inserted s hypo).m_maxHypoStackSize = s.m_maxHypoStackSize := by
  unfold inserted updateScores
  split
  · split <;> rfl
  · rfl

theorem inserted_stats [FloatAdd] (s : HypothesisStack) (hypo : Hypothesis) :
    (inserted s hypo).stats = s.stats := by
  unfold inserted updateScores
  split
  · split <;> rfl
  · rfl

theorem inserted_best [FloatAdd] (s : HypothesisStack) (hypo : Hypothesis) :
    (inserted s hypo).m_bestScore = max s.m_bestScore (hypo.score : Score) := by
  unfold inserted updateScores
  split
  · rename_i hb
    have : max s.m_bestScore (hypo.score : Score) = (hypo.score : Score) :=
      max_eq_right (le_of_lt hb)
    split <;> exact this.symm
  · rename_i hb
    exact (max_eq_left (not_lt.mp hb)).symm

theorem inserted_worst [FloatAdd] (s : HypothesisStack) (hypo : Hypothesis) :
    (s.m_bestScore < (hypo.score : Score) ∧
      (inserted s hypo).m_worstScore =
        max s.m_worstScore (FloatAdd.sum (hypo.score : Score) s.m_beamThreshold)) ∨
    (¬ s.m_bestScore < (hypo.score : Score) ∧
      (inserted s hypo).m_worstScore = s.m_worstScore) := by
  unfold inserted updateScores
  split
  · rename_i hb
    left
    refine ⟨hb, ?_⟩
    split
    · rename_i hw
      exact (max_eq_right (le_of_lt hw)).symm
    · rename_i hw
      exact (max_eq_left (not_lt.mp hw)).symm
  · rename_i hb
    exact Or.inr ⟨hb, rfl⟩

theorem Add_new_eq [FloatAdd] {s : HypothesisStack} {hypo : Hypothesis}
    (hf : findEquiv hypo s.m_hypos = none) :
    Add s hypo =
      if (inserted s hypo).m_hypos.length > lazyLimit s.m_maxHypoStackSize then
        (match PruneToSize (inserted s hypo) with
          | .ok s2 => Except.ok (s2, hypo, true)
          | .error e => Except.error e)
      else Except.ok (inserted s hypo, hypo, true) := by
  unfold Add
  rw [hf]
  show (if (inserted s hypo).m_hypos.length > lazyLimit (inserted s hypo).m_maxHypoStackSize
      then _ else _) = _
  rw [inserted_max]
  rfl

theorem Add_ok [FloatAdd] {s : HypothesisStack} {hypo : Hypothesis}
    {r : HypothesisStack × Hypothesis × Bool} (h : Add s hypo = .ok r) :
    (∃ e, findEquiv hypo s.m_hypos = some e ∧ r = (s, e, false)) ∨
    (findEquiv hypo s.m_hypos = none ∧ r.2 = (hypo, true) ∧
      (((inserted s hypo).m_hypos.length ≤ lazyLimit s.m_maxHypoStackSize ∧
          r.1 = inserted s hypo) ∨
        (lazyLimit s.m_maxHypoStackSize < (inserted s hypo).m_hypos.length ∧
          PruneToSize (inserted s hypo) = .ok r.1))) := by
  unfold Add at h
  cases hf : findEquiv hypo s.m_hypos with
  | some e =>
    left
    rw [hf] at h
    exact ⟨e, rfl, (Except.ok.inj h).symm⟩
  | none =>
    right
    rw [hf] at h
    simp only at h
    change (if (inserted s hypo).m_hypos.length > lazyLimit (inserted s hypo).m_maxHypoStackSize
      then (match PruneToSize (inserted s hypo) with
        | .ok s2 => Except.ok (s2, hypo, true)
        | .error e => Except.error e)
      else Except.ok (inserted s hypo, hypo, true)) = Except.ok r at h
    rw [inserted_max] at h
    refine ⟨rfl, ?_⟩
    split at h
    · rename_i hl
      cases hp : PruneToSize (inserted s hypo) with
      | error e => rw [hp] at h; cases h
      | ok s2 =>
        rw [hp] at h
        have hr := (Except.ok.inj h).symm
        subst hr
        exact ⟨rfl, Or.inr ⟨hl, rfl⟩⟩
    · rename_i hl
      have hr := (Except.ok.inj h).symm
      subst hr
      exact ⟨rfl, Or.inl ⟨by omega, rfl⟩⟩

theorem loserRemoved_fields (s : HypothesisStack) (hypo e : Hypothesis) :
    (loserRemoved s hypo e).m_hypos = s.m_hypos.erase e ∧
    (loserRemoved s hypo e).m_bestScore = s.m_bestScore ∧
    (loserRemoved s hypo e).m_worstScore = s.m_worstScore ∧
    (loserRemoved s hypo e).m_beamThreshold = s.m_beamThreshold ∧
    (loserRemoved s hypo e).m_maxHypoStackSize = s.m_maxHypoStackSize ∧
    (loserRemoved s hypo e).stats.recombinations = s.stats.recombinations + 1 := by
  unfold loserRemoved detach
  split <;> exact ⟨rfl, rfl, rfl, rfl, rfl, rfl⟩

theorem loserDropped_core (s : HypothesisStack) (hypo e : Hypothesis) :
    SameCore s (loserDropped s hypo e) ∧
    (loserDropped s hypo e).stats.recombinations = s.stats.recombinations + 1 := by
  unfold loserDropped SameCore
  split <;> exact ⟨⟨rfl, rfl, rfl, rfl, rfl⟩, rfl⟩

theorem AddPrune_discard [FloatAdd] {s : HypothesisStack} {hypo : Hypothesis}
    (h : (hypo.score : Score) < s.m_worstScore) : AddPrune s hypo = .ok (discarded s hypo) := by
  unfold AddPrune discarded
  rw [if_pos h]

theorem AddPrune_eq [FloatAdd] {s : HypothesisStack} {hypo : Hypothesis}
    (hw : ¬ (hypo.score : Score) < s.m_worstScore) :
    AddPrune s hypo =
      match findEquiv hypo s.m_hypos with
      | none =>
        (match Add s hypo with
        | .ok (s1, _, _) => .ok s1
        | .error e => .error e)
      | some hypoExisting =>
        if hypoExisting.score < hypo.score then
          (match Add (loserRemoved s hypo hypoExisting) hypo with
          | .error e => .error e
          | .ok (s4, _, true) => .ok s4
          | .ok (_, _, false) => .error Fault.assertFailed)
        else .ok (loserDropped s hypo hypoExisting) := by
  unfold AddPrune
  rw [if_neg hw]
  cases hf : findEquiv hypo s.m_hypos with
  | none =>
    simp only
    cases ha : Add s hypo with
    | error e => rfl
    | ok r =>
      rcases Add_ok ha with ⟨e, he, _⟩ | ⟨_, h2, _⟩
      · rw [hf] at he; cases he
      · obtain ⟨s1, x, b⟩ := r
        simp only [Prod.mk.injEq] at h2
        obtain ⟨rfl, rfl⟩ := h2
        rfl
  | some e =>
    have ha : Add s hypo = .ok (s, e, false) := by
      unfold Add
      rw [hf]
    rw [ha]
    simp only
    unfold loserRemoved loserDropped
    by_cases hs : e.score < hypo.score
    · rw [if_pos hs, if_pos hs]
    · rw [if_neg hs, if_neg hs]
      cases s.m_nBestIsEnabled <;> rfl

theorem Local.congr_core [FloatAdd] {s s1 : HypothesisStack} (hc : SameCore s s1) (h : Local s) :
    Local s1 := by
  obtain ⟨h1, h2, h3, h4, h5⟩ := hc
  constructor
  · rw [h1]; exact h.noEquiv
  · rw [h1, h2]; exact h.le_best
  · rw [h2, h3, h4]; exact h.beam_le_worst
  · rw [h1, h2, h3, h4]; exact h.above_beam
  · rw [h1, h2]; exact h.best_attained

theorem Inv.congr_inv [FloatAdd] {s s1 : HypothesisStack} (hc : SameCore s s1) (h : Inv s) :
    Inv s1 := by
  refine ⟨h.loc.congr_core hc, ?_⟩
  obtain ⟨h1, h2, h3, h4, h5⟩ := hc
  rw [h1, h5]
  intro a b c
  have hp := h.pruned a b c
  constructor
  · rw [h1, h3]; exact hp.ge_worst
  · rw [h1, h3, h5]; exact hp.few_above
  · rw [h2, h3, h4]; exact hp.beam_lt_worst

theorem NoEquiv.insert {l : List Hypothesis} {hypo : Hypothesis} (hl : NoEquiv l)
    (hk : ∀ m ∈ l, m.key ≠ hypo.key) : NoEquiv (setInsert hypo l) := by
  have h1 : NoEquiv (hypo :: l) :=
    List.pairwise_cons.mpr ⟨fun m hm => fun h => hk m hm h.symm, hl⟩
  unfold NoEquiv at h1 ⊢
  exact ((setInsert_perm hypo l).pairwise_iff (fun h => h.symm)).mpr h1

theorem NoEquiv.key_inj {l : List Hypothesis} (hl : NoEquiv l) {a b : Hypothesis}
    (ha : a ∈ l) (hb : b ∈ l) (hk : a.key = b.key) : a = b := by
  by_contra hne
  exact hl.forall (fun _ _ h => h.symm) ha hb hne hk

theorem NoEquiv.nodup {l : List Hypothesis} (hl : NoEquiv l) : l.Nodup :=
  List.Pairwise.imp (fun h => fun hab => h (hab ▸ rfl)) hl

theorem NoEquiv.erase_key {l : List Hypothesis} (hl : NoEquiv l) {e hypo : Hypothesis}
    (he : e ∈ l) (hk : e.key = hypo.key) : ∀ m ∈ l.erase e, m.key ≠ hypo.key := by
  intro m hm hmk
  have hm2 := (hl.nodup.mem_erase_iff).mp hm
  exact hm2.1 (hl.key_inj hm2.2 he (hmk.trans hk.symm))

/-- In a set without equivalent members the members equivalent to a member are that member. -/
theorem NoEquiv.filter_key {l : List Hypothesis} (hl : NoEquiv l) {m : Hypothesis}
    (hm : m ∈ l) : l.filter (fun x => x.key == m.key) = [m] := by
  induction l with
  | nil => cases hm
  | cons a rest ih =>
    have hp := List.pairwise_cons.mp hl
    rcases List.mem_cons.mp hm with rfl | hm1
    · have : rest.filter (fun x => x.key == m.key) = [] := by
        rw [List.filter_eq_nil_iff]
        intro x hx
        have := hp.1 x hx
        simpa using fun h => this h.symm
      simp [List.filter_cons, this]
    · have hne : ¬ a.key = m.key := hp.1 m hm1
      simp [List.filter_cons, hne, ih hp.2 hm1]

theorem Local.of_inserted [FloatAdd] [LawfulFloatAdd] {s : HypothesisStack} {hypo : Hypothesis}
    (hne : NoEquiv s.m_hypos) (hk : ∀ m ∈ s.m_hypos, m.key ≠ hypo.key)
    (hle : ∀ m ∈ s.m_hypos, (m.score : Score) ≤ s.m_bestScore)
    (hbw : FloatAdd.sum s.m_bestScore s.m_beamThreshold ≤ s.m_worstScore)
    (hab : ∀ m ∈ s.m_hypos, FloatAdd.sum s.m_bestScore s.m_beamThreshold < (m.score : Score) →
      s.m_worstScore ≤ (m.score : Score))
    (hat : (∃ m ∈ s.m_hypos, (m.score : Score) = s.m_bestScore) ∨
      s.m_bestScore < (hypo.score : Score))
    (hw : s.m_worstScore ≤ (hypo.score : Score)) : Local (inserted s hypo) := by
  have hmem : ∀ m, m ∈ (inserted s hypo).m_hypos ↔ m = hypo ∨ m ∈ s.m_hypos := by
    intro m
    rw [inserted_hypos, (setInsert_perm hypo s.m_hypos).mem_iff, List.mem_cons]
  have hbest := inserted_best s hypo
  have hbeam := inserted_beam s hypo
  have hmono : FloatAdd.sum s.m_bestScore s.m_beamThreshold ≤
      FloatAdd.sum (inserted s hypo).m_bestScore (inserted s hypo).m_beamThreshold := by
    rw [hbest, hbeam]
    exact LawfulFloatAdd.mono _ _ _ (le_max_left _ _)
  constructor
  · rw [inserted_hypos]; exact hne.insert hk
  · intro m hm
    rw [hbest]
    rcases (hmem m).mp hm with rfl | hm
    · exact le_max_right _ _
    · exact le_trans (hle m hm) (le_max_left _ _)
  · rcases inserted_worst s hypo with ⟨hb, hw1⟩ | ⟨hb, hw1⟩
    · rw [hw1, hbest, hbeam, max_eq_right (le_of_lt hb)]
      exact le_max_right _ _
    · rw [hw1, hbest, hbeam, max_eq_left (not_lt.mp hb)]
      exact hbw
  · intro m hm hlt
    rcases inserted_worst s hypo with ⟨hb, hw1⟩ | ⟨hb, hw1⟩
    · rw [hw1]
      rw [hbest, hbeam, max_eq_right (le_of_lt hb)] at hlt
      refine max_le ?_ (le_of_lt hlt)
      rcases (hmem m).mp hm with rfl | hm
      · exact hw
      · exact hab m hm (lt_of_le_of_lt (LawfulFloatAdd.mono _ _ _ (le_of_lt hb)) hlt)
    · rw [hw1]
      rcases (hmem m).mp hm with rfl | hm
      · exact hw
      · exact hab m hm (lt_of_le_of_lt hmono hlt)
  · right
    rw [hbest]
    by_cases hb : s.m_bestScore < (hypo.score : Score)
    · exact ⟨hypo, (hmem hypo).mpr (Or.inl rfl), (max_eq_right (le_of_lt hb)).symm⟩
    · rw [max_eq_left (not_lt.mp hb)]
      rcases hat with ⟨m, hm, hms⟩ | hlt
      · exact ⟨m, (hmem m).mpr (Or.inr hm), hms⟩
      · exact absurd hlt hb

theorem mem_prunedAt {s : HypothesisStack} {t : Int} {m : Hypothesis} :
    m ∈ (prunedAt s t).m_hypos ↔ m ∈ s.m_hypos ∧ t ≤ m.score := by
  simp [prunedAt]

theorem Local.prunedAt_local [FloatAdd] {s : HypothesisStack} {t : Int} (hl : Local s)
    (ht : t ∈ scoresAbove (FloatAdd.sum s.m_bestScore s.m_beamThreshold) s.m_hypos) :
    Local (prunedAt s t) := by
  obtain ⟨m0, hm0, hb0, rfl⟩ := mem_scoresAbove.mp ht
  constructor
  · exact List.Pairwise.filter _ hl.noEquiv
  · intro m hm
    exact hl.le_best m (mem_prunedAt.mp hm).1
  · exact le_of_lt hb0
  · intro m hm _
    exact WithBot.coe_le_coe.mpr (mem_prunedAt.mp hm).2
  · rcases hl.best_attained with hb | ⟨m, hm, hms⟩
    · exact Or.inl hb
    · right
      refine ⟨m, mem_prunedAt.mpr ⟨hm, ?_⟩, hms⟩
      have h1 : ((m0.score : Int) : Score) ≤ (m.score : Score) := by
        rw [hms]; exact hl.le_best m0 hm0
      exact WithBot.coe_le_coe.mp h1

theorem Pruned.after_prune [FloatAdd] {s : HypothesisStack} {t : Int}
    (ht : t ∈ scoresAbove (FloatAdd.sum s.m_bestScore s.m_beamThreshold) s.m_hypos)
    (hc : (scoresAbove (FloatAdd.sum s.m_bestScore s.m_beamThreshold) s.m_hypos).countP
        (fun x => decide (t < x)) ≤
      min s.m_maxHypoStackSize
        (scoresAbove (FloatAdd.sum s.m_bestScore s.m_beamThreshold) s.m_hypos).length - 1) :
    Pruned (prunedAt s t) := by
  obtain ⟨m0, hm0, hb0, rfl⟩ := mem_scoresAbove.mp ht
  constructor
  · intro m hm
    exact WithBot.coe_le_coe.mpr (mem_prunedAt.mp hm).2
  · rw [countAbove_of_bound hb0] at hc
    have h1 : countAbove ((m0.score : Int) : Score) (prunedAt s m0.score).m_hypos ≤
        countAbove ((m0.score : Int) : Score) s.m_hypos :=
      List.Sublist.countP_le _ (List.filter_sublist _)
    have h2 : min s.m_maxHypoStackSize
        (scoresAbove (FloatAdd.sum s.m_bestScore s.m_beamThreshold) s.m_hypos).length - 1 ≤
        s.m_maxHypoStackSize - 1 := by omega
    exact le_trans h1 (le_trans hc h2)
  · exact hb0

theorem Inv.of_PruneToSize [FloatAdd] {s s1 : HypothesisStack} (hl : Local s)
    (hp : PruneToSize s = .ok s1) : Inv s1 := by
  rcases PruneToSize_ok hp with ⟨rfl, hn⟩ | ⟨_, _, t, rfl, ht, hc, _⟩
  · refine ⟨hl, ?_⟩
    intro _ h2 h3
    rcases hn with hn | hn
    · exact absurd hn h2
    · omega
  · exact ⟨hl.prunedAt_local ht, fun _ _ _ => Pruned.after_prune ht hc⟩

theorem Inv.of_Add_new [FloatAdd] {s : HypothesisStack} {hypo : Hypothesis}
    {r : HypothesisStack × Hypothesis × Bool} (hl : Local (inserted s hypo))
    (hf : findEquiv hypo s.m_hypos = none) (ha : Add s hypo = .ok r) : Inv r.1 := by
  rcases Add_ok ha with ⟨e, he, _⟩ | ⟨_, _, ⟨hlen, hr⟩ | ⟨_, hp⟩⟩
  · rw [hf] at he; cases he
  · rw [hr]
    refine ⟨hl, ?_⟩
    intro h1 _ _
    rw [inserted_max] at h1
    omega
  · exact Inv.of_PruneToSize hl hp

theorem Local.best_or_lt [FloatAdd] {s : HypothesisStack} (hl : Local s) (hypo : Hypothesis) :
    (∃ m ∈ s.m_hypos, (m.score : Score) = s.m_bestScore) ∨
      s.m_bestScore < (hypo.score : Score) := by
  rcases hl.best_attained with hb | h
  · right; rw [hb]; exact WithBot.bot_lt_coe _
  · exact Or.inl h

/-- The local invariants hold after the insertion of `AddPrune` when `hypo` has no
equivalent member. -/
theorem Local.inserted_new [FloatAdd] [LawfulFloatAdd] {s : HypothesisStack} {hypo : Hypothesis}
    (hl : Local s)
    (hw : ¬ (hypo.score : Score) < s.m_worstScore)
    (hf : findEquiv hypo s.m_hypos = none) : Local (inserted s hypo) :=
  Local.of_inserted hl.noEquiv (findEquiv_none hf) hl.le_best hl.beam_le_worst hl.above_beam
    (hl.best_or_lt hypo) (not_lt.mp hw)

/-- The local invariants hold after the re-insertion of `AddPrune` when `hypo` replaces the
equivalent member `e`. -/
theorem Local.inserted_replace [FloatAdd] [LawfulFloatAdd] {s : HypothesisStack}
    {hypo e : Hypothesis} (hl : Local s)
    (hw : ¬ (hypo.score : Score) < s.m_worstScore)
    (hf : findEquiv hypo s.m_hypos = some e) (hs : e.score < hypo.score) :
    Local (inserted (loserRemoved s hypo e) hypo) := by
  obtain ⟨h1, h2, h3, h4, _, _⟩ := loserRemoved_fields s hypo e
  obtain ⟨he, hk⟩ := findEquiv_some hf
  have hsub : ∀ m ∈ s.m_hypos.erase e, m ∈ s.m_hypos := fun m hm => List.mem_of_mem_erase hm
  apply Local.of_inserted
  · rw [h1]; exact List.Pairwise.sublist (List.erase_sublist _ _) hl.noEquiv
  · rw [h1]; exact hl.noEquiv.erase_key he hk
  · rw [h1, h2]; exact fun m hm => hl.le_best m (hsub m hm)
  · rw [h2, h3, h4]; exact hl.beam_le_worst
  · rw [h1, h2, h3, h4]; exact fun m hm => hl.above_beam m (hsub m hm)
  · rw [h1, h2]
    rcases hl.best_attained with hb | ⟨m, hm, hms⟩
    · right; rw [hb]; exact WithBot.bot_lt_coe _
    · by_cases hme : m = e
      · right
        rw [← hms, hme]
        exact WithBot.coe_lt_coe.mpr hs
      · exact Or.inl ⟨m, (hl.noEquiv.nodup.mem_erase_iff).mpr ⟨hme, hm⟩, hms⟩
  · rw [h3]; exact not_lt.mp hw

theorem findEquiv_loserRemoved {s : HypothesisStack} {hypo e : Hypothesis}
    (hne : NoEquiv s.m_hypos) (hf : findEquiv hypo s.m_hypos = some e) :
    findEquiv hypo (loserRemoved s hypo e).m_hypos = none := by
  obtain ⟨he, hk⟩ := findEquiv_some hf
  rw [(loserRemoved_fields s hypo e).1]
  unfold findEquiv
  rw [List.find?_eq_none]
  intro m hm
  simpa using hne.erase_key he hk m hm

/-- The invariant is kept by `AddPrune`. -/
theorem Inv.of_AddPrune [FloatAdd] [LawfulFloatAdd] {s s1 : HypothesisStack} {hypo : Hypothesis}
    (hi : Inv s)
    (ha : AddPrune s hypo = .ok s1) : Inv s1 := by
  by_cases hw : (hypo.score : Score) < s.m_worstScore
  · rw [AddPrune_discard hw] at ha
    rw [← Except.ok.inj ha]
    have hc : SameCore s (discarded s hypo) := ⟨rfl, rfl, rfl, rfl, rfl⟩
    exact hi.congr_inv hc
  · rw [AddPrune_eq hw] at ha
    cases hf : findEquiv hypo s.m_hypos with
    | none =>
      rw [hf] at ha
      simp only at ha
      cases hadd : Add s hypo with
      | error e => rw [hadd] at ha; cases ha
      | ok r =>
        rw [hadd] at ha
        obtain ⟨r1, r2, r3⟩ := r
        simp only at ha
        rw [← Except.ok.inj ha]
        exact Inv.of_Add_new (hi.loc.inserted_new hw hf) hf hadd
    | some e =>
      rw [hf] at ha
      simp only at ha
      by_cases hs : e.score < hypo.score
      · rw [if_pos hs] at ha
        cases hadd : Add (loserRemoved s hypo e) hypo with
        | error e => rw [hadd] at ha; cases ha
        | ok r =>
          rw [hadd] at ha
          obtain ⟨r1, r2, r3⟩ := r
          cases r3 with
          | false => cases ha
          | true =>
            simp only at ha
            rw [← Except.ok.inj ha]
            exact Inv.of_Add_new (hi.loc.inserted_replace hw hf hs)
              (findEquiv_loserRemoved hi.loc.noEquiv hf) hadd
      · rw [if_neg hs] at ha
        rw [← Except.ok.inj ha]
        exact hi.congr_inv (loserDropped_core s hypo e).1

theorem Inv.at_init [FloatAdd] [LawfulFloatAdd] (nb : Bool) (M : Nat) (beam : Score) :
    Inv (HypothesisStack.init nb M beam) := by
  refine ⟨⟨List.Pairwise.nil, ?_, ?_, ?_, Or.inl rfl⟩, ?_⟩
  · intro m hm; cases hm
  · show FloatAdd.sum (⊥ : Score) beam ≤ ⊥
    rw [LawfulFloatAdd.bot_sum]
  · intro m hm; cases hm
  · intro h1 _ h3
    simp [HypothesisStack.init] at h3

/-- An invariant of every call of the kinds `allowed` holds in every state they reach. -/
theorem run_invariant [FloatAdd] {allowed : StackOp → Bool} {I : HypothesisStack → Prop}
    (hstep : ∀ s op s1, allowed op = true → I s → op.apply s = .ok s1 → I s1)
    {s0 s : HypothesisStack} (h0 : I s0) (hr : ReachableBy allowed s0 s) : I s := by
  obtain ⟨ops, hall, hrun⟩ := hr
  induction ops generalizing s0 with
  | nil =>
    have := Except.ok.inj hrun
    rw [← this]; exact h0
  | cons op ops ih =>
    unfold run at hrun
    cases hap : op.apply s0 with
    | error e => rw [hap] at hrun; cases hrun
    | ok s1 =>
      rw [hap] at hrun
      exact ih (hstep s0 op s1 (hall op (List.mem_cons_self _ _)) h0 hap)
        (fun o ho => hall o (List.mem_cons_of_mem _ ho)) hrun

theorem Inv.of_reachable [FloatAdd] [LawfulFloatAdd] {nb : Bool} {M : Nat} {beam : Score}
    {s : HypothesisStack}
    (hr : ReachableBy StackOp.isAddPruneOrPrune (HypothesisStack.init nb M beam) s) : Inv s := by
  refine run_invariant ?_ (Inv.at_init nb M beam) hr
  intro s op s1 hop hi hap
  cases op with
  | add hypo => cases hop
  | addPrune hypo => exact hi.of_AddPrune hap
  | pruneToSize => exact Inv.of_PruneToSize hi.loc hap
  | removeDeadend e rc => cases hop

theorem countAbove_mono {w1 w2 : Score} (h : w1 ≤ w2) (l : List Hypothesis) :
    countAbove w2 l ≤ countAbove w1 l := by
  apply List.countP_mono_left
  intro m _ hm
  simp only [decide_eq_true_eq] at hm ⊢
  exact lt_of_le_of_lt h hm

/-- The replacing hypothesis of a recombination survives the pruning that its
re-insertion may trigger, whenever that pruning returns. -/
theorem replace_survives [FloatAdd] [LawfulFloatAdd] {s s1 : HypothesisStack}
    {hypo e : Hypothesis} (hi : Inv s) (hw : ¬ (hypo.score : Score) < s.m_worstScore)
    (hf : findEquiv hypo s.m_hypos = some e) (hs : e.score < hypo.score)
    (hadd : Add (loserRemoved s hypo e) hypo = .ok (s1, hypo, true)) :
    hypo ∈ s1.m_hypos ∧ s1.stats.recombinations = s.stats.recombinations + 1 := by
  obtain ⟨h1, h2, h3, h4, h5, h6⟩ := loserRemoved_fields s hypo e
  obtain ⟨he, hk⟩ := findEquiv_some hf
  have hnone := findEquiv_loserRemoved hi.loc.noEquiv hf
  have hloc := hi.loc.inserted_replace hw hf hs
  have hmem : hypo ∈ (inserted (loserRemoved s hypo e) hypo).m_hypos := by
    rw [inserted_hypos, (setInsert_perm _ _).mem_iff]
    exact List.mem_cons_self _ _
  have hlen : (inserted (loserRemoved s hypo e) hypo).m_hypos.length = s.m_hypos.length := by
    rw [inserted_hypos, (setInsert_perm _ _).length_eq, h1, List.length_cons,
      List.length_erase_of_mem he]
    have := List.length_pos_of_mem he
    omega
  have hst : (inserted (loserRemoved s hypo e) hypo).stats.recombinations =
      s.stats.recombinations + 1 := by rw [inserted_stats, h6]
  rcases Add_ok hadd with ⟨e1, he1, _⟩ | ⟨_, _, ⟨_, hr⟩ | ⟨htrig, hp⟩⟩
  · rw [hnone] at he1; cases he1
  · simp only at hr
    rw [hr]
    exact ⟨hmem, hst⟩
  simp only at hp
  rcases PruneToSize_ok hp with ⟨hr, _⟩ | ⟨hM, hlen2, t, hr, ht, _, hc2⟩
  · rw [hr]
    exact ⟨hmem, hst⟩
  rw [hr]
  refine ⟨mem_prunedAt.mpr ⟨hmem, ?_⟩, hst⟩
  rw [h5, hlen] at htrig
  rw [inserted_max, h5] at hM
  rw [inserted_max, h5, hlen] at hlen2
  by_cases hb : s.m_bestScore < (hypo.score : Score)
  · -- the new hypothesis is the best: the threshold is the score of a member
    obtain ⟨m0, hm0, _, rfl⟩ := mem_scoresAbove.mp ht
    have hle := hloc.le_best m0 hm0
    rw [inserted_best, h2, max_eq_right (le_of_lt hb)] at hle
    exact WithBot.coe_le_coe.mp hle
  have hP := hi.pruned htrig hM hlen2
  have hew : s.m_worstScore ≤ (e.score : Score) := hP.ge_worst e he
  have hwh : s.m_worstScore ≤ (hypo.score : Score) :=
    le_trans hew (le_of_lt (WithBot.coe_lt_coe.mpr hs))
  -- the new hypothesis is above the beam of the best score, which has not changed
  have hbound : FloatAdd.sum (inserted (loserRemoved s hypo e) hypo).m_bestScore
      (inserted (loserRemoved s hypo e) hypo).m_beamThreshold < (hypo.score : Score) := by
    rw [inserted_best, inserted_beam, h2, h4, max_eq_left (not_lt.mp hb)]
    exact lt_of_lt_of_le hP.beam_lt_worst hwh
  have hin : hypo.score ∈ scoresAbove (FloatAdd.sum (inserted (loserRemoved s hypo e) hypo).m_bestScore
      (inserted (loserRemoved s hypo e) hypo).m_beamThreshold)
      (inserted (loserRemoved s hypo e) hypo).m_hypos :=
    mem_scoresAbove.mpr ⟨hypo, hmem, hbound, rfl⟩
  -- fewer than MaxSize members are strictly better than the new hypothesis
  have hfew : countAbove (hypo.score : Score) (inserted (loserRemoved s hypo e) hypo).m_hypos ≤
      s.m_maxHypoStackSize - 1 := by
    have e1 : countAbove (hypo.score : Score) (inserted (loserRemoved s hypo e) hypo).m_hypos =
        countAbove (hypo.score : Score) (s.m_hypos.erase e) := by
      unfold countAbove
      rw [inserted_hypos, (setInsert_perm _ _).countP_eq, h1, List.countP_cons]
      simp
    have e2 : countAbove (hypo.score : Score) (s.m_hypos.erase e) ≤
        countAbove (hypo.score : Score) s.m_hypos :=
      List.Sublist.countP_le _ (List.erase_sublist _ _)
    rw [e1]
    exact le_trans e2 (le_trans (countAbove_mono hwh _) hP.few_above)
  by_contra hlt
  have hlt2 : hypo.score < t := by omega
  have c1 : (scoresAbove (FloatAdd.sum (inserted (loserRemoved s hypo e) hypo).m_bestScore
      (inserted (loserRemoved s hypo e) hypo).m_beamThreshold)
      (inserted (loserRemoved s hypo e) hypo).m_hypos).countP (fun x => decide (t ≤ x)) ≤
      (scoresAbove (FloatAdd.sum (inserted (loserRemoved s hypo e) hypo).m_bestScore
      (inserted (loserRemoved s hypo e) hypo).m_beamThreshold)
      (inserted (loserRemoved s hypo e) hypo).m_hypos).countP
        (fun x => decide (hypo.score < x)) := by
    apply List.countP_mono_left
    intro x _ hx
    simp only [decide_eq_true_eq] at hx ⊢
    omega
  have c2 := countAbove_of_bound hbound (inserted (loserRemoved s hypo e) hypo).m_hypos
  have c3 := List.length_eq_countP_add_countP (fun x => decide (hypo.score < x))
    (scoresAbove (FloatAdd.sum (inserted (loserRemoved s hypo e) hypo).m_bestScore
      (inserted (loserRemoved s hypo e) hypo).m_beamThreshold)
      (inserted (loserRemoved s hypo e) hypo).m_hypos)
  have c4 : 0 < (scoresAbove (FloatAdd.sum (inserted (loserRemoved s hypo e) hypo).m_bestScore
      (inserted (loserRemoved s hypo e) hypo).m_beamThreshold)
      (inserted (loserRemoved s hypo e) hypo).m_hypos).countP
        (fun a => decide ¬ (decide (hypo.score < a)) = true) :=
    List.countP_pos_iff.mpr ⟨hypo.score, hin, by simp⟩
  rw [inserted_max, h5] at hc2
  omega

/-- The ways `AddPrune` returns. -/
theorem AddPrune_ok [FloatAdd] {s s1 : HypothesisStack} {hypo : Hypothesis}
    (h : AddPrune s hypo = .ok s1) :
    ((hypo.score : Score) < s.m_worstScore ∧ s1 = discarded s hypo) ∨
    (¬ (hypo.score : Score) < s.m_worstScore ∧ findEquiv hypo s.m_hypos = none ∧
      Add s hypo = .ok (s1, hypo, true)) ∨
    (∃ e, ¬ (hypo.score : Score) < s.m_worstScore ∧ findEquiv hypo s.m_hypos = some e ∧
      ¬ e.score < hypo.score ∧ s1 = loserDropped s hypo e) ∨
    (∃ e, ¬ (hypo.score : Score) < s.m_worstScore ∧ findEquiv hypo s.m_hypos = some e ∧
      e.score < hypo.score ∧ Add (loserRemoved s hypo e) hypo = .ok (s1, hypo, true)) := by
  by_cases hw : (hypo.score : Score) < s.m_worstScore
  · rw [AddPrune_discard hw] at h
    exact Or.inl ⟨hw, (Except.ok.inj h).symm⟩
  · right
    rw [AddPrune_eq hw] at h
    cases hf : findEquiv hypo s.m_hypos with
    | none =>
      left
      rw [hf] at h
      simp only at h
      cases hadd : Add s hypo with
      | error e => rw [hadd] at h; cases h
      | ok r =>
        rw [hadd] at h
        obtain ⟨r1, r2, r3⟩ := r
        simp only at h
        rcases Add_ok hadd with ⟨e, he, _⟩ | ⟨_, h2, _⟩
        · rw [hf] at he; cases he
        · simp only [Prod.mk.injEq] at h2
          obtain ⟨rfl, rfl⟩ := h2
          rw [← Except.ok.inj h]
          exact ⟨hw, rfl, rfl⟩
    | some e =>
      right
      rw [hf] at h
      simp only at h
      by_cases hs : e.score < hypo.score
      · right
        rw [if_pos hs] at h
        cases hadd : Add (loserRemoved s hypo e) hypo with
        | error e => rw [hadd] at h; cases h
        | ok r =>
          rw [hadd] at h
          obtain ⟨r1, r2, r3⟩ := r
          cases r3 with
          | false => cases h
          | true =>
            simp only at h
            rcases Add_ok hadd with ⟨e1, _, he1⟩ | ⟨_, h2, _⟩
            · simp only [Prod.mk.injEq] at he1
              exact absurd he1.2.2 (by simp)
            · simp only [Prod.mk.injEq] at h2
              obtain ⟨rfl, _⟩ := h2
              rw [← Except.ok.inj h]
              exact ⟨e, hw, rfl, hs, hadd⟩
      · left
        rw [if_neg hs] at h
        exact ⟨e, hw, rfl, hs, (Except.ok.inj h).symm⟩

/-! ## The parameters never change -/

theorem PruneToSize_params [FloatAdd] {s s1 : HypothesisStack} (h : PruneToSize s = .ok s1) :
    SameParams s s1 := by
  rcases PruneToSize_ok h with ⟨rfl, _⟩ | ⟨_, _, t, rfl, _⟩
  · exact ⟨rfl, rfl⟩
  · exact ⟨rfl, rfl⟩

theorem Add_params [FloatAdd] {s : HypothesisStack} {hypo : Hypothesis}
    {r : HypothesisStack × Hypothesis × Bool} (h : Add s hypo = .ok r) :
    SameParams s r.1 := by
  rcases Add_ok h with ⟨e, _, rfl⟩ | ⟨_, _, ⟨_, hr⟩ | ⟨_, hp⟩⟩
  · exact ⟨rfl, rfl⟩
  · rw [hr]; exact ⟨inserted_beam s hypo, inserted_max s hypo⟩
  · have := PruneToSize_params hp
    exact ⟨this.1.trans (inserted_beam s hypo), this.2.trans (inserted_max s hypo)⟩

theorem AddPrune_params [FloatAdd] {s s1 : HypothesisStack} {hypo : Hypothesis}
    (h : AddPrune s hypo = .ok s1) : SameParams s s1 := by
  rcases AddPrune_ok h with ⟨_, rfl⟩ | ⟨_, _, ha⟩ | ⟨e, _, _, _, rfl⟩ | ⟨e, _, _, _, ha⟩
  · exact ⟨rfl, rfl⟩
  · exact Add_params ha
  · exact ⟨(loserDropped_core s hypo e).1.2.2.2.1, (loserDropped_core s hypo e).1.2.2.2.2⟩
  · obtain ⟨_, _, _, h4, h5, _⟩ := loserRemoved_fields s hypo e
    have := Add_params ha
    exact ⟨this.1.trans h4, this.2.trans h5⟩

theorem apply_add_ok [FloatAdd] {s s1 : HypothesisStack} {hypo : Hypothesis}
    (h : (StackOp.add hypo).apply s = .ok s1) : ∃ r, Add s hypo = .ok r ∧ r.1 = s1 := by
  simp only [StackOp.apply] at h
  cases ha : Add s hypo with
  | error e => rw [ha] at h; cases h
  | ok r =>
    rw [ha] at h
    obtain ⟨r1, r2, r3⟩ := r
    exact ⟨_, rfl, Except.ok.inj h⟩

theorem apply_params [FloatAdd] {s s1 : HypothesisStack} {op : StackOp} (h : op.apply s = .ok s1) :
    SameParams s s1 := by
  cases op with
  | add hypo =>
    obtain ⟨r, ha, rfl⟩ := apply_add_ok h
    exact Add_params ha
  | addPrune hypo => exact AddPrune_params h
  | pruneToSize => exact PruneToSize_params h
  | removeDeadend e rc =>
    rw [← Except.ok.inj h]
    exact ⟨rfl, rfl⟩

theorem params_of_reachable [FloatAdd] {allowed : StackOp → Bool} {nb : Bool} {M : Nat}
    {beam : Score}
    {s : HypothesisStack} (hr : ReachableBy allowed (HypothesisStack.init nb M beam) s) :
    s.m_beamThreshold = beam ∧ s.m_maxHypoStackSize = M := by
  refine run_invariant (I := fun s => s.m_beamThreshold = beam ∧ s.m_maxHypoStackSize = M)
    ?_ ⟨rfl, rfl⟩ hr
  intro s op s1 _ hi hap
  have := apply_params hap
  exact ⟨this.1.trans hi.1, this.2.trans hi.2⟩

/-! ## No two members are equivalent, whatever is called -/

theorem NoEquiv_PruneToSize [FloatAdd] {s s1 : HypothesisStack} (hn : NoEquiv s.m_hypos)
    (h : PruneToSize s = .ok s1) : NoEquiv s1.m_hypos := by
  rcases PruneToSize_ok h with ⟨rfl, _⟩ | ⟨_, _, t, rfl, _⟩
  · exact hn
  · exact List.Pairwise.filter _ hn

theorem NoEquiv_Add [FloatAdd] {s : HypothesisStack} {hypo : Hypothesis}
    {r : HypothesisStack × Hypothesis × Bool} (hn : NoEquiv s.m_hypos)
    (h : Add s hypo = .ok r) : NoEquiv r.1.m_hypos := by
  have hins : findEquiv hypo s.m_hypos = none → NoEquiv (inserted s hypo).m_hypos := by
    intro hf
    rw [inserted_hypos]
    exact hn.insert (findEquiv_none hf)
  rcases Add_ok h with ⟨e, _, rfl⟩ | ⟨hf, _, ⟨_, hr⟩ | ⟨_, hp⟩⟩
  · exact hn
  · rw [hr]; exact hins hf
  · exact NoEquiv_PruneToSize (hins hf) hp

theorem NoEquiv_AddPrune [FloatAdd] {s s1 : HypothesisStack} {hypo : Hypothesis}
    (hn : NoEquiv s.m_hypos) (h : AddPrune s hypo = .ok s1) : NoEquiv s1.m_hypos := by
  rcases AddPrune_ok h with ⟨_, rfl⟩ | ⟨_, _, ha⟩ | ⟨e, _, _, _, rfl⟩ | ⟨e, _, _, _, ha⟩
  · exact hn
  · exact NoEquiv_Add hn ha
  · rw [(loserDropped_core s hypo e).1.1]; exact hn
  · refine NoEquiv_Add (s := loserRemoved s hypo e) ?_ ha
    rw [(loserRemoved_fields s hypo e).1]
    exact List.Pairwise.sublist (List.erase_sublist _ _) hn

theorem NoEquiv_apply [FloatAdd] {s s1 : HypothesisStack} {op : StackOp} (hn : NoEquiv s.m_hypos)
    (h : op.apply s = .ok s1) : NoEquiv s1.m_hypos := by
  cases op with
  | add hypo =>
    obtain ⟨r, ha, rfl⟩ := apply_add_ok h
    exact NoEquiv_Add hn ha
  | addPrune hypo => exact NoEquiv_AddPrune hn h
  | pruneToSize => exact NoEquiv_PruneToSize hn h
  | removeDeadend e rc =>
    rw [← Except.ok.inj h]
    exact List.Pairwise.filter _ hn

/-! ## The worst score stays at or above the beam -/

theorem beam_le_worst_inserted [FloatAdd] {s : HypothesisStack} (hypo : Hypothesis)
    (hbw : FloatAdd.sum s.m_bestScore s.m_beamThreshold ≤ s.m_worstScore) :
    FloatAdd.sum (inserted s hypo).m_bestScore (inserted s hypo).m_beamThreshold ≤
      (inserted s hypo).m_worstScore := by
  rcases inserted_worst s hypo with ⟨hb, hw1⟩ | ⟨hb, hw1⟩
  · rw [hw1, inserted_best, inserted_beam, max_eq_right (le_of_lt hb)]
    exact le_max_right _ _
  · rw [hw1, inserted_best, inserted_beam, max_eq_left (not_lt.mp hb)]
    exact hbw

theorem beam_le_worst_PruneToSize [FloatAdd] {s s1 : HypothesisStack}
    (hbw : FloatAdd.sum s.m_bestScore s.m_beamThreshold ≤ s.m_worstScore)
    (h : PruneToSize s = .ok s1) :
    FloatAdd.sum s1.m_bestScore s1.m_beamThreshold ≤ s1.m_worstScore := by
  rcases PruneToSize_ok h with ⟨rfl, _⟩ | ⟨_, _, t, rfl, ht, _⟩
  · exact hbw
  · obtain ⟨m0, _, hb0, rfl⟩ := mem_scoresAbove.mp ht
    exact le_of_lt hb0

theorem beam_le_worst_Add [FloatAdd] {s : HypothesisStack} {hypo : Hypothesis}
    {r : HypothesisStack × Hypothesis × Bool}
    (hbw : FloatAdd.sum s.m_bestScore s.m_beamThreshold ≤ s.m_worstScore)
    (h : Add s hypo = .ok r) :
    FloatAdd.sum r.1.m_bestScore r.1.m_beamThreshold ≤ r.1.m_worstScore := by
  rcases Add_ok h with ⟨e, _, rfl⟩ | ⟨_, _, ⟨_, hr⟩ | ⟨_, hp⟩⟩
  · exact hbw
  · rw [hr]; exact beam_le_worst_inserted hypo hbw
  · exact beam_le_worst_PruneToSize (beam_le_worst_inserted hypo hbw) hp

theorem beam_le_worst_AddPrune [FloatAdd] {s s1 : HypothesisStack} {hypo : Hypothesis}
    (hbw : FloatAdd.sum s.m_bestScore s.m_beamThreshold ≤ s.m_worstScore)
    (h : AddPrune s hypo = .ok s1) :
    FloatAdd.sum s1.m_bestScore s1.m_beamThreshold ≤ s1.m_worstScore := by
  rcases AddPrune_ok h with ⟨_, rfl⟩ | ⟨_, _, ha⟩ | ⟨e, _, _, _, rfl⟩ | ⟨e, _, _, _, ha⟩
  · exact hbw
  · exact beam_le_worst_Add hbw ha
  · obtain ⟨⟨_, h2, h3, h4, _⟩, _⟩ := loserDropped_core s hypo e
    rw [h2, h3, h4]; exact hbw
  · refine beam_le_worst_Add (s := loserRemoved s hypo e) ?_ ha
    obtain ⟨_, h2, h3, h4, _, _⟩ := loserRemoved_fields s hypo e
    rw [h2, h3, h4]; exact hbw

/-! ## Without a beam no call faults; the worst score only rises -/

theorem PruneToSize_total [FloatAdd] [LawfulFloatAdd] {s : HypothesisStack}
    (hn : s.m_beamThreshold = ⊥) : ∃ s1, PruneToSize s = .ok s1 := by
  by_cases hnoop : s.m_maxHypoStackSize = SIZE_MAX ∨ s.m_hypos.length ≤ s.m_maxHypoStackSize
  · exact ⟨s, PruneToSize_noop s hnoop⟩
  · rw [not_or] at hnoop
    rcases PruneToSize_prune s hnoop.1 (by omega) with ⟨hnil, _⟩ | ⟨t, ht, _⟩
    · exfalso
      have hne : s.m_hypos ≠ [] := by
        intro h0
        rw [h0] at hnoop
        simp at hnoop
      obtain ⟨m, hm⟩ := List.exists_mem_of_ne_nil _ hne
      have hin : m.score ∈
          scoresAbove (FloatAdd.sum s.m_bestScore s.m_beamThreshold) s.m_hypos :=
        mem_scoresAbove.mpr ⟨m, hm,
          by rw [hn, LawfulFloatAdd.sum_bot]; exact WithBot.bot_lt_coe _, rfl⟩
      rw [hnil] at hin
      cases hin
    · exact ⟨_, ht⟩

theorem PruneToSize_worst_mono [FloatAdd] {s s1 : HypothesisStack} (hl : Local s)
    (h : PruneToSize s = .ok s1) : s.m_worstScore ≤ s1.m_worstScore := by
  rcases PruneToSize_ok h with ⟨rfl, _⟩ | ⟨_, _, t, rfl, ht, _⟩
  · exact le_refl _
  · obtain ⟨m0, hm0, hb0, rfl⟩ := mem_scoresAbove.mp ht
    exact hl.above_beam m0 hm0 hb0

theorem inserted_worst_mono [FloatAdd] (s : HypothesisStack) (hypo : Hypothesis) :
    s.m_worstScore ≤ (inserted s hypo).m_worstScore := by
  rcases inserted_worst s hypo with ⟨_, hw1⟩ | ⟨_, hw1⟩
  · rw [hw1]; exact le_max_left _ _
  · rw [hw1]

theorem Add_new_total [FloatAdd] [LawfulFloatAdd] {s : HypothesisStack} {hypo : Hypothesis}
    (hn : s.m_beamThreshold = ⊥)
    (hf : findEquiv hypo s.m_hypos = none) : ∃ s1, Add s hypo = .ok (s1, hypo, true) := by
  rw [Add_new_eq hf]
  split
  · obtain ⟨s1, h1⟩ :=
      PruneToSize_total (s := inserted s hypo) (by rw [inserted_beam]; exact hn)
    rw [h1]
    exact ⟨s1, rfl⟩
  · exact ⟨_, rfl⟩

theorem Add_new_worst_mono [FloatAdd] {s : HypothesisStack} {hypo : Hypothesis}
    {r : HypothesisStack × Hypothesis × Bool} (hl : Local (inserted s hypo))
    (hf : findEquiv hypo s.m_hypos = none) (h : Add s hypo = .ok r) :
    s.m_worstScore ≤ r.1.m_worstScore := by
  rcases Add_ok h with ⟨e, he, _⟩ | ⟨_, _, ⟨_, hr⟩ | ⟨_, hp⟩⟩
  · rw [hf] at he; cases he
  · rw [hr]; exact inserted_worst_mono s hypo
  · exact le_trans (inserted_worst_mono s hypo) (PruneToSize_worst_mono hl hp)

theorem AddPrune_total [FloatAdd] [LawfulFloatAdd] {s : HypothesisStack} (hypo : Hypothesis)
    (hne : NoEquiv s.m_hypos) (hn : s.m_beamThreshold = ⊥) :
    ∃ s1, AddPrune s hypo = .ok s1 := by
  by_cases hw : (hypo.score : Score) < s.m_worstScore
  · exact ⟨_, AddPrune_discard hw⟩
  · rw [AddPrune_eq hw]
    cases hf : findEquiv hypo s.m_hypos with
    | none =>
      obtain ⟨s1, h1⟩ := Add_new_total hn hf
      simp only
      rw [h1]
      exact ⟨s1, rfl⟩
    | some e =>
      simp only
      by_cases hs : e.score < hypo.score
      · obtain ⟨s1, h1⟩ := Add_new_total (s := loserRemoved s hypo e)
          (by rw [(loserRemoved_fields s hypo e).2.2.2.1]; exact hn)
          (findEquiv_loserRemoved hne hf)
        rw [if_pos hs, h1]
        exact ⟨s1, rfl⟩
      · rw [if_neg hs]
        exact ⟨_, rfl⟩

theorem AddPrune_worst_mono [FloatAdd] [LawfulFloatAdd] {s s1 : HypothesisStack} {hypo : Hypothesis}
    (hi : Inv s)
    (h : AddPrune s hypo = .ok s1) : s.m_worstScore ≤ s1.m_worstScore := by
  rcases AddPrune_ok h with ⟨_, rfl⟩ | ⟨hw, hf, ha⟩ | ⟨e, _, _, _, rfl⟩ | ⟨e, hw, hf, hs, ha⟩
  · exact le_refl _
  · exact Add_new_worst_mono (hi.loc.inserted_new hw hf) hf ha
  · rw [(loserDropped_core s hypo e).1.2.2.1]
  · have := Add_new_worst_mono (hi.loc.inserted_replace hw hf hs)
      (findEquiv_loserRemoved hi.loc.noEquiv hf) ha
    rw [(loserRemoved_fields s hypo e).2.2.1] at this
    exact this

/-! ## Pruning twice -/

theorem scoresAbove_filter (bound : Score) (t : Int) (l : List Hypothesis) :
    scoresAbove bound (l.filter (fun hypo => !decide (hypo.score < t))) =
      (scoresAbove bound l).filter (fun x => !decide (x < t)) := by
  induction l with
  | nil => rfl
  | cons m rest ih =>
    by_cases hb : bound < (m.score : Score) <;> by_cases ht : m.score < t <;>
      simp [scoresAbove, List.filter_cons, hb, ht] at ih ⊢ <;> exact ih

theorem prunedAt_idem (s : HypothesisStack) (t : Int) :
    prunedAt (prunedAt s t) t = prunedAt s t := by
  have h1 : ((s.m_hypos.filter (fun hypo => !decide (hypo.score < t))).filter
      (fun hypo => !decide (hypo.score < t))) =
      s.m_hypos.filter (fun hypo => !decide (hypo.score < t)) := by
    rw [List.filter_filter]
    apply List.filter_congr
    intro x _
    simp
  have h2 : ((s.m_hypos.filter (fun hypo => !decide (hypo.score < t))).filter
      (fun hypo => decide (hypo.score < t))) = [] := by
    rw [List.filter_filter, List.filter_eq_nil_iff]
    intro x _
    simp
  simp only [prunedAt, h1, h2, List.length_nil, Nat.add_zero, List.append_nil]

/-- A second `PruneToSize` right after the first changes nothing, whatever the state. -/
theorem PruneToSize_idem [FloatAdd] {s s1 : HypothesisStack} (h : PruneToSize s = .ok s1) :
    PruneToSize s1 = .ok s1 := by
  rcases PruneToSize_ok h with ⟨rfl, _⟩ | ⟨hM, _, t, rfl, ht, hc1, hc2⟩
  · exact h
  · by_cases hnoop : (prunedAt s t).m_maxHypoStackSize = SIZE_MAX ∨
        (prunedAt s t).m_hypos.length ≤ (prunedAt s t).m_maxHypoStackSize
    · exact PruneToSize_noop _ hnoop
    · rw [not_or] at hnoop
      have hL2 : scoresAbove (FloatAdd.sum (prunedAt s t).m_bestScore (prunedAt s t).m_beamThreshold)
          (prunedAt s t).m_hypos =
          (scoresAbove (FloatAdd.sum s.m_bestScore s.m_beamThreshold) s.m_hypos).filter
            (fun x => !decide (x < t)) := scoresAbove_filter _ t s.m_hypos
      have hgt : ((scoresAbove (FloatAdd.sum s.m_bestScore s.m_beamThreshold) s.m_hypos).filter
          (fun x => !decide (x < t))).countP (fun x => decide (t < x)) =
          (scoresAbove (FloatAdd.sum s.m_bestScore s.m_beamThreshold) s.m_hypos).countP
            (fun x => decide (t < x)) := by
        rw [List.countP_filter]
        apply List.countP_congr
        intro x _
        simp only [Bool.and_eq_true, decide_eq_true_eq, Bool.not_eq_true', decide_eq_false_iff_not]
        omega
      have hge : ((scoresAbove (FloatAdd.sum s.m_bestScore s.m_beamThreshold) s.m_hypos).filter
          (fun x => !decide (x < t))).countP (fun x => decide (t ≤ x)) =
          (scoresAbove (FloatAdd.sum s.m_bestScore s.m_beamThreshold) s.m_hypos).countP
            (fun x => decide (t ≤ x)) := by
        rw [List.countP_filter]
        apply List.countP_congr
        intro x _
        simp only [Bool.and_eq_true, decide_eq_true_eq, Bool.not_eq_true', decide_eq_false_iff_not]
        omega
      have hlen1 : ((scoresAbove (FloatAdd.sum s.m_bestScore s.m_beamThreshold) s.m_hypos).filter
          (fun x => !decide (x < t))).length ≤
          (scoresAbove (FloatAdd.sum s.m_bestScore s.m_beamThreshold) s.m_hypos).length :=
        List.length_filter_le _ _
      have hlen2 : (scoresAbove (FloatAdd.sum s.m_bestScore s.m_beamThreshold) s.m_hypos).countP
          (fun x => decide (t ≤ x)) ≤
          ((scoresAbove (FloatAdd.sum s.m_bestScore s.m_beamThreshold) s.m_hypos).filter
            (fun x => !decide (x < t))).length := by
        rw [← hge]; exact List.countP_le_length _
      rcases PruneToSize_prune (prunedAt s t) hnoop.1 (by omega) with
        ⟨hnil, _⟩ | ⟨u, hu, _, hu1, hu2⟩
      · exfalso
        rw [hL2, List.filter_eq_nil_iff] at hnil
        exact hnil t ht (by simp)
      · have hMeq : (prunedAt s t).m_maxHypoStackSize = s.m_maxHypoStackSize := rfl
        rw [hL2, hMeq] at hu1 hu2
        have hut : u = t := by
          apply rank_unique ((scoresAbove (FloatAdd.sum s.m_bestScore s.m_beamThreshold) s.m_hypos).filter
              (fun x => !decide (x < t)))
            (min s.m_maxHypoStackSize
              ((scoresAbove (FloatAdd.sum s.m_bestScore s.m_beamThreshold) s.m_hypos).filter
                (fun x => !decide (x < t))).length - 1) u t hu1 hu2
          · rw [hgt]; omega
          · rw [hge]; omega
        rw [hu, hut, prunedAt_idem]

/-- The members at or above the worst score are those strictly above it and those at it. -/
theorem length_eq_above_add_ties {w : Score} {l : List Hypothesis}
    (h : ∀ m ∈ l, w ≤ (m.score : Score)) : l.length = countAbove w l + countTies w l := by
  unfold countAbove countTies
  rw [List.length_eq_countP_add_countP (fun hypo => decide (w < (hypo.score : Score))) l]
  congr 1
  apply List.countP_congr
  intro m hm
  simp only [decide_eq_true_eq, decide_not, Bool.not_eq_true', decide_eq_false_iff_not]
  constructor
  · intro h1
    exact le_antisymm (not_lt.mp h1) (h m hm)
  · intro h1
    rw [h1]
    exact lt_irrefl _

/-! ## The size of the stack after an insertion -/

theorem lazyLimit_le {M : Nat} (h : 1 ≤ M) : lazyLimit M ≤ 2 * M - 1 := by
  unfold lazyLimit SIZE_MAX
  omega

theorem SizeBound.congr_size {s s1 : HypothesisStack} (hc : SameCore s s1)
    (h : SizeBound s) : SizeBound s1 := by
  obtain ⟨h1, _, h3, _, h5⟩ := hc
  unfold SizeBound
  rw [h1, h3, h5]
  exact h

theorem length_prunedAt_le [FloatAdd] {s : HypothesisStack} {t : Int}
    (ht : t ∈ scoresAbove (FloatAdd.sum s.m_bestScore s.m_beamThreshold) s.m_hypos)
    (hc : (scoresAbove (FloatAdd.sum s.m_bestScore s.m_beamThreshold) s.m_hypos).countP
        (fun x => decide (t < x)) ≤
      min s.m_maxHypoStackSize
        (scoresAbove (FloatAdd.sum s.m_bestScore s.m_beamThreshold) s.m_hypos).length - 1) :
    (prunedAt s t).m_hypos.length ≤ s.m_maxHypoStackSize - 1 +
      countTies (prunedAt s t).m_worstScore (prunedAt s t).m_hypos := by
  have hp := Pruned.after_prune ht hc
  rw [length_eq_above_add_ties hp.ge_worst]
  have := hp.few_above
  have hM : (prunedAt s t).m_maxHypoStackSize = s.m_maxHypoStackSize := rfl
  rw [hM] at this
  omega

theorem SizeBound_Add_new [FloatAdd] {s : HypothesisStack} {hypo : Hypothesis}
    {r : HypothesisStack × Hypothesis × Bool}
    (hf : findEquiv hypo s.m_hypos = none) (h : Add s hypo = .ok r) : SizeBound r.1 := by
  intro hM1 hM2
  rw [(Add_params h).2] at hM1 hM2 ⊢
  have hlim := lazyLimit_le hM1
  rcases Add_ok h with ⟨e, he, _⟩ | ⟨_, _, ⟨hlen, hr⟩ | ⟨_, hp⟩⟩
  · rw [hf] at he; cases he
  · rw [hr]; omega
  · rcases PruneToSize_ok hp with ⟨hr, hn⟩ | ⟨_, _, t, hr, ht, hc, _⟩
    · rw [hr]
      rw [inserted_max] at hn
      rcases hn with hn | hn
      · exact absurd hn hM2
      · omega
    · rw [hr]
      have := length_prunedAt_le ht hc
      rw [inserted_max] at this
      omega

theorem SizeBound_Add [FloatAdd] {s : HypothesisStack} {hypo : Hypothesis}
    {r : HypothesisStack × Hypothesis × Bool} (hq : SizeBound s)
    (h : Add s hypo = .ok r) : SizeBound r.1 := by
  cases hf : findEquiv hypo s.m_hypos with
  | none => exact SizeBound_Add_new hf h
  | some e =>
    rcases Add_ok h with ⟨e1, _, rfl⟩ | ⟨hf1, _⟩
    · exact hq
    · rw [hf] at hf1; cases hf1

theorem SizeBound_AddPrune [FloatAdd] {s s1 : HypothesisStack} {hypo : Hypothesis}
    (hq : SizeBound s)
    (hn : NoEquiv s.m_hypos) (h : AddPrune s hypo = .ok s1) : SizeBound s1 := by
  rcases AddPrune_ok h with ⟨_, rfl⟩ | ⟨_, hf, ha⟩ | ⟨e, _, _, _, rfl⟩ | ⟨e, _, hf, _, ha⟩
  · have hc : SameCore s (discarded s hypo) := ⟨rfl, rfl, rfl, rfl, rfl⟩
    exact hq.congr_size hc
  · exact SizeBound_Add_new hf ha
  · exact hq.congr_size (loserDropped_core s hypo e).1
  · exact SizeBound_Add_new (findEquiv_loserRemoved hn hf) ha

/-! ## What a recombination leaves, whenever `AddPrune` returns -/

/-- On a stack that satisfies the invariant, an `AddPrune` that returns for a hypothesis
`hypo` which is not below the worst score and has an equivalent member `existing` leaves
exactly one member equivalent to `hypo`, namely `hypo` if it scores strictly higher than
`existing` and `existing` otherwise, and records exactly one recombination. -/
theorem AddPrune_recombination [FloatAdd] [LawfulFloatAdd] {s s1 : HypothesisStack}
    {hypo existing : Hypothesis} (hi : Inv s) (hw : s.m_worstScore ≤ (hypo.score : Score))
    (he : existing ∈ s.m_hypos) (hk : existing.key = hypo.key)
    (ha : AddPrune s hypo = .ok s1) :
    s1.m_hypos.filter (fun m => m.key == hypo.key) =
        [if existing.score < hypo.score then hypo else existing] ∧
      s1.stats.recombinations = s.stats.recombinations + 1 := by
  obtain ⟨e, hf⟩ := findEquiv_of_mem he hk
  have hee : e = existing :=
    hi.loc.noEquiv.key_inj (findEquiv_some hf).1 he ((findEquiv_some hf).2.trans hk.symm)
  subst hee
  have hnw : ¬ (hypo.score : Score) < s.m_worstScore := not_lt.mpr hw
  rcases AddPrune_ok ha with ⟨h, _⟩ | ⟨_, hf0, _⟩ | ⟨e1, _, hf1, hs, hr⟩ | ⟨e1, _, hf1, hs, hadd⟩
  · exact absurd h hnw
  · rw [hf] at hf0; cases hf0
  · rw [hf] at hf1
    cases hf1
    rw [if_neg hs, hr]
    refine ⟨?_, (loserDropped_core s hypo e).2⟩
    rw [(loserDropped_core s hypo e).1.1, ← hk]
    exact hi.loc.noEquiv.filter_key he
  · rw [hf] at hf1
    cases hf1
    obtain ⟨hmem, hst⟩ := replace_survives hi hnw hf hs hadd
    have hinv : Inv s1 := Inv.of_Add_new (hi.loc.inserted_replace hnw hf hs)
      (findEquiv_loserRemoved hi.loc.noEquiv hf) hadd
    rw [if_pos hs]
    exact ⟨hinv.loc.noEquiv.filter_key hmem, hst⟩

/-! ## The claims -/

/-- C1 on binary32 scores, where the code fails the claim: maximal size 1 and beam threshold
-1.  `AddPrune` of two hypotheses scoring 5 that are not equivalent returns twice and leaves
both, with worst score 5.  A third hypothesis scores 33554432 (two to the 25th), which is
not below the worst score, and is equivalent to the first.  `AddPrune` removes the first and
re-inserts the third, which makes 33554432 the best score; the `float` sum of 33554432 and
-1 is 33554432, no member scores strictly more, and the `PruneToSize` of the re-insertion
reads the top of its empty heap (line 179), where the claim has the third hypothesis as the
one member of its class. -/
theorem C1_replacement_reads_empty_heap :
    ∃ s, @run binary32 (HypothesisStack.init false 1 ((-1 : Int) : Score))
        [.addPrune ⟨1, 1, 5⟩, .addPrune ⟨2, 2, 5⟩] = .ok s ∧
      s.m_hypos = [⟨1, 1, 5⟩, ⟨2, 2, 5⟩] ∧ s.m_worstScore = ((5 : Int) : Score) ∧
      s.m_worstScore ≤ ((33554432 : Int) : Score) ∧
      binary32Sum ((33554432 : Int) : Score) ((-1 : Int) : Score) =
        ((33554432 : Int) : Score) ∧
      @AddPrune binary32 s ⟨3, 1, 33554432⟩ = .error Fault.emptyHeapTop :=
  ⟨_, rfl, rfl, rfl, by decide, by decide, rfl⟩

/-- C2: on every stack state, `AddPrune` of a hypothesis whose score is below the worst score
returns with the members, the best score and the worst score unchanged, the discarded counter
one higher, and neither a recombination nor an arc recorded, whether or not an equivalent
member exists. -/
theorem C2_below_worst_discarded [FloatAdd] (s : HypothesisStack) (hypo : Hypothesis)
    (h : (hypo.score : Score) < s.m_worstScore) :
    ∃ s1, AddPrune s hypo = .ok s1 ∧ s1.m_hypos = s.m_hypos ∧
      s1.m_bestScore = s.m_bestScore ∧ s1.m_worstScore = s.m_worstScore ∧
      s1.stats.discarded = s.stats.discarded + 1 ∧
      s1.stats.recombinations = s.stats.recombinations ∧ s1.arcs = s.arcs :=
  ⟨discarded s hypo, AddPrune_discard h, rfl, rfl, rfl, rfl, rfl, rfl⟩

/-- A hypothesis scoring 3 is discarded by a stack with worst score 5, although the member
scoring 6 is equivalent to it. -/
theorem C2_below_worst_discarded_witness :
    ((3 : Int) : Score) < ((5 : Int) : Score) ∧
    ∃ s1, @AddPrune binary32 { HypothesisStack.init false 1 ⊥ with
            m_hypos := [⟨1, 7, 6⟩], m_bestScore := ((6 : Int) : Score)
            m_worstScore := ((5 : Int) : Score) } ⟨2, 7, 3⟩ = .ok s1 ∧
      s1.m_hypos = [⟨1, 7, 6⟩] ∧
      s1.m_bestScore = ((6 : Int) : Score) ∧ s1.m_worstScore = ((5 : Int) : Score) ∧
      s1.stats.discarded = 0 + 1 ∧ s1.stats.recombinations = 0 ∧ s1.arcs = [] :=
  ⟨by decide,
   @C2_below_worst_discarded binary32 { HypothesisStack.init false 1 ⊥ with
      m_hypos := [⟨1, 7, 6⟩], m_bestScore := ((6 : Int) : Score)
      m_worstScore := ((5 : Int) : Score) } ⟨2, 7, 3⟩ (by decide)⟩

/-- C3: in every state reached from a freshly constructed stack by any sequence of `Add`,
`AddPrune`, `PruneToSize` and `RemoveDeadendHypotheses` calls, no two distinct members are
equivalent under the recombination key. -/
theorem C3_no_two_members_equivalent [FloatAdd] (nb : Bool) (M : Nat) (beam : Score)
    (s : HypothesisStack)
    (hr : ReachableBy StackOp.isAny (HypothesisStack.init nb M beam) s) :
    s.m_hypos.Pairwise (fun a b => a.key ≠ b.key) := by
  have h0 : NoEquiv (HypothesisStack.init nb M beam).m_hypos := List.Pairwise.nil
  have hstep : ∀ s op s1, StackOp.isAny op = true → NoEquiv s.m_hypos →
      op.apply s = .ok s1 → NoEquiv s1.m_hypos := fun _ _ _ _ hi hap => NoEquiv_apply hi hap
  exact run_invariant (I := fun s => NoEquiv s.m_hypos) hstep h0 hr

/-- A run through all four calls, with a recombination, a pruning and a dead end. -/
theorem C3_no_two_members_equivalent_witness :
    @run binary32 (HypothesisStack.init true 2 ⊥)
        [.add ⟨1, 1, 5⟩, .addPrune ⟨2, 1, 6⟩, .addPrune ⟨3, 2, 4⟩, .add ⟨4, 3, 7⟩,
          .pruneToSize, .removeDeadend (some ⟨4, 3, 7⟩) (fun h => h.id - 1)] =
      .ok { HypothesisStack.init true 2 ⊥ with
            m_hypos := [⟨2, 1, 6⟩, ⟨4, 3, 7⟩]
            m_bestScore := ((7 : Int) : Score), m_worstScore := ((6 : Int) : Score)
            stats := { discarded := 0, recombinations := 1, pruned := 1 }
            arcs := [(⟨2, 1, 6⟩, ⟨1, 1, 5⟩)], freed := [⟨3, 2, 4⟩] } ∧
    List.Pairwise (fun a b : Hypothesis => a.key ≠ b.key) [⟨2, 1, 6⟩, ⟨4, 3, 7⟩] :=
  ⟨rfl,
   @C3_no_two_members_equivalent binary32 true 2 ⊥
     { HypothesisStack.init true 2 ⊥ with
       m_hypos := [⟨2, 1, 6⟩, ⟨4, 3, 7⟩]
       m_bestScore := ((7 : Int) : Score), m_worstScore := ((6 : Int) : Score)
       stats := { discarded := 0, recombinations := 1, pruned := 1 }
       arcs := [(⟨2, 1, 6⟩, ⟨1, 1, 5⟩)], freed := [⟨3, 2, 4⟩] }
     ⟨[.add ⟨1, 1, 5⟩, .addPrune ⟨2, 1, 6⟩, .addPrune ⟨3, 2, 4⟩, .add ⟨4, 3, 7⟩,
        .pruneToSize, .removeDeadend (some ⟨4, 3, 7⟩) (fun h => h.id - 1)],
      by simp [StackOp.isAny], rfl⟩⟩

/-- C5, as the code has it: with the beam threshold set before the first insertion, in every
state reached from a freshly constructed stack by `Add`, `AddPrune` and `PruneToSize` calls
the beam threshold is still the one set, and the worst score is at least the sum of the best
score and the beam threshold as the code computes it, in `float`. -/
theorem C5_worst_at_least_best_plus_beam [FloatAdd] [LawfulFloatAdd] (nb : Bool) (M : Nat)
    (beam : Score) (s : HypothesisStack)
    (hr : ReachableBy StackOp.isAddOrAddPruneOrPrune (HypothesisStack.init nb M beam) s) :
    s.m_beamThreshold = beam ∧ FloatAdd.sum s.m_bestScore beam ≤ s.m_worstScore := by
  have hp := (params_of_reachable hr).1
  refine ⟨hp, ?_⟩
  rw [← hp]
  refine run_invariant
    (I := fun s => FloatAdd.sum s.m_bestScore s.m_beamThreshold ≤ s.m_worstScore) ?_ ?_ hr
  · intro s op s1 hop hi hap
    cases op with
    | add hypo =>
      obtain ⟨r, ha, rfl⟩ := apply_add_ok hap
      exact beam_le_worst_Add hi ha
    | addPrune hypo => exact beam_le_worst_AddPrune hi hap
    | pruneToSize => exact beam_le_worst_PruneToSize hi hap
    | removeDeadend e rc => cases hop
  · show FloatAdd.sum (⊥ : Score) beam ≤ ⊥
    rw [LawfulFloatAdd.bot_sum]

/-- On binary32 scores, with beam threshold -3 and the scores 33554436 and 33554432: the
worst score is 33554432, which is the `float` sum of the best score 33554436 and -3. -/
theorem C5_worst_at_least_best_plus_beam_witness :
    @run binary32 (HypothesisStack.init false 2 ((-3 : Int) : Score))
        [.addPrune ⟨1, 1, 33554436⟩, .addPrune ⟨2, 2, 33554432⟩] =
      .ok { HypothesisStack.init false 2 ((-3 : Int) : Score) with
            m_hypos := [⟨1, 1, 33554436⟩, ⟨2, 2, 33554432⟩]
            m_bestScore := ((33554436 : Int) : Score)
            m_worstScore := ((33554432 : Int) : Score) } ∧
    (((-3 : Int) : Score) = ((-3 : Int) : Score) ∧
      binary32Sum ((33554436 : Int) : Score) ((-3 : Int) : Score) ≤
        ((33554432 : Int) : Score)) :=
  ⟨rfl,
   @C5_worst_at_least_best_plus_beam binary32 binary32_lawful false 2 ((-3 : Int) : Score)
     { HypothesisStack.init false 2 ((-3 : Int) : Score) with
       m_hypos := [⟨1, 1, 33554436⟩, ⟨2, 2, 33554432⟩]
       m_bestScore := ((33554436 : Int) : Score)
       m_worstScore := ((33554432 : Int) : Score) }
     ⟨[.addPrune ⟨1, 1, 33554436⟩, .addPrune ⟨2, 2, 33554432⟩],
      by simp [StackOp.isAddPruneOrPrune, StackOp.isAddOrAddPruneOrPrune], rfl⟩⟩

/-- C5 fails as stated, with the sum of the real numbers: on binary32 scores, with beam
threshold -3, `AddPrune` of a hypothesis scoring 33554436 sets the worst score to the
`float` sum of 33554436 and -3, which is 33554432, one less than the sum 33554433; a second
hypothesis scoring 33554432 is accepted, and the worst score stays below best score plus
beam threshold. -/
theorem C5_counterexample :
    ∃ s, @run binary32 (HypothesisStack.init false 2 ((-3 : Int) : Score))
        [.addPrune ⟨1, 1, 33554436⟩, .addPrune ⟨2, 2, 33554432⟩] = .ok s ∧
      s.m_hypos = [⟨1, 1, 33554436⟩, ⟨2, 2, 33554432⟩] ∧
      s.m_bestScore = ((33554436 : Int) : Score) ∧
      s.m_beamThreshold = ((-3 : Int) : Score) ∧
      s.m_worstScore = ((33554432 : Int) : Score) ∧
      s.m_bestScore + s.m_beamThreshold = ((33554433 : Int) : Score) ∧
      ¬ s.m_bestScore + s.m_beamThreshold ≤ s.m_worstScore :=
  ⟨_, rfl, rfl, rfl, rfl, rfl, by decide, by decide⟩

/-- C4, as the code has it: in every state reached from a freshly constructed stack by
`AddPrune` and `PruneToSize` calls, for every beam threshold and maximal size, every member
whose score is strictly above best score plus beam threshold, the sum that the code
computes, is at or above the worst score; with beam threshold minus infinity that is every
member. -/
theorem C4_members_above_beam_at_least_worst [FloatAdd] [LawfulFloatAdd] (nb : Bool)
    (M : Nat) (beam : Score) (s : HypothesisStack)
    (hr : ReachableBy StackOp.isAddPruneOrPrune (HypothesisStack.init nb M beam) s) :
    (∀ m ∈ s.m_hypos, FloatAdd.sum s.m_bestScore beam < (m.score : Score) →
        s.m_worstScore ≤ (m.score : Score)) ∧
    (beam = ⊥ → ∀ m ∈ s.m_hypos, s.m_worstScore ≤ (m.score : Score)) := by
  have hi := Inv.of_reachable hr
  have hp := (params_of_reachable hr).1
  have h1 : ∀ m ∈ s.m_hypos, FloatAdd.sum s.m_bestScore beam < (m.score : Score) →
      s.m_worstScore ≤ (m.score : Score) := by
    rw [← hp]; exact hi.loc.above_beam
  refine ⟨h1, ?_⟩
  intro hb m hm
  apply h1 m hm
  rw [hb, LawfulFloatAdd.sum_bot]
  exact WithBot.bot_lt_coe _

/-- With beam threshold -1, after the scores 0 and 10 the member scoring 10 is above the
beam and at or above the worst score 9. -/
theorem C4_members_above_beam_at_least_worst_witness :
    (∀ m ∈ [(⟨1, 1, 0⟩ : Hypothesis), ⟨2, 2, 10⟩],
        binary32Sum ((10 : Int) : Score) ((-1 : Int) : Score) < (m.score : Score) →
        ((9 : Int) : Score) ≤ (m.score : Score)) ∧
    (((-1 : Int) : Score) = ⊥ → ∀ m ∈ [(⟨1, 1, 0⟩ : Hypothesis), ⟨2, 2, 10⟩],
        ((9 : Int) : Score) ≤ (m.score : Score)) :=
  @C4_members_above_beam_at_least_worst binary32 binary32_lawful false 2 ((-1 : Int) : Score)
    { HypothesisStack.init false 2 ((-1 : Int) : Score) with
      m_hypos := [⟨1, 1, 0⟩, ⟨2, 2, 10⟩]
      m_bestScore := ((10 : Int) : Score), m_worstScore := ((9 : Int) : Score) }
    ⟨[.addPrune ⟨1, 1, 0⟩, .addPrune ⟨2, 2, 10⟩], by simp [StackOp.isAddPruneOrPrune], rfl⟩

/-- C4 fails as stated: with beam threshold -1 and maximal size 2, `AddPrune` of the scores
0 and 10 raises the worst score to 9 and leaves the member scoring 0 in the stack. -/
theorem C4_counterexample :
    ((-1 : Int) : Score) ≤ 0 ∧ 1 ≤ 2 ∧
    ∃ s, @run binary32 (HypothesisStack.init false 2 ((-1 : Int) : Score))
        [.addPrune ⟨1, 1, 0⟩, .addPrune ⟨2, 2, 10⟩] = .ok s ∧
      s.m_hypos = [⟨1, 1, 0⟩, ⟨2, 2, 10⟩] ∧ s.m_worstScore = ((9 : Int) : Score) ∧
      ∃ m ∈ s.m_hypos, (m.score : Score) < s.m_worstScore :=
  ⟨by decide, by decide, _, rfl, rfl, rfl, ⟨1, 1, 0⟩, by decide, by decide⟩

/-- C6 on binary32 scores, where the code fails the claim: maximal size 1 and beam threshold
-1.  `AddPrune` of a hypothesis scoring 33554432 (two to the 25th) returns with best score
and worst score 33554432, the `float` sum of 33554432 and -1 being 33554432.  `AddPrune` of
a second hypothesis with the same score, not equivalent to the first, inserts it and prunes;
no member scores strictly more than best score plus beam threshold, and `PruneToSize` reads
the top of its empty heap (line 179): the threshold it then assigns to the worst score
(line 213) is not a score of the stack, and nothing keeps it at or above the worst score
before the call. -/
theorem C6_insertion_reads_empty_heap :
    ((-1 : Int) : Score) < 0 ∧ 1 ≤ 1 ∧
    ∃ s, @run binary32 (HypothesisStack.init false 1 ((-1 : Int) : Score))
        [.addPrune ⟨1, 1, 33554432⟩] = .ok s ∧
      s.m_hypos = [⟨1, 1, 33554432⟩] ∧
      s.m_bestScore = ((33554432 : Int) : Score) ∧
      s.m_worstScore = ((33554432 : Int) : Score) ∧
      binary32Sum ((33554432 : Int) : Score) ((-1 : Int) : Score) =
        ((33554432 : Int) : Score) ∧
      @AddPrune binary32 s ⟨2, 2, 33554432⟩ = .error Fault.emptyHeapTop :=
  ⟨by decide, by decide, _, rfl, rfl, rfl, rfl, by decide, rfl⟩

/-- C7 on binary32 scores, where the code fails the claim: maximal size 2 and beam threshold
-1.  Three `AddPrune` calls of hypotheses that are not equivalent and all score 33554432
(two to the 25th) return and leave three members, more than the maximal size.  The `float`
sum of the best score 33554432 and -1 is 33554432, no member scores strictly more, and
`PruneToSize` on this state reads the top of its empty heap (line 179): there is no state
`PruneToSize(s)` on which a second call could change nothing. -/
theorem C7_PruneToSize_reads_empty_heap :
    ((-1 : Int) : Score) < 0 ∧
    ∃ s, @run binary32 (HypothesisStack.init false 2 ((-1 : Int) : Score))
        [.addPrune ⟨1, 1, 33554432⟩, .addPrune ⟨2, 2, 33554432⟩,
          .addPrune ⟨3, 3, 33554432⟩] = .ok s ∧
      s.m_hypos = [⟨1, 1, 33554432⟩, ⟨2, 2, 33554432⟩, ⟨3, 3, 33554432⟩] ∧
      s.m_maxHypoStackSize < s.m_hypos.length ∧
      (∀ m ∈ s.m_hypos,
        ¬ binary32Sum s.m_bestScore s.m_beamThreshold < (m.score : Score)) ∧
      @PruneToSize binary32 s = .error Fault.emptyHeapTop :=
  ⟨by decide, _, rfl, rfl, by decide, by decide, rfl⟩

/-- C8, as the code has it: on every stack whose maximal size is at least 1 and below the
maximal `size_t`: with at most that many members `PruneToSize` changes nothing; with more
members, one of which scores strictly above best score plus beam threshold, the sum that
the code computes in `float`, `PruneToSize` returns, its threshold `t` is the
`min MaxSize n`-th largest, duplicates counted, of the `n` member scores strictly above
that sum, exactly the members scoring at least `t` are kept, one pruning is counted for each
member removed, and the worst score is `t`. -/
theorem C8_PruneToSize_threshold [FloatAdd] (s : HypothesisStack)
    (hM1 : 1 ≤ s.m_maxHypoStackSize) (hM2 : s.m_maxHypoStackSize < SIZE_MAX) :
    (s.m_hypos.length ≤ s.m_maxHypoStackSize → PruneToSize s = .ok s) ∧
    (s.m_maxHypoStackSize < s.m_hypos.length →
      (∃ m ∈ s.m_hypos, FloatAdd.sum s.m_bestScore s.m_beamThreshold < (m.score : Score)) →
      ∃ t s1, PruneToSize s = .ok s1 ∧
        IsNthLargest (scoresAbove (FloatAdd.sum s.m_bestScore s.m_beamThreshold) s.m_hypos)
          (min s.m_maxHypoStackSize
            (scoresAbove (FloatAdd.sum s.m_bestScore s.m_beamThreshold) s.m_hypos).length)
          t ∧
        s1.m_hypos = s.m_hypos.filter (fun m => decide (t ≤ m.score)) ∧
        s1.m_worstScore = (t : Score) ∧ s1.m_bestScore = s.m_bestScore ∧
        s1.stats.pruned =
          s.stats.pruned + (s.m_hypos.filter (fun m => decide (m.score < t))).length) := by
  refine ⟨fun h => PruneToSize_noop s (Or.inr h), ?_⟩
  intro hlen ⟨m, hm, hmb⟩
  have hin : m.score ∈
      scoresAbove (FloatAdd.sum s.m_bestScore s.m_beamThreshold) s.m_hypos :=
    mem_scoresAbove.mpr ⟨m, hm, hmb, rfl⟩
  rcases PruneToSize_prune s (by omega) hlen with ⟨hnil, _⟩ | ⟨t, ht, h1, h2, h3⟩
  · rw [hnil] at hin; cases hin
  · refine ⟨t, prunedAt s t, ht, ⟨h1, ?_, ?_⟩, ?_, rfl, rfl, rfl⟩
    · have := List.length_pos_of_mem h1
      omega
    · have := List.length_pos_of_mem h1
      omega
    · show s.m_hypos.filter (fun hypo => !decide (hypo.score < t)) = _
      apply List.filter_congr
      intro x _
      by_cases hx : x.score < t
      · have hx2 : ¬ t ≤ x.score := by omega
        simp [hx, hx2]
      · have hx2 : t ≤ x.score := by omega
        simp [hx, hx2]

/-- On binary32 scores, maximal size 2, beam threshold -5 and the scores 33554432, 33554432
and 33554436: the `float` sum of the best score 33554436 and -5 is 33554432, the one score
strictly above it is 33554436, which is the threshold, and the two members scoring 33554432
are removed. -/
theorem C8_PruneToSize_threshold_witness :
    1 ≤ 2 ∧ 2 < SIZE_MAX ∧
    ∃ t s1, @PruneToSize binary32 { HypothesisStack.init false 2 ((-5 : Int) : Score) with
          m_hypos := [⟨1, 1, 33554432⟩, ⟨2, 2, 33554432⟩, ⟨3, 3, 33554436⟩]
          m_bestScore := ((33554436 : Int) : Score)
          m_worstScore := ((33554432 : Int) : Score) } = .ok s1 ∧
        IsNthLargest
          (scoresAbove (binary32Sum ((33554436 : Int) : Score) ((-5 : Int) : Score))
            [⟨1, 1, 33554432⟩, ⟨2, 2, 33554432⟩, ⟨3, 3, 33554436⟩])
          (min 2 (scoresAbove (binary32Sum ((33554436 : Int) : Score) ((-5 : Int) : Score))
            [⟨1, 1, 33554432⟩, ⟨2, 2, 33554432⟩, ⟨3, 3, 33554436⟩]).length) t ∧
        s1.m_hypos =
          ([⟨1, 1, 33554432⟩, ⟨2, 2, 33554432⟩, ⟨3, 3, 33554436⟩] : List Hypothesis).filter
            (fun m => decide (t ≤ m.score)) ∧
        s1.m_worstScore = (t : Score) ∧ s1.m_bestScore = ((33554436 : Int) : Score) ∧
        s1.stats.pruned =
          0 + (([⟨1, 1, 33554432⟩, ⟨2, 2, 33554432⟩, ⟨3, 3, 33554436⟩] :
            List Hypothesis).filter (fun m => decide (m.score < t))).length :=
  ⟨by decide, by decide,
   (@C8_PruneToSize_threshold binary32
      { HypothesisStack.init false 2 ((-5 : Int) : Score) with
        m_hypos := [⟨1, 1, 33554432⟩, ⟨2, 2, 33554432⟩, ⟨3, 3, 33554436⟩]
        m_bestScore := ((33554436 : Int) : Score)
        m_worstScore := ((33554432 : Int) : Score) } (by decide) (by decide)).2
     (by decide) ⟨⟨3, 3, 33554436⟩, by decide, by decide⟩⟩

/-- C8 fails as stated, with the sum of the real numbers: on binary32 scores, maximal size
2 and beam threshold -5, `AddPrune` of hypotheses scoring 33554436, 33554432 and 33554432
leaves three members.  All three score strictly more than 33554436 - 5 = 33554431, so the
threshold of the claim is the second largest score 33554432 and no member is to be removed.
`PruneToSize` compares with the `float` sum 33554432 instead, pushes the score 33554436
only, takes it as the threshold and removes the two members scoring 33554432. -/
theorem C8_counterexample :
    ∃ s, @run binary32 (HypothesisStack.init false 2 ((-5 : Int) : Score))
        [.addPrune ⟨3, 3, 33554436⟩, .addPrune ⟨1, 1, 33554432⟩,
          .addPrune ⟨2, 2, 33554432⟩] = .ok s ∧
      s.m_hypos = [⟨1, 1, 33554432⟩, ⟨2, 2, 33554432⟩, ⟨3, 3, 33554436⟩] ∧
      (1 ≤ s.m_maxHypoStackSize ∧ s.m_maxHypoStackSize < SIZE_MAX ∧
        s.m_maxHypoStackSize < s.m_hypos.length) ∧
      (∃ m ∈ s.m_hypos, s.m_bestScore + s.m_beamThreshold < (m.score : Score)) ∧
      IsNthLargest (scoresAbove (s.m_bestScore + s.m_beamThreshold) s.m_hypos)
        (min s.m_maxHypoStackSize
          (scoresAbove (s.m_bestScore + s.m_beamThreshold) s.m_hypos).length) 33554432 ∧
      ∃ s1, @PruneToSize binary32 s = .ok s1 ∧ s1.m_hypos = [⟨3, 3, 33554436⟩] ∧
        s1.m_worstScore = ((33554436 : Int) : Score) ∧ s1.stats.pruned = 2 :=
  ⟨_, rfl, rfl, by decide, ⟨⟨3, 3, 33554436⟩, by decide, by decide⟩, by decide,
    _, rfl, rfl, rfl, rfl⟩

/-- C9, as the code has it: for every maximal size at least 1 and every beam threshold, in
every state reached from a freshly constructed stack by `AddPrune` and `PruneToSize` calls
whose size fits `size_t`: `PruneToSize` returns when some member scores strictly above best
score plus beam threshold, the sum that the code computes; and whenever it returns, the
stack has at most the maximal size plus the number of members tied at the new worst score,
and, when the call prunes (more members than the maximal size, which is not the maximal
`size_t`), fewer than the maximal size members score strictly above the new worst score, the
threshold. -/
theorem C9_size_after_PruneToSize [FloatAdd] (nb : Bool) (M : Nat) (beam : Score)
    (s : HypothesisStack) (hM : 1 ≤ M)
    (hr : ReachableBy StackOp.isAddPruneOrPrune (HypothesisStack.init nb M beam) s)
    (hsz : s.m_hypos.length ≤ SIZE_MAX) :
    ((∃ m ∈ s.m_hypos, FloatAdd.sum s.m_bestScore beam < (m.score : Score)) →
      ∃ s1, PruneToSize s = .ok s1) ∧
    ∀ s1, PruneToSize s = .ok s1 →
      s1.m_hypos.length ≤ M + countTies s1.m_worstScore s1.m_hypos ∧
      (M < s.m_hypos.length → M ≠ SIZE_MAX →
        countAbove s1.m_worstScore s1.m_hypos < M) := by
  obtain ⟨hpb, hpm⟩ := params_of_reachable hr
  constructor
  · intro ⟨m, hm, hmb⟩
    by_cases hnoop : s.m_maxHypoStackSize = SIZE_MAX ∨ s.m_hypos.length ≤ s.m_maxHypoStackSize
    · exact ⟨s, PruneToSize_noop s hnoop⟩
    · rw [not_or] at hnoop
      rcases PruneToSize_prune s hnoop.1 (by omega) with ⟨hnil, _⟩ | ⟨t, ht, _⟩
      · have hin : m.score ∈
            scoresAbove (FloatAdd.sum s.m_bestScore s.m_beamThreshold) s.m_hypos :=
          mem_scoresAbove.mpr ⟨m, hm, by rw [hpb]; exact hmb, rfl⟩
        rw [hnil] at hin
        cases hin
      · exact ⟨_, ht⟩
  · intro s1 h1
    rcases PruneToSize_ok h1 with ⟨rfl, hnoop⟩ | ⟨_, _, t, rfl, ht, hc, _⟩
    · rw [hpm] at hnoop
      constructor
      · rcases hnoop with h2 | h2
        · omega
        · omega
      · intro h3 h4
        rcases hnoop with h2 | h2
        · exact absurd h2 h4
        · omega
    · have h5 := length_prunedAt_le ht hc
      have h6 := (Pruned.after_prune ht hc).few_above
      have hMeq : (prunedAt s t).m_maxHypoStackSize = s.m_maxHypoStackSize := rfl
      rw [hMeq] at h6
      rw [hpm] at h5 h6
      constructor
      · omega
      · intro _ _
        omega

/-- Maximal size 2 and the scores 5, 4, 4 (a tie at the threshold), without a beam: the
call returns, three members remain, two of them tied at the worst score 4, and one member
scores above it. -/
theorem C9_size_after_PruneToSize_witness :
    1 ≤ 2 ∧
    (∃ s1, @PruneToSize binary32 { HypothesisStack.init false 2 ⊥ with
          m_hypos := [⟨1, 1, 5⟩, ⟨2, 2, 4⟩, ⟨3, 3, 4⟩]
          m_bestScore := ((5 : Int) : Score) } = .ok s1) ∧
    ∀ s1, @PruneToSize binary32 { HypothesisStack.init false 2 ⊥ with
          m_hypos := [⟨1, 1, 5⟩, ⟨2, 2, 4⟩, ⟨3, 3, 4⟩]
          m_bestScore := ((5 : Int) : Score) } = .ok s1 →
      s1.m_hypos.length ≤ 2 + countTies s1.m_worstScore s1.m_hypos ∧
      (2 < 3 → 2 ≠ SIZE_MAX → countAbove s1.m_worstScore s1.m_hypos < 2) :=
  ⟨by decide,
   (@C9_size_after_PruneToSize binary32 false 2 ⊥
     { HypothesisStack.init false 2 ⊥ with
       m_hypos := [⟨1, 1, 5⟩, ⟨2, 2, 4⟩, ⟨3, 3, 4⟩]
       m_bestScore := ((5 : Int) : Score) }
     (by decide)
     ⟨[.addPrune ⟨1, 1, 5⟩, .addPrune ⟨2, 2, 4⟩, .addPrune ⟨3, 3, 4⟩],
      by simp [StackOp.isAddPruneOrPrune], rfl⟩
     (by decide)).1 ⟨⟨1, 1, 5⟩, by decide, by decide⟩,
   (@C9_size_after_PruneToSize binary32 false 2 ⊥
     { HypothesisStack.init false 2 ⊥ with
       m_hypos := [⟨1, 1, 5⟩, ⟨2, 2, 4⟩, ⟨3, 3, 4⟩]
       m_bestScore := ((5 : Int) : Score) }
     (by decide)
     ⟨[.addPrune ⟨1, 1, 5⟩, .addPrune ⟨2, 2, 4⟩, .addPrune ⟨3, 3, 4⟩],
      by simp [StackOp.isAddPruneOrPrune], rfl⟩
     (by decide)).2⟩

/-- C9 fails as stated where nothing is pruned: a stack of maximal size 1 holding one
member, reached by one `AddPrune`, is left as it is by `PruneToSize`, and its one member
scores strictly above the worst score, which is still minus infinity. -/
theorem C9_counterexample :
    (⊥ : Score) < 0 ∧ 1 ≤ 1 ∧
    ∃ s, @run binary32 (HypothesisStack.init false 1 ⊥) [.addPrune ⟨1, 1, 5⟩] = .ok s ∧
      @PruneToSize binary32 s = .ok s ∧ s.m_worstScore = ⊥ ∧
      ¬ countAbove s.m_worstScore s.m_hypos < 1 :=
  ⟨by decide, by decide, _, rfl, rfl, rfl, by decide⟩

/-- C10, as the code has it: for every maximal size at least 1, in every state reached from
a freshly constructed stack by `Add` and `AddPrune` calls whose size fits `size_t`, the
number of members is at most twice the maximal size minus one, plus the number of members
tied at the worst score. -/
theorem C10_size_after_Add [FloatAdd] (nb : Bool) (M : Nat) (beam : Score)
    (s : HypothesisStack) (hM : 1 ≤ M)
    (hr : ReachableBy StackOp.isAddOrAddPrune (HypothesisStack.init nb M beam) s)
    (hsz : s.m_hypos.length ≤ SIZE_MAX) :
    s.m_hypos.length ≤ 2 * M - 1 + countTies s.m_worstScore s.m_hypos := by
  have hpm := (params_of_reachable hr).2
  have hq : SizeBound s ∧ NoEquiv s.m_hypos := by
    refine run_invariant (I := fun s => SizeBound s ∧ NoEquiv s.m_hypos) ?_ ?_ hr
    · intro s op s1 hop hi hap
      refine ⟨?_, NoEquiv_apply hi.2 hap⟩
      cases op with
      | add hypo =>
        obtain ⟨r, ha, rfl⟩ := apply_add_ok hap
        exact SizeBound_Add hi.1 ha
      | addPrune hypo => exact SizeBound_AddPrune hi.1 hi.2 hap
      | pruneToSize => cases hop
      | removeDeadend e rc => cases hop
    · refine ⟨?_, List.Pairwise.nil⟩
      intro _ _
      exact Nat.zero_le _
  by_cases hmax : M = SIZE_MAX
  · omega
  · have := hq.1 (by rw [hpm]; exact hM) (by rw [hpm]; exact hmax)
    rw [hpm] at this
    exact this

/-- Maximal size 1 and two members tied at score 5: both are kept, one more than
2 * 1 - 1, and both are tied at the worst score. -/
theorem C10_size_after_Add_witness :
    1 ≤ 1 ∧ 2 ≤ SIZE_MAX ∧
    ([⟨1, 1, 5⟩, ⟨2, 2, 5⟩] : List Hypothesis).length ≤
      2 * 1 - 1 + countTies ((5 : Int) : Score) [⟨1, 1, 5⟩, ⟨2, 2, 5⟩] :=
  ⟨by decide, by decide,
   @C10_size_after_Add binary32 false 1 ⊥
     { HypothesisStack.init false 1 ⊥ with
       m_hypos := [⟨1, 1, 5⟩, ⟨2, 2, 5⟩]
       m_bestScore := ((5 : Int) : Score), m_worstScore := ((5 : Int) : Score) }
     (by decide)
     ⟨[.add ⟨1, 1, 5⟩, .addPrune ⟨2, 2, 5⟩], by simp [StackOp.isAddOrAddPrune], rfl⟩
     (by decide)⟩

/-- C10 fails as stated: with maximal size 1, `Add` of two hypotheses that are not
equivalent and both score 5 returns with 2 members, more than 2 * 1 - 1, because the
pruning it triggers keeps the tie at the threshold. -/
theorem C10_counterexample :
    1 ≤ 1 ∧
    ∃ s, @run binary32 (HypothesisStack.init false 1 ⊥) [.add ⟨1, 1, 5⟩, .add ⟨2, 2, 5⟩] = .ok s ∧
      s.m_hypos = [⟨1, 1, 5⟩, ⟨2, 2, 5⟩] ∧ ¬ s.m_hypos.length ≤ 2 * 1 - 1 :=
  ⟨by decide, _, rfl, rfl, by decide⟩

/-! ## The best hypotheses stay -/

theorem inserted_arcs [FloatAdd] (s : HypothesisStack) (hypo : Hypothesis) :
    (inserted s hypo).arcs = s.arcs ∧
      (inserted s hypo).m_nBestIsEnabled = s.m_nBestIsEnabled := by
  unfold inserted updateScores
  split
  · split <;> exact ⟨rfl, rfl⟩
  · exact ⟨rfl, rfl⟩

/-- What `Add` leaves of a state into which it inserts. -/
theorem Add_new_members [FloatAdd] {s : HypothesisStack} {hypo : Hypothesis}
    {r : HypothesisStack × Hypothesis × Bool}
    (hf : findEquiv hypo s.m_hypos = none) (h : Add s hypo = .ok r) :
    (∀ m ∈ r.1.m_hypos, m = hypo ∨ m ∈ s.m_hypos) ∧ r.1.arcs = s.arcs := by
  have hins : ∀ m ∈ (inserted s hypo).m_hypos, m = hypo ∨ m ∈ s.m_hypos := by
    intro m hm
    rw [inserted_hypos, (setInsert_perm hypo s.m_hypos).mem_iff] at hm
    exact List.mem_cons.mp hm
  rcases Add_ok h with ⟨e, he, _⟩ | ⟨_, _, ⟨_, hr⟩ | ⟨_, hp⟩⟩
  · rw [hf] at he; cases he
  · rw [hr]; exact ⟨hins, (inserted_arcs s hypo).1⟩
  · rcases PruneToSize_ok hp with ⟨hr, _⟩ | ⟨_, _, t, hr, _⟩
    · rw [hr]; exact ⟨hins, (inserted_arcs s hypo).1⟩
    · rw [hr]
      exact ⟨fun m hm => hins m (mem_prunedAt.mp hm).1, (inserted_arcs s hypo).1⟩

theorem scoresAbove_bot (l : List Hypothesis) :
    (scoresAbove ⊥ l).length = l.length := by
  unfold scoresAbove
  rw [List.length_map, List.filter_eq_self.mpr]
  intro m _
  simp

/-- One `AddPrune` of a hypothesis of `hs` that has no equivalent member keeps the `M` best
of `hs`. -/
theorem KeepsBest.step [FloatAdd] [LawfulFloatAdd] {hs : List Hypothesis} {M : Nat}
    {s : HypothesisStack}
    {hypo : Hypothesis} (hi : KeepsBest hs M s) (hh : hypo ∈ hs)
    (hk : ∀ m ∈ s.m_hypos, m.key ≠ hypo.key) :
    ∃ s1, AddPrune s hypo = .ok s1 ∧ KeepsBest hs M s1 ∧
      (∀ m ∈ s1.m_hypos, m = hypo ∨ m ∈ s.m_hypos) ∧
      (∀ g ∈ hs, AmongBest hs M g → (g = hypo ∨ g ∈ s.m_hypos) → g ∈ s1.m_hypos) := by
  by_cases hw : (hypo.score : Score) < s.m_worstScore
  · refine ⟨_, AddPrune_discard hw, ⟨hi.beam, hi.max, hi.noEquiv, hi.sub, hi.worst⟩,
      fun m hm => Or.inr hm, ?_⟩
    intro g hg hgood hor
    rcases hor with rfl | hor
    · exact absurd hw (not_lt.mpr (hi.worst g hg hgood))
    · exact hor
  · have hf : findEquiv hypo s.m_hypos = none := by
      unfold findEquiv
      rw [List.find?_eq_none]
      intro m hm
      simpa using hk m hm
    have hmemI : ∀ m, m ∈ (inserted s hypo).m_hypos ↔ m = hypo ∨ m ∈ s.m_hypos := by
      intro m
      rw [inserted_hypos, (setInsert_perm hypo s.m_hypos).mem_iff, List.mem_cons]
    have hneI : NoEquiv (inserted s hypo).m_hypos := by
      rw [inserted_hypos]; exact hi.noEquiv.insert hk
    have hsubI : ∀ m ∈ (inserted s hypo).m_hypos, m ∈ hs := by
      intro m hm
      rcases (hmemI m).mp hm with rfl | hm
      · exact hh
      · exact hi.sub m hm
    have hworstI : (inserted s hypo).m_worstScore = s.m_worstScore := by
      rcases inserted_worst s hypo with ⟨_, hw1⟩ | ⟨_, hw1⟩
      · rw [hw1, hi.beam, LawfulFloatAdd.sum_bot]
        exact max_eq_left bot_le
      · exact hw1
    have hboundI : FloatAdd.sum (inserted s hypo).m_bestScore (inserted s hypo).m_beamThreshold = ⊥ := by
      rw [inserted_beam, hi.beam, LawfulFloatAdd.sum_bot]
    have hKI : KeepsBest hs M (inserted s hypo) :=
      ⟨by rw [inserted_beam]; exact hi.beam, by rw [inserted_max]; exact hi.max, hneI, hsubI,
        by rw [hworstI]; exact hi.worst⟩
    rw [AddPrune_eq hw, hf]
    simp only
    rw [Add_new_eq hf]
    by_cases htrig : (inserted s hypo).m_hypos.length > lazyLimit s.m_maxHypoStackSize
    swap
    · rw [if_neg htrig]
      exact ⟨_, rfl, hKI, fun m hm => (hmemI m).mp hm, fun g _ _ hor => (hmemI g).mpr hor⟩
    rw [if_pos htrig]
    by_cases hnoop : (inserted s hypo).m_maxHypoStackSize = SIZE_MAX ∨
        (inserted s hypo).m_hypos.length ≤ (inserted s hypo).m_maxHypoStackSize
    · rw [PruneToSize_noop _ hnoop]
      exact ⟨_, rfl, hKI, fun m hm => (hmemI m).mp hm, fun g _ _ hor => (hmemI g).mpr hor⟩
    rw [not_or] at hnoop
    rcases PruneToSize_prune (inserted s hypo) hnoop.1 (by omega) with
      ⟨hnil, _⟩ | ⟨t, ht, _, _, hc2⟩
    · exfalso
      have : hypo.score ∈ scoresAbove (FloatAdd.sum (inserted s hypo).m_bestScore
          (inserted s hypo).m_beamThreshold) (inserted s hypo).m_hypos :=
        mem_scoresAbove.mpr ⟨hypo, (hmemI hypo).mpr (Or.inl rfl),
          by rw [hboundI]; exact WithBot.bot_lt_coe _, rfl⟩
      rw [hnil] at this
      cases this
    · rw [ht]
      rw [hboundI, scoresAbove_bot, inserted_max, hi.max] at hc2
      rw [inserted_max, hi.max] at hnoop
      -- no hypothesis among the best is below the threshold
      have hthr : ∀ g ∈ hs, AmongBest hs M g → t ≤ g.score := by
        intro g _ hgood
        by_contra hlt
        have c1 : (scoresAbove ⊥ (inserted s hypo).m_hypos).countP (fun x => decide (t ≤ x)) ≤
            (scoresAbove ⊥ (inserted s hypo).m_hypos).countP
              (fun x => decide (g.score < x)) := by
          apply List.countP_mono_left
          intro x _ hx
          simp only [decide_eq_true_eq] at hx ⊢
          omega
        have c2 := countAbove_of_bound (WithBot.bot_lt_coe g.score) (inserted s hypo).m_hypos
        have c3 : countAbove (g.score : Score) (inserted s hypo).m_hypos ≤
            hs.countP (fun x => decide (g.score < x.score)) := by
          unfold countAbove
          have := List.Subperm.countP_le (fun x : Hypothesis => decide (g.score < x.score))
            (List.subperm_of_subset hneI.nodup hsubI)
          simpa [WithBot.coe_lt_coe] using this
        unfold AmongBest at hgood
        omega
      refine ⟨_, rfl, ⟨hKI.beam, hKI.max, List.Pairwise.filter _ hneI, ?_, ?_⟩, ?_, ?_⟩
      · exact fun m hm => hsubI m (mem_prunedAt.mp hm).1
      · exact fun g hg hgood => WithBot.coe_le_coe.mpr (hthr g hg hgood)
      · exact fun m hm => (hmemI m).mp (mem_prunedAt.mp hm).1
      · exact fun g hg hgood hor => mem_prunedAt.mpr ⟨(hmemI g).mpr hor, hthr g hg hgood⟩

theorem run_addPrune_cons [FloatAdd] (s : HypothesisStack) (hypo : Hypothesis)
    (rest : List Hypothesis) :
    run s ((hypo :: rest).map StackOp.addPrune) =
      match AddPrune s hypo with
      | .ok s1 => run s1 (rest.map StackOp.addPrune)
      | .error e => .error e := rfl

/-- Inserting the rest of the hypotheses keeps the `M` best of all of them. -/
theorem KeepsBest.run_rest [FloatAdd] [LawfulFloatAdd] {hs : List Hypothesis} {M : Nat}
    (rest : List Hypothesis) :
    ∀ s : HypothesisStack, KeepsBest hs M s → (∀ h ∈ rest, h ∈ hs) → NoEquiv rest →
      (∀ h ∈ rest, ∀ m ∈ s.m_hypos, m.key ≠ h.key) →
      ∃ s1, run s (rest.map StackOp.addPrune) = .ok s1 ∧
        ∀ g ∈ hs, AmongBest hs M g → (g ∈ rest ∨ g ∈ s.m_hypos) → g ∈ s1.m_hypos := by
  induction rest with
  | nil =>
    intro s _ _ _ _
    refine ⟨s, rfl, ?_⟩
    intro g _ _ hor
    rcases hor with h | h
    · cases h
    · exact h
  | cons hypo rest ih =>
    intro s hi hsub hne hkeys
    have hp := List.pairwise_cons.mp hne
    obtain ⟨s1, h1, hi1, hmem1, hkeep1⟩ :=
      hi.step (hsub hypo (List.mem_cons_self _ _))
        (fun m hm => hkeys hypo (List.mem_cons_self _ _) m hm)
    have hkeys1 : ∀ h ∈ rest, ∀ m ∈ s1.m_hypos, m.key ≠ h.key := by
      intro h hh m hm
      rcases hmem1 m hm with rfl | hm
      · exact hp.1 h hh
      · exact hkeys h (List.mem_cons_of_mem _ hh) m hm
    obtain ⟨s2, h2, hkeep2⟩ :=
      ih s1 hi1 (fun h hh => hsub h (List.mem_cons_of_mem _ hh)) hp.2 hkeys1
    refine ⟨s2, ?_, ?_⟩
    · rw [run_addPrune_cons, h1]
      exact h2
    · intro g hg hgood hor
      apply hkeep2 g hg hgood
      rcases hor with h | h
      · rcases List.mem_cons.mp h with rfl | h
        · exact Or.inr (hkeep1 g hg hgood (Or.inl rfl))
        · exact Or.inl h
      · exact Or.inr (hkeep1 g hg hgood (Or.inr h))

/-! ## The claims, continued -/

/-- C11: with beam threshold minus infinity and any maximal size `M`, `AddPrune` of a finite
sequence of pairwise non-equivalent hypotheses into a freshly constructed stack, in any
order, returns every time, and every hypothesis of the sequence that fewer than `M`
hypotheses of the sequence outscore strictly is a member of the final stack. -/
theorem C11_best_M_are_retained [FloatAdd] [LawfulFloatAdd] (nb : Bool) (M : Nat)
    (hs : List Hypothesis)
    (hne : hs.Pairwise (fun a b => a.key ≠ b.key)) :
    ∃ s, run (HypothesisStack.init nb M ⊥) (hs.map StackOp.addPrune) = .ok s ∧
      ∀ h ∈ hs, hs.countP (fun g => decide (h.score < g.score)) < M → h ∈ s.m_hypos := by
  have h0 : KeepsBest hs M (HypothesisStack.init nb M ⊥) :=
    ⟨rfl, rfl, List.Pairwise.nil, fun m hm => (by cases hm), fun _ _ _ => bot_le⟩
  obtain ⟨s, hs1, hs2⟩ := KeepsBest.run_rest hs _ h0 (fun h hh => hh) hne
    (fun _ _ m hm => (by cases hm))
  exact ⟨s, hs1, fun h hh hgood => hs2 h hh hgood (Or.inl hh)⟩

/-- Scenario D of the specification: maximal size 2 and the scores 5, 4, 3, 2, 1 leave the
hypotheses scoring 5 and 4. -/
theorem C11_best_M_are_retained_witness :
    @run binary32 (HypothesisStack.init false 2 ⊥)
        ([(⟨1, 1, 5⟩ : Hypothesis), ⟨2, 2, 4⟩, ⟨3, 3, 3⟩, ⟨4, 4, 2⟩, ⟨5, 5, 1⟩].map
          StackOp.addPrune) =
      .ok { HypothesisStack.init false 2 ⊥ with
            m_hypos := [⟨1, 1, 5⟩, ⟨2, 2, 4⟩]
            m_bestScore := ((5 : Int) : Score), m_worstScore := ((4 : Int) : Score)
            stats := { discarded := 1, recombinations := 0, pruned := 2 }
            freed := [⟨3, 3, 3⟩, ⟨4, 4, 2⟩, ⟨5, 5, 1⟩] } ∧
    ∃ s, @run binary32 (HypothesisStack.init false 2 ⊥)
        ([(⟨1, 1, 5⟩ : Hypothesis), ⟨2, 2, 4⟩, ⟨3, 3, 3⟩, ⟨4, 4, 2⟩, ⟨5, 5, 1⟩].map
          StackOp.addPrune) = .ok s ∧
      ∀ h ∈ [(⟨1, 1, 5⟩ : Hypothesis), ⟨2, 2, 4⟩, ⟨3, 3, 3⟩, ⟨4, 4, 2⟩, ⟨5, 5, 1⟩],
        ([(⟨1, 1, 5⟩ : Hypothesis), ⟨2, 2, 4⟩, ⟨3, 3, 3⟩, ⟨4, 4, 2⟩, ⟨5, 5, 1⟩].countP
          (fun g => decide (h.score < g.score)) < 2) → h ∈ s.m_hypos :=
  ⟨rfl,
   @C11_best_M_are_retained binary32 binary32_lawful false 2
     [⟨1, 1, 5⟩, ⟨2, 2, 4⟩, ⟨3, 3, 3⟩, ⟨4, 4, 2⟩, ⟨5, 5, 1⟩] (by decide)⟩

/-- On a stack that satisfies the invariant, an `AddPrune` that returns for a hypothesis
`hypo` which is not below the worst score and has an equivalent member `existing`: the loser
(`existing` if `hypo` scores strictly higher, otherwise `hypo`) is not a member afterwards;
with n-best enabled exactly one `AddArc` call is made, on the winner with the loser; with
n-best disabled no `AddArc` call is made. -/
theorem AddPrune_arcs [FloatAdd] [LawfulFloatAdd] {s s1 : HypothesisStack}
    {hypo existing : Hypothesis} (hi : Inv s) (hw : s.m_worstScore ≤ (hypo.score : Score))
    (he : existing ∈ s.m_hypos) (hk : existing.key = hypo.key) (hne : hypo ≠ existing)
    (ha : AddPrune s hypo = .ok s1) :
    (if existing.score < hypo.score then existing else hypo) ∉ s1.m_hypos ∧
      (s.m_nBestIsEnabled = true →
        s1.arcs = s.arcs ++
          [if existing.score < hypo.score then (hypo, existing) else (existing, hypo)]) ∧
      (s.m_nBestIsEnabled = false → s1.arcs = s.arcs) := by
  obtain ⟨e, hf⟩ := findEquiv_of_mem he hk
  have hee : e = existing :=
    hi.loc.noEquiv.key_inj (findEquiv_some hf).1 he ((findEquiv_some hf).2.trans hk.symm)
  subst hee
  have hnw : ¬ (hypo.score : Score) < s.m_worstScore := not_lt.mpr hw
  rcases AddPrune_ok ha with ⟨h, _⟩ | ⟨_, hf0, _⟩ | ⟨e1, _, hf1, hs, hr⟩ | ⟨e1, _, hf1, hs, hadd⟩
  · exact absurd h hnw
  · rw [hf] at hf0; cases hf0
  · rw [hf] at hf1
    cases hf1
    rw [if_neg hs, if_neg hs, hr]
    refine ⟨?_, ?_, ?_⟩
    · rw [(loserDropped_core s hypo e).1.1]
      intro hin
      exact hne (hi.loc.noEquiv.key_inj hin he hk.symm)
    · intro hnb
      unfold loserDropped
      rw [if_pos hnb]
    · intro hnb
      unfold loserDropped
      rw [if_neg (by simp [hnb])]
  · rw [hf] at hf1
    cases hf1
    obtain ⟨hmem, harcs⟩ := Add_new_members (findEquiv_loserRemoved hi.loc.noEquiv hf) hadd
    rw [if_pos hs, if_pos hs]
    refine ⟨?_, ?_, ?_⟩
    · intro hin
      rcases hmem e hin with h1 | h1
      · exact hne h1.symm
      · rw [(loserRemoved_fields s hypo e).1] at h1
        exact ((hi.loc.noEquiv.nodup.mem_erase_iff).mp h1).1 rfl
    · intro hnb
      show s1.arcs = _
      rw [harcs]
      unfold loserRemoved
      rw [if_pos hnb]
    · intro hnb
      show s1.arcs = _
      rw [harcs]
      unfold loserRemoved
      rw [if_neg (by simp [hnb])]

/-- C12 on binary32 scores, where the code fails the claim: n-best enabled, maximal size 1
and beam threshold -1.  `AddPrune` of two hypotheses scoring 5 that are not equivalent
returns twice and leaves both, with worst score 5 and no arc.  A third hypothesis scores
33554432 (two to the 25th) and is equivalent to the first, the loser: after
`hypo->AddArc(hypoExisting)` and `Detach` (lines 114-115) the re-insertion of line 122 makes
33554432 the best score; the `float` sum of 33554432 and -1 is 33554432, no member scores
strictly more, and `PruneToSize` reads the top of its empty heap (line 179), where the claim
has the winner in the stack with the loser as its one arc. -/
theorem C12_replacement_with_arc_reads_empty_heap :
    ∃ s, @run binary32 (HypothesisStack.init true 1 ((-1 : Int) : Score))
        [.addPrune ⟨1, 1, 5⟩, .addPrune ⟨2, 2, 5⟩] = .ok s ∧
      s.m_hypos = [⟨1, 1, 5⟩, ⟨2, 2, 5⟩] ∧ s.m_worstScore = ((5 : Int) : Score) ∧
      s.arcs = [] ∧ s.m_nBestIsEnabled = true ∧
      s.m_worstScore ≤ ((33554432 : Int) : Score) ∧
      binary32Sum ((33554432 : Int) : Score) ((-1 : Int) : Score) =
        ((33554432 : Int) : Score) ∧
      @AddPrune binary32 s ⟨3, 1, 33554432⟩ = .error Fault.emptyHeapTop :=
  ⟨_, rfl, rfl, rfl, rfl, rfl, by decide, by decide, rfl⟩

/-! ## The ranges `ProcessCoverageVector` extends with -/

theorem mem_candidateRanges {env : DecoderEnv} {B : WordsBitmap} {s e : Nat} :
    (⟨s, e⟩ : WordsRange) ∈ candidateRanges env B ↔
      GetFirstGapPos env.sourceSize B ≤ s ∧ s < env.sourceSize ∧ s ≤ e ∧
        e < s + min (env.sourceSize - s) env.maxPhraseLength := by
  unfold candidateRanges startPositions endPositions
  simp only [List.mem_flatMap, List.mem_map, List.mem_range'_1, WordsRange.mk.injEq]
  constructor
  · rintro ⟨s1, ⟨h1, h2⟩, e1, ⟨h3, h4⟩, rfl, rfl⟩
    refine ⟨h1, by omega, h3, ?_⟩
    split at h4 <;> omega
  · rintro ⟨h1, h2, h3, h4⟩
    refine ⟨s, ⟨h1, by omega⟩, e, ⟨h3, ?_⟩, rfl, rfl⟩
    split <;> omega

theorem nodup_candidateRanges (env : DecoderEnv) (B : WordsBitmap) :
    (candidateRanges env B).Nodup := by
  unfold candidateRanges
  rw [List.nodup_flatMap]
  constructor
  · intro s _
    apply List.Nodup.map
    · intro a b hab
      exact (WordsRange.mk.inj hab).2
    · exact List.nodup_range' _ _
  · apply List.Pairwise.imp _ (List.nodup_range' _ _)
    intro a b hab
    simp only [Function.onFun, List.Disjoint, List.mem_map]
    rintro r ⟨_, _, rfl⟩ ⟨_, _, h⟩
    exact hab (WordsRange.mk.inj h).1.symm

theorem count_filter_nodup {α : Type} [DecidableEq α] {l : List α} (hl : l.Nodup)
    (p : α → Bool) (a : α) :
    (l.filter p).count a = if a ∈ l ∧ p a = true then 1 else 0 := by
  split
  · rename_i h
    exact List.count_eq_one_of_mem (hl.filter p) (List.mem_filter.mpr h)
  · rename_i h
    exact List.count_eq_zero_of_not_mem (fun hm => h (List.mem_filter.mp hm))

theorem noLimitInvokes_iff {env : DecoderEnv} {B : WordsBitmap} {R : WordsRange} :
    noLimitInvokes env B R = true ↔ Overlap B R = false ∧ env.translationOptionList R ≠ [] := by
  unfold noLimitInvokes
  cases hO : Overlap B R
  · simp [List.length_pos]
  · simp

theorem limitedInvokes_iff {env : DecoderEnv} {hyp : SearchHypothesis} {B : WordsBitmap}
    {R : WordsRange} :
    limitedInvokes env hyp B R = true ↔
      Overlap B R = false ∧
      (env.isWordLattice = true →
        env.isCoveragePossible R = true ∧
          env.isExtensionPossible hyp.currSourceRange R = true) ∧
      env.translationOptionList R ≠ [] ∧
      (GetFirstGapPos env.sourceSize B = R.startPos ∨
        env.computeDistortionDistance R
          ⟨GetFirstGapPos env.sourceSize B, GetFirstGapPos env.sourceSize B⟩ ≤
            env.maxDistortion) := by
  unfold limitedInvokes
  cases hO : Overlap B R
  · cases hL : env.isWordLattice
    · by_cases hg : GetFirstGapPos env.sourceSize B = R.startPos
      · simp [hg, List.length_pos]
      · by_cases hd : env.computeDistortionDistance R
            ⟨GetFirstGapPos env.sourceSize B, GetFirstGapPos env.sourceSize B⟩ ≤
              env.maxDistortion
        · simp [hg, hd, List.length_pos]
        · simp [hg, hd]
    · cases hC : env.isCoveragePossible R
      · simp
      · cases hE : env.isExtensionPossible hyp.currSourceRange R
        · simp
        · by_cases hg : GetFirstGapPos env.sourceSize B = R.startPos
          · simp [hg, List.length_pos]
          · by_cases hd : env.computeDistortionDistance R
                ⟨GetFirstGapPos env.sourceSize B, GetFirstGapPos env.sourceSize B⟩ ≤
                  env.maxDistortion
            · simp [hg, hd, List.length_pos]
            · simp [hg, hd]
  · simp

/-- C13: for linear input, `ProcessCoverageVector` invokes `CubePruning` for the range
`[s, e]` exactly once if `g <= s <= e <= min (s + L - 1) (N - 1)`, the range does not
overlap the coverage, its option list is not empty, and the distortion limit is negative
or `s = g` or the distortion distance of `[s, e]` to `[g, g]` is within the limit; and not
at all otherwise.  Here `g` is the first gap of the coverage, `N` the sentence length and
`L` the maximal phrase length. -/
theorem C13_one_rule_for_both_loops (env : DecoderEnv) (hypothesis : SearchHypothesis)
    (B : WordsBitmap) (s e : Nat) (hlin : env.isWordLattice = false) :
    (extensionRanges env hypothesis B).count ⟨s, e⟩ =
      if GetFirstGapPos env.sourceSize B ≤ s ∧ s ≤ e ∧
          (e : Int) ≤ min ((s : Int) + env.maxPhraseLength - 1) ((env.sourceSize : Int) - 1) ∧
          Overlap B ⟨s, e⟩ = false ∧ env.translationOptionList ⟨s, e⟩ ≠ [] ∧
          (env.maxDistortion < 0 ∨ s = GetFirstGapPos env.sourceSize B ∨
            env.computeDistortionDistance ⟨s, e⟩
              ⟨GetFirstGapPos env.sourceSize B, GetFirstGapPos env.sourceSize B⟩ ≤
                env.maxDistortion)
      then 1 else 0 := by
  have hpos : (⟨s, e⟩ : WordsRange) ∈ candidateRanges env B ↔
      GetFirstGapPos env.sourceSize B ≤ s ∧ s ≤ e ∧
        (e : Int) ≤ min ((s : Int) + env.maxPhraseLength - 1) ((env.sourceSize : Int) - 1) := by
    rw [mem_candidateRanges]
    omega
  unfold extensionRanges
  by_cases hD : env.maxDistortion < 0
  · rw [if_pos hD, count_filter_nodup (nodup_candidateRanges env B)]
    apply if_congr _ rfl rfl
    rw [hpos, noLimitInvokes_iff]
    constructor
    · rintro ⟨⟨h1, h2, h3⟩, h4, h5⟩
      exact ⟨h1, h2, h3, h4, h5, Or.inl hD⟩
    · rintro ⟨h1, h2, h3, h4, h5, _⟩
      exact ⟨⟨h1, h2, h3⟩, h4, h5⟩
  · rw [if_neg hD, count_filter_nodup (nodup_candidateRanges env B)]
    apply if_congr _ rfl rfl
    rw [hpos, limitedInvokes_iff]
    constructor
    · rintro ⟨⟨h1, h2, h3⟩, h4, _, h5, h6⟩
      refine ⟨h1, h2, h3, h4, h5, Or.inr ?_⟩
      rcases h6 with h6 | h6
      · exact Or.inl h6.symm
      · exact Or.inr h6
    · rintro ⟨h1, h2, h3, h4, h5, h6⟩
      refine ⟨⟨h1, h2, h3⟩, h4, ?_, h5, ?_⟩
      · intro hl
        rw [hlin] at hl
        cases hl
      · rcases h6 with h6 | h6 | h6
        · exact absurd h6 hD
        · exact Or.inl h6.symm
        · exact Or.inr h6

/-- One coverage, sentence length 3, phrases of at most 2 words, distortion limit 2 and the
first word covered: the range `[1, 2]` is extended exactly once, and the ranges extended
are `[1, 1]`, `[1, 2]` and `[2, 2]`. -/
theorem C13_one_rule_for_both_loops_witness :
    extensionRanges (exampleEnv 3 2 2 false true 1) (seedHypothesis (exampleEnv 3 2 2 false true 1))
      {0} = [⟨1, 1⟩, ⟨1, 2⟩, ⟨2, 2⟩] ∧
    (extensionRanges (exampleEnv 3 2 2 false true 1)
        (seedHypothesis (exampleEnv 3 2 2 false true 1)) {0}).count ⟨1, 2⟩ =
      if GetFirstGapPos 3 {0} ≤ 1 ∧ 1 ≤ 2 ∧
          ((2 : Nat) : Int) ≤ min (((1 : Nat) : Int) + ((2 : Nat) : Int) - 1)
            (((3 : Nat) : Int) - 1) ∧
          Overlap {0} ⟨1, 2⟩ = false ∧
          (exampleEnv 3 2 2 false true 1).translationOptionList ⟨1, 2⟩ ≠ [] ∧
          ((2 : Int) < 0 ∨ 1 = GetFirstGapPos 3 {0} ∨
            (exampleEnv 3 2 2 false true 1).computeDistortionDistance ⟨1, 2⟩
              ⟨GetFirstGapPos 3 {0}, GetFirstGapPos 3 {0}⟩ ≤ 2)
      then 1 else 0 :=
  ⟨by decide,
   C13_one_rule_for_both_loops (exampleEnv 3 2 2 false true 1)
     (seedHypothesis (exampleEnv 3 2 2 false true 1)) {0} 1 2 rfl⟩

/-- C14 at a word lattice without reordering limit: with a one-word sentence on which no
coverage is possible, `ProcessCoverageVector` with distortion limit -1 invokes `CubePruning`
for the range `[0, 0]`, while with distortion limit 0 it invokes it for no range. -/
theorem C14_no_limit_loop_skips_lattice_checks :
    (exampleEnv 1 (-1) 1 true false 1).isWordLattice = true ∧
    (exampleEnv 1 (-1) 1 true false 1).isCoveragePossible ⟨0, 0⟩ = false ∧
    extensionRanges (exampleEnv 1 (-1) 1 true false 1)
      (seedHypothesis (exampleEnv 1 (-1) 1 true false 1)) ∅ = [⟨0, 0⟩] ∧
    extensionRanges (exampleEnv 1 0 1 true false 1)
      (seedHypothesis (exampleEnv 1 0 1 true false 1)) ∅ = [] := by
  decide

/-- C15: with distortion limit 0 (for linear input, and for any other), where the distortion
distance of a range `[s, e]` to `[g, g]` is `|e + 1 - g|`, every range for which
`ProcessCoverageVector` invokes `CubePruning` starts at the first gap of the coverage. -/
theorem C15_zero_limit_extends_at_first_gap (env : DecoderEnv)
    (hypothesis : SearchHypothesis) (B : WordsBitmap) (R : WordsRange)
    (hD : env.maxDistortion = 0)
    (hdist : ∀ s e g : Nat,
      env.computeDistortionDistance ⟨s, e⟩ ⟨g, g⟩ = |(e : Int) + 1 - (g : Int)|)
    (hR : R ∈ extensionRanges env hypothesis B) :
    R.startPos = GetFirstGapPos env.sourceSize B := by
  obtain ⟨s, e⟩ := R
  unfold extensionRanges at hR
  rw [if_neg (by rw [hD]; decide)] at hR
  obtain ⟨hc, hacc⟩ := List.mem_filter.mp hR
  obtain ⟨h1, _, h3, _⟩ := mem_candidateRanges.mp hc
  obtain ⟨_, _, _, h6⟩ := limitedInvokes_iff.mp hacc
  rcases h6 with h6 | h6
  · exact h6.symm
  · exfalso
    rw [hdist, hD] at h6
    have := abs_eq_zero.mp (le_antisymm h6 (abs_nonneg _))
    omega

/-- Scenario E of the specification: sentence length 3, distortion limit 0, empty coverage.
The ranges extended all start at 0; `[1, 1]` and `[2, 2]` are not among them. -/
theorem C15_zero_limit_extends_at_first_gap_witness :
    extensionRanges (exampleEnv 3 0 3 false true 1)
      (seedHypothesis (exampleEnv 3 0 3 false true 1)) ∅ = [⟨0, 0⟩, ⟨0, 1⟩, ⟨0, 2⟩] ∧
    (⟨1, 1⟩ : WordsRange) ∉ extensionRanges (exampleEnv 3 0 3 false true 1)
      (seedHypothesis (exampleEnv 3 0 3 false true 1)) ∅ ∧
    (⟨2, 2⟩ : WordsRange) ∉ extensionRanges (exampleEnv 3 0 3 false true 1)
      (seedHypothesis (exampleEnv 3 0 3 false true 1)) ∅ ∧
    (⟨0, 0⟩ : WordsRange).startPos = GetFirstGapPos 3 ∅ :=
  ⟨by decide, by decide, by decide,
   C15_zero_limit_extends_at_first_gap (exampleEnv 3 0 3 false true 1)
     (seedHypothesis (exampleEnv 3 0 3 false true 1)) ∅ ⟨0, 0⟩ rfl
     (fun _ _ _ => rfl) (by decide)⟩

/-! ## The sets of cube pruning -/

theorem scoreOrder_equiv {a b : SearchHypothesis} (h1 : scoreOrderBefore a b = false)
    (h2 : scoreOrderBefore b a = false) : a.hypo.id = b.hypo.id := by
  unfold scoreOrderBefore at h1 h2
  simp only [Bool.or_eq_false_iff, decide_eq_false_iff_not, Bool.and_eq_false_iff,
    not_lt] at h1 h2
  have hs : a.hypo.score = b.hypo.score := le_antisymm h1.1 h2.1
  rcases h1.2 with h | h
  · exact absurd hs h
  · rcases h2.2 with h' | h'
    · exact absurd hs.symm h'
    · omega

theorem scoreOrder_le {a b : SearchHypothesis} (h : scoreOrderBefore a b = true) :
    b.hypo.score ≤ a.hypo.score := by
  unfold scoreOrderBefore at h
  simp only [Bool.or_eq_true, decide_eq_true_eq, Bool.and_eq_true] at h
  rcases h with h | h
  · omega
  · omega

theorem scoreSetInsert_perm (h : SearchHypothesis) (l : List SearchHypothesis)
    (hid : ∀ m ∈ l, m.hypo.id ≠ h.hypo.id) : (scoreSetInsert h l).Perm (h :: l) := by
  induction l with
  | nil => exact List.Perm.refl _
  | cons m rest ih =>
    unfold scoreSetInsert
    by_cases h1 : scoreOrderBefore h m = true
    · rw [if_pos h1]
    · rw [if_neg h1]
      by_cases h2 : scoreOrderBefore m h = true
      · rw [if_pos h2]
        exact (List.Perm.cons m (ih (fun x hx => hid x (List.mem_cons_of_mem _ hx)))).trans
          (List.Perm.swap h m rest)
      · exfalso
        exact hid m (List.mem_cons_self _ _)
          (scoreOrder_equiv (by simpa using h2) (by simpa using h1))

theorem scoreSetInsert_mem {h a : SearchHypothesis} {l : List SearchHypothesis}
    (ha : a ∈ scoreSetInsert h l) : a = h ∨ a ∈ l := by
  induction l with
  | nil =>
    simp only [scoreSetInsert, List.mem_singleton] at ha
    exact Or.inl ha
  | cons m rest ih =>
    unfold scoreSetInsert at ha
    split at ha
    · exact List.mem_cons.mp ha
    · split at ha
      · rcases List.mem_cons.mp ha with rfl | ha
        · exact Or.inr (List.mem_cons_self _ _)
        · rcases ih ha with h1 | h1
          · exact Or.inl h1
          · exact Or.inr (List.mem_cons_of_mem _ h1)
      · exact Or.inr ha

theorem scoreSetInsert_sorted (h : SearchHypothesis) (l : List SearchHypothesis)
    (hl : l.Pairwise (fun a b => b.hypo.score ≤ a.hypo.score)) :
    (scoreSetInsert h l).Pairwise (fun a b => b.hypo.score ≤ a.hypo.score) := by
  induction l with
  | nil => simp [scoreSetInsert]
  | cons m rest ih =>
    have hp := List.pairwise_cons.mp hl
    unfold scoreSetInsert
    split
    · rename_i h1
      refine List.pairwise_cons.mpr ⟨?_, hl⟩
      intro z hz
      rcases List.mem_cons.mp hz with rfl | hz
      · exact scoreOrder_le h1
      · exact le_trans (hp.1 z hz) (scoreOrder_le h1)
    · split
      · rename_i h2
        refine List.pairwise_cons.mpr ⟨?_, ih hp.2⟩
        intro z hz
        rcases scoreSetInsert_mem hz with rfl | hz
        · exact scoreOrder_le h2
        · exact hp.1 z hz
      · exact hl

theorem scoreSetInsertAll_perm (l : List SearchHypothesis) :
    ∀ set : List SearchHypothesis,
      ((l ++ set).map (fun a => a.hypo.id)).Nodup →
      (scoreSetInsertAll l set).Perm (l ++ set) := by
  induction l with
  | nil => intro set _; exact List.Perm.refl _
  | cons h rest ih =>
    intro set hnd
    rw [List.cons_append, List.map_cons, List.nodup_cons] at hnd
    have hfresh : ∀ m ∈ set, m.hypo.id ≠ h.hypo.id := by
      intro m hm heq
      apply hnd.1
      rw [← heq]
      exact List.mem_map_of_mem _ (List.mem_append_right _ hm)
    have hp := scoreSetInsert_perm h set hfresh
    have hnd2 : ((rest ++ scoreSetInsert h set).map (fun a => a.hypo.id)).Nodup := by
      have hperm : (rest ++ scoreSetInsert h set).Perm (h :: (rest ++ set)) :=
        (List.Perm.append_left rest hp).trans List.perm_middle
      rw [(hperm.map _).nodup_iff, List.map_cons, List.nodup_cons]
      exact hnd
    show (scoreSetInsertAll rest (scoreSetInsert h set)).Perm _
    exact (ih _ hnd2).trans ((List.Perm.append_left rest hp).trans List.perm_middle)

theorem scoreSetInsertAll_sorted (l : List SearchHypothesis) :
    ∀ set : List SearchHypothesis,
      set.Pairwise (fun a b => b.hypo.score ≤ a.hypo.score) →
      (scoreSetInsertAll l set).Pairwise (fun a b => b.hypo.score ≤ a.hypo.score) := by
  induction l with
  | nil => intro set h; exact h
  | cons h rest ih =>
    intro set hs
    exact ih _ (scoreSetInsert_sorted h set hs)

/-- The loop body, written with the hypotheses it pushes. -/
theorem cubeStep_eq (env : DecoderEnv) (coverageVec : List SearchHypothesis)
    (topk : List TranslationOption) (st : CubeState) (item : SearchHypothesis)
    (rest : List SearchHypothesis) (hc : st.cand = item :: rest) :
    cubeStep env coverageVec topk st =
      { cand := scoreSetInsertAll (pushes env coverageVec topk st.nextId item) rest
        buf := scoreSetInsert item st.buf
        created := st.created ++ pushes env coverageVec topk st.nextId item
        nextId := st.nextId + (pushes env coverageVec topk st.nextId item).length
        iterations := st.iterations + 1 } := by
  unfold cubeStep pushes rightPush belowPush
  rw [hc]
  simp only
  cases h1 : coverageVec.get? item.gridX <;> cases h2 : topk.get? (item.gridY + 1) <;>
    cases h3 : coverageVec.get? (item.gridX + 1) <;> cases h4 : topk.get? item.gridY <;>
    simp [cubePush, scoreSetInsertAll]

theorem rightPush_cases (env : DecoderEnv) (rows : List SearchHypothesis)
    (topk : List TranslationOption) (n : Nat) (item : SearchHypothesis) :
    (rightPush env rows topk n item = [] ∧
      (rows.get? item.gridX = none ∨ topk.get? (item.gridY + 1) = none)) ∨
    ∃ h o, rows.get? item.gridX = some h ∧ topk.get? (item.gridY + 1) = some o ∧
      rightPush env rows topk n item = [CreateNext env n h o item.gridX (item.gridY + 1)] := by
  unfold rightPush
  cases h1 : rows.get? item.gridX <;> cases h2 : topk.get? (item.gridY + 1) <;> simp

theorem belowPush_cases (env : DecoderEnv) (rows : List SearchHypothesis)
    (topk : List TranslationOption) (n : Nat) (item : SearchHypothesis) :
    (belowPush env rows topk n item = [] ∧
      (rows.get? (item.gridX + 1) = none ∨ topk.get? item.gridY = none)) ∨
    ∃ h o, rows.get? (item.gridX + 1) = some h ∧ topk.get? item.gridY = some o ∧
      belowPush env rows topk n item = [CreateNext env n h o (item.gridX + 1) item.gridY] := by
  unfold belowPush
  cases h1 : rows.get? (item.gridX + 1) <;> cases h2 : topk.get? item.gridY <;> simp

/-- What the loop body pushes: at most one hypothesis to the right and one below, with the
next identities. -/
theorem pushes_spec (env : DecoderEnv) (rows : List SearchHypothesis)
    (topk : List TranslationOption) (n : Nat) (item : SearchHypothesis) :
    (∀ p ∈ pushes env rows topk n item,
      n ≤ p.hypo.id ∧ p.hypo.id < n + (pushes env rows topk n item).length ∧
      (∃ h o, rows.get? p.gridX = some h ∧ topk.get? p.gridY = some o ∧
        p = CreateNext env p.hypo.id h o p.gridX p.gridY) ∧
      ((p.gridX = item.gridX ∧ p.gridY = item.gridY + 1) ∨
        (p.gridX = item.gridX + 1 ∧ p.gridY = item.gridY))) ∧
    ((pushes env rows topk n item).map (fun a => a.hypo.id)).Nodup ∧
    (∀ x y, countCell x y (pushes env rows topk n item) ≤ countParents x y [item]) := by
  unfold pushes
  rcases rightPush_cases env rows topk n item with ⟨hr, _⟩ | ⟨h1, o1, hr1, hr2, hr⟩ <;>
    rcases belowPush_cases env rows topk
      (n + (rightPush env rows topk n item).length) item with
      ⟨hb, _⟩ | ⟨h2, o2, hb1, hb2, hb⟩
  · rw [hb, hr]
    simp [countCell]
  · rw [hb, hr]
    refine ⟨?_, by simp, ?_⟩
    · intro p hp
      simp only [List.nil_append, List.mem_singleton] at hp
      subst hp
      refine ⟨?_, ?_, ⟨h2, o2, hb1, hb2, rfl⟩, Or.inr ⟨rfl, rfl⟩⟩
      · simp [CreateNext]
      · simp [CreateNext]
    · intro x y
      simp only [List.nil_append, countCell, countParents, CreateNext, List.countP_cons,
        List.countP_nil]
      split <;> split <;> simp_all
  · rw [hb, hr]
    refine ⟨?_, by simp, ?_⟩
    · intro p hp
      simp only [List.append_nil, List.mem_singleton] at hp
      subst hp
      refine ⟨?_, ?_, ⟨h1, o1, hr1, hr2, rfl⟩, Or.inl ⟨rfl, rfl⟩⟩
      · simp [CreateNext]
      · simp [CreateNext]
    · intro x y
      simp only [List.append_nil, countCell, countParents, CreateNext, List.countP_cons,
        List.countP_nil]
      split <;> split <;> simp_all
  · rw [hb, hr]
    refine ⟨?_, by simp [CreateNext], ?_⟩
    · intro p hp
      simp only [List.singleton_append, List.mem_cons, List.mem_singleton, List.not_mem_nil,
        or_false] at hp
      rcases hp with rfl | rfl
      · refine ⟨?_, ?_, ⟨h1, o1, hr1, hr2, rfl⟩, Or.inl ⟨rfl, rfl⟩⟩
        · simp [CreateNext]
        · simp [CreateNext]
      · refine ⟨?_, ?_, ⟨h2, o2, hb1, hb2, rfl⟩, Or.inr ⟨rfl, rfl⟩⟩
        · simp [CreateNext]
        · simp [CreateNext]
    · intro x y
      simp only [List.singleton_append, countCell, countParents, CreateNext,
        List.countP_cons, List.countP_nil]
      split <;> split <;> split <;> simp_all

theorem get?_lt_length {α : Type} {l : List α} {i : Nat} {a : α} (h : l.get? i = some a) :
    i < l.length := by
  by_contra hlt
  rw [List.get?_eq_none.mpr (by omega)] at h
  cases h

theorem get?_some_of_lt {α : Type} {l : List α} {i : Nat} (h : i < l.length) :
    ∃ a, l.get? i = some a := ⟨l.get ⟨i, h⟩, List.get?_eq_get h⟩

/-- The invariant holds before the main loop. -/
theorem CubeInv.cube_init {env : DecoderEnv} {rows : List SearchHypothesis}
    {topk : List TranslationOption} {n : Nat} {st : CubeState}
    (h : cubeInit env rows topk n = some st) :
    CubeInv env rows topk st ∧ st.buf = [] ∧ st.iterations = 0 ∧ st.cand ≠ [] := by
  unfold cubeInit at h
  cases h1 : rows.get? 0 with
  | none => rw [h1] at h; cases h
  | some h0 =>
    cases h2 : topk.get? 0 with
    | none => rw [h1, h2] at h; cases h
    | some o0 =>
      rw [h1, h2] at h
      simp only [scoreSetInsert, Option.some.injEq] at h
      subst h
      refine ⟨⟨?_, by simp, by simp, by simp, ?_, ?_, ?_, ?_, rfl⟩, rfl, rfl, by simp⟩
      · intro a ha
        simp only [List.mem_singleton] at ha
        subst ha
        simp [CreateNext]
      · intro a ha
        simp only [List.mem_singleton] at ha
        subst ha
        exact ⟨h0, o0, h1, h2, rfl⟩
      · intro x y _ _
        right
        exact ⟨_, List.mem_singleton.mpr rfl, Nat.zero_le _, Nat.zero_le _⟩
      · intro x y
        by_cases hxy : x = 0 ∧ y = 0
        · rw [if_pos hxy]
          exact List.countP_le_length _
        · rw [if_neg hxy]
          have hzero : countCell x y [CreateNext env n h0 o0 0 0] = 0 := by
            unfold countCell
            rw [List.countP_eq_zero]
            intro a ha
            simp only [List.mem_singleton] at ha
            subst ha
            simp only [CreateNext, Bool.and_eq_true, decide_eq_true_eq]
            intro hh
            exact hxy ⟨hh.1.symm, hh.2.symm⟩
          show countCell x y [CreateNext env n h0 o0 0 0] ≤ _
          rw [hzero]
          exact Nat.zero_le _
      · exact ⟨_, List.mem_singleton.mpr rfl, rfl, rfl⟩

/-- The loop body keeps the invariant and moves the best candidate to `buf`. -/
theorem CubeInv.cube_step {env : DecoderEnv} {rows : List SearchHypothesis}
    {topk : List TranslationOption} {st : CubeState} {item : SearchHypothesis}
    {rest : List SearchHypothesis} (hi : CubeInv env rows topk st)
    (hc : st.cand = item :: rest) :
    CubeInv env rows topk (cubeStep env rows topk st) ∧
      (cubeStep env rows topk st).buf.Perm (item :: st.buf) ∧
      (∀ a ∈ (cubeStep env rows topk st).cand,
        a ∈ rest ∨ a ∈ pushes env rows topk st.nextId item) := by
  obtain ⟨hP1, hP2, hP3⟩ := pushes_spec env rows topk st.nextId item
  have hperm0 : (item :: (rest ++ st.buf)).Perm st.created := by
    have := hi.perm
    rw [hc] at this
    exact this
  have hnd0 : ((item :: (rest ++ st.buf)).map (fun a => a.hypo.id)).Nodup :=
    (hperm0.map _).nodup_iff.mpr hi.ids_nodup
  rw [List.map_cons, List.nodup_cons, List.map_append, List.nodup_append] at hnd0
  obtain ⟨hitem_fresh, hrest_nd, _, _⟩ := hnd0
  have hbuf_id : ∀ m ∈ st.buf, m.hypo.id ≠ item.hypo.id := by
    intro m hm heq
    apply hitem_fresh
    rw [← heq]
    exact List.mem_append_right _ (List.mem_map_of_mem _ hm)
  have hbufperm := scoreSetInsert_perm item st.buf hbuf_id
  have hrest_lt : ∀ a ∈ rest, a.hypo.id < st.nextId := fun a ha =>
    hi.ids_lt a (hperm0.subset (List.mem_cons_of_mem _ (List.mem_append_left _ ha)))
  have hPrest_nd : ((pushes env rows topk st.nextId item ++ rest).map
      (fun a => a.hypo.id)).Nodup := by
    rw [List.map_append, List.nodup_append]
    refine ⟨hP2, hrest_nd, ?_⟩
    intro i hi1 hi2
    obtain ⟨p, hp, rfl⟩ := List.mem_map.mp hi1
    obtain ⟨a, ha, hpa⟩ := List.mem_map.mp hi2
    have := (hP1 p hp).1
    have := hrest_lt a ha
    omega
  have hcandperm := scoreSetInsertAll_perm (pushes env rows topk st.nextId item) rest hPrest_nd
  have hitem_wf := hi.wf item (hperm0.subset (List.mem_cons_self _ _))
  rw [cubeStep_eq env rows topk st item rest hc]
  refine ⟨⟨?_, ?_, ?_, ?_, ?_, ?_, ?_, ?_, ?_⟩, hbufperm, ?_⟩
  · intro a ha
    rcases List.mem_append.mp ha with ha | ha
    · exact Nat.lt_of_lt_of_le (hi.ids_lt a ha) (Nat.le_add_right _ _)
    · exact (hP1 a ha).2.1
  · show ((st.created ++ pushes env rows topk st.nextId item).map (fun a => a.hypo.id)).Nodup
    rw [List.map_append, List.nodup_append]
    refine ⟨hi.ids_nodup, hP2, ?_⟩
    intro i hi1 hi2
    obtain ⟨a, ha, hpa⟩ := List.mem_map.mp hi1
    obtain ⟨p, hp, rfl⟩ := List.mem_map.mp hi2
    have := (hP1 p hp).1
    have := hi.ids_lt a ha
    omega
  · show (scoreSetInsertAll (pushes env rows topk st.nextId item) rest ++
      scoreSetInsert item st.buf).Perm (st.created ++ pushes env rows topk st.nextId item)
    refine (List.Perm.append hcandperm hbufperm).trans ?_
    rw [List.append_assoc]
    refine (List.perm_append_comm).trans ?_
    refine List.Perm.append_right _ ?_
    exact (List.perm_middle).trans hperm0
  · have hs := hi.sorted
    rw [hc] at hs
    exact scoreSetInsertAll_sorted _ _ (List.pairwise_cons.mp hs).2
  · intro a ha
    rcases List.mem_append.mp ha with ha | ha
    · exact hi.wf a ha
    · exact (hP1 a ha).2.2.1
  · intro x y hx hy
    rcases hi.frontier x y hx hy with ⟨b, hb, hbx, hby⟩ | ⟨a, ha, hax, hay⟩
    · exact Or.inl ⟨b, hbufperm.mem_iff.mpr (List.mem_cons_of_mem _ hb), hbx, hby⟩
    · rw [hc] at ha
      rcases List.mem_cons.mp ha with rfl | ha
      · by_cases hcell : a.gridX = x ∧ a.gridY = y
        · exact Or.inl ⟨a, hbufperm.mem_iff.mpr (List.mem_cons_self _ _), hcell.1, hcell.2⟩
        · right
          obtain ⟨h, o, hh, ho, _⟩ := hitem_wf
          by_cases hyy : a.gridY < y
          · obtain ⟨o1, ho1⟩ := get?_some_of_lt (l := topk) (i := a.gridY + 1) (by omega)
            refine ⟨CreateNext env st.nextId h o1 a.gridX (a.gridY + 1),
              hcandperm.mem_iff.mpr (List.mem_append_left _ ?_), hax, ?_⟩
            · unfold pushes rightPush
              rw [hh, ho1]
              exact List.mem_append_left _ (List.mem_singleton.mpr rfl)
            · show a.gridY + 1 ≤ y
              omega
          · have hxx : a.gridX < x := by
              rcases Nat.lt_or_ge a.gridX x with h1 | h1
              · exact h1
              · exact absurd ⟨by omega, by omega⟩ hcell
            obtain ⟨h1, hh1⟩ := get?_some_of_lt (l := rows) (i := a.gridX + 1) (by omega)
            refine ⟨CreateNext env (st.nextId +
                (rightPush env rows topk st.nextId a).length) h1 o (a.gridX + 1) a.gridY,
              hcandperm.mem_iff.mpr (List.mem_append_left _ ?_), ?_, hay⟩
            · unfold pushes
              apply List.mem_append_right
              unfold belowPush
              rw [hh1, ho]
              exact List.mem_singleton.mpr rfl
            · show a.gridX + 1 ≤ x
              omega
      · exact Or.inr ⟨a, hcandperm.mem_iff.mpr (List.mem_append_right _ ha), hax, hay⟩
  · intro x y
    show countCell x y (st.created ++ pushes env rows topk st.nextId item) ≤
      if x = 0 ∧ y = 0 then 1 else countParents x y (scoreSetInsert item st.buf)
    have hcnt : countCell x y (st.created ++ pushes env rows topk st.nextId item) =
        countCell x y st.created + countCell x y (pushes env rows topk st.nextId item) := by
      unfold countCell
      rw [List.countP_append]
    have hpar : countParents x y (scoreSetInsert item st.buf) =
        countParents x y [item] + countParents x y st.buf := by
      unfold countParents
      rw [hbufperm.countP_eq, ← List.countP_append]
      rfl
    have h1 := hi.count x y
    have h2 := hP3 x y
    rw [hcnt, hpar]
    by_cases hxy : x = 0 ∧ y = 0
    · rw [if_pos hxy] at h1 ⊢
      have h3 : countParents x y [item] = 0 := by
        unfold countParents
        rw [List.countP_eq_zero]
        intro a _
        simp only [Bool.or_eq_true, Bool.and_eq_true, decide_eq_true_eq]
        omega
      omega
    · rw [if_neg hxy] at h1 ⊢
      omega
  · obtain ⟨a, ha, hxy⟩ := hi.origin
    exact ⟨a, List.mem_append_left _ ha, hxy⟩
  · show (scoreSetInsert item st.buf).length = st.iterations + 1
    rw [hbufperm.length_eq, List.length_cons, hi.iters]
  · intro a ha
    rcases List.mem_append.mp (hcandperm.mem_iff.mp ha) with h | h
    · exact Or.inr h
    · exact Or.inl h

theorem countP_add_le_length {α : Type} (p q : α → Bool) (l : List α)
    (hd : ∀ a ∈ l, ¬ (p a = true ∧ q a = true)) :
    l.countP p + l.countP q ≤ l.length := by
  induction l with
  | nil => simp
  | cons a rest ih =>
    have h1 := ih (fun b hb => hd b (List.mem_cons_of_mem _ hb))
    have h2 := hd a (List.mem_cons_self _ _)
    rw [List.countP_cons, List.countP_cons, List.length_cons]
    cases hp : p a <;> cases hq : q a <;> simp_all <;> omega

/-- As long as `buf` holds at most three hypotheses, they sit at different grid positions. -/
theorem CubeInv.cells_distinct {env : DecoderEnv} {rows : List SearchHypothesis}
    {topk : List TranslationOption} {st : CubeState} (hi : CubeInv env rows topk st)
    (hlen : st.buf.length ≤ 3) (x y : Nat) : countCell x y st.buf ≤ 1 := by
  by_contra hgt
  have h1 : countCell x y st.created = countCell x y st.cand + countCell x y st.buf := by
    unfold countCell
    rw [← hi.perm.countP_eq, List.countP_append]
  have h2 := hi.count x y
  by_cases hxy : x = 0 ∧ y = 0
  · rw [if_pos hxy] at h2
    omega
  · rw [if_neg hxy] at h2
    have h3 : countCell x y st.buf + countParents x y st.buf ≤ st.buf.length := by
      unfold countCell countParents
      apply countP_add_le_length
      intro a _
      simp only [Bool.and_eq_true, decide_eq_true_eq, Bool.or_eq_true]
      omega
    omega

/-- The main loop keeps the invariant of the loop body and any other property the loop body
keeps, and it ends, within the iterations given, with `cand` empty or `buf` full. -/
theorem cubeLoop_spec {env : DecoderEnv} {rows : List SearchHypothesis}
    {topk : List TranslationOption} {J : CubeState → Prop}
    (hstep : ∀ st item rest, CubeInv env rows topk st → J st → st.cand = item :: rest →
      st.buf.length < 3 → J (cubeStep env rows topk st)) :
    ∀ (fuel : Nat) (st : CubeState), CubeInv env rows topk st → J st →
      st.buf.length ≤ 3 → 3 ≤ fuel + st.buf.length →
      CubeInv env rows topk (cubeLoop env rows topk fuel st) ∧
        J (cubeLoop env rows topk fuel st) ∧
        (cubeLoop env rows topk fuel st).buf.length ≤ 3 ∧
        ((cubeLoop env rows topk fuel st).cand = [] ∨
          3 ≤ (cubeLoop env rows topk fuel st).buf.length) := by
  intro fuel
  induction fuel with
  | zero =>
    intro st hi hj hlen hfuel
    unfold cubeLoop
    exact ⟨hi, hj, hlen, Or.inr (by omega)⟩
  | succ fuel ih =>
    intro st hi hj hlen hfuel
    unfold cubeLoop
    cases hcand : st.cand with
    | nil =>
      simp only [List.isEmpty_nil, Bool.not_true, Bool.false_and, Bool.false_eq_true, if_false]
      exact ⟨hi, hj, hlen, Or.inl hcand⟩
    | cons item rest =>
      by_cases hfull : st.buf.length < 3
      · have hcond : (!(item :: rest).isEmpty && decide (st.buf.length < top_k + extra)) =
            true := by
          simp [top_k, extra, hfull]
        rw [if_pos hcond]
        obtain ⟨hi1, hbuf1, _⟩ := hi.cube_step hcand
        have hlen1 : (cubeStep env rows topk st).buf.length = st.buf.length + 1 := by
          rw [hbuf1.length_eq, List.length_cons]
        exact ih _ hi1 (hstep st item rest hi hj hcand hfull) (by omega) (by omega)
      · have hcond : ¬ ((!(item :: rest).isEmpty && decide (st.buf.length < top_k + extra)) =
            true) := by
          simp [top_k, extra, hfull]
        rw [if_neg hcond]
        exact ⟨hi, hj, hlen, Or.inr (by omega)⟩

/-! ## The option set and the end of the main loop -/

theorem optionSetInsert_perm (opt : TranslationOption) (l : List TranslationOption)
    (hr : ∀ p ∈ l, p.rank ≠ opt.rank) : (optionSetInsert opt l).Perm (opt :: l) := by
  induction l with
  | nil => exact List.Perm.refl _
  | cons other rest ih =>
    unfold optionSetInsert
    by_cases h1 : opt.rank < other.rank
    · rw [if_pos h1]
    · rw [if_neg h1]
      have h2 : ¬ opt.rank = other.rank := fun h => hr other (List.mem_cons_self _ _) h.symm
      rw [if_neg h2]
      exact (List.Perm.cons other (ih (fun p hp => hr p (List.mem_cons_of_mem _ hp)))).trans
        (List.Perm.swap opt other rest)

theorem optionSetInsert_ne_nil (opt : TranslationOption) (l : List TranslationOption) :
    optionSetInsert opt l ≠ [] := by
  cases l with
  | nil => simp [optionSetInsert]
  | cons other rest =>
    unfold optionSetInsert
    split
    · simp
    · split <;> simp

theorem optionSet_foldl_perm (tol : List TranslationOption) :
    ∀ set : List TranslationOption, ((tol ++ set).map (fun o => o.rank)).Nodup →
      (tol.foldl (fun set opt => optionSetInsert opt set) set).Perm (tol ++ set) := by
  induction tol with
  | nil => intro set _; exact List.Perm.refl _
  | cons o rest ih =>
    intro set hnd
    rw [List.cons_append, List.map_cons, List.nodup_cons] at hnd
    have hfresh : ∀ p ∈ set, p.rank ≠ o.rank := by
      intro p hp heq
      apply hnd.1
      rw [← heq]
      exact List.mem_map_of_mem _ (List.mem_append_right _ hp)
    have hp := optionSetInsert_perm o set hfresh
    have hperm : (rest ++ optionSetInsert o set).Perm (o :: (rest ++ set)) :=
      (List.Perm.append_left rest hp).trans List.perm_middle
    have hnd2 : ((rest ++ optionSetInsert o set).map (fun o => o.rank)).Nodup := by
      rw [(hperm.map _).nodup_iff, List.map_cons, List.nodup_cons]
      exact hnd
    show (rest.foldl (fun set opt => optionSetInsert opt set) (optionSetInsert o set)).Perm _
    exact (ih _ hnd2).trans hperm

/-- Options that are pairwise distinct under the ordering are all in the option set. -/
theorem translationOptionSet_perm {tol : List TranslationOption}
    (hnd : (tol.map (fun o => o.rank)).Nodup) : (translationOptionSet tol).Perm tol := by
  have h := optionSet_foldl_perm tol [] (by rw [List.append_nil]; exact hnd)
  rw [List.append_nil] at h
  exact h

theorem optionSet_foldl_ne_nil (tol : List TranslationOption) :
    ∀ set : List TranslationOption, set ≠ [] →
      tol.foldl (fun set opt => optionSetInsert opt set) set ≠ [] := by
  induction tol with
  | nil => intro set h; exact h
  | cons o rest ih => intro set _; exact ih _ (optionSetInsert_ne_nil o set)

theorem translationOptionSet_ne_nil {tol : List TranslationOption} (h : tol ≠ []) :
    translationOptionSet tol ≠ [] := by
  cases tol with
  | nil => exact absurd rfl h
  | cons o rest => exact optionSet_foldl_ne_nil rest _ (optionSetInsert_ne_nil o [])

theorem topkOptions_length (tol : List TranslationOption) :
    (topkOptions tol).length = min 3 (translationOptionSet tol).length := by
  unfold topkOptions top_k
  exact List.length_take _ _

theorem get?_take_some {α : Type} {l : List α} {n i : Nat} {a : α}
    (h : (l.take n).get? i = some a) : l.get? i = some a := by
  induction l generalizing n i with
  | nil => simp at h
  | cons b rest ih =>
    cases n with
    | zero => simp at h
    | succ n =>
      cases i with
      | zero => simpa using h
      | succ i =>
        simp only [List.take_succ_cons, List.get?_cons_succ] at h ⊢
        exact ih h

/-- The state of `CubePruning` after the main loop: the search starts whenever there is a
row and an option, the loop has ended with `cand` empty or `buf` full, and the invariant
and any property the loop body keeps hold. -/
theorem cubeSearch_spec (env : DecoderEnv) (rows : List SearchHypothesis)
    (tol : List TranslationOption) {J : CubeState → Prop} (n : Nat)
    (hrows : rows ≠ []) (htol : tol ≠ [])
    (hinit : ∀ st, cubeInit env rows (topkOptions tol) n = some st → J st)
    (hstep : ∀ st item rest, CubeInv env rows (topkOptions tol) st → J st →
      st.cand = item :: rest → st.buf.length < 3 →
      J (cubeStep env rows (topkOptions tol) st)) :
    ∃ st, cubeSearch env rows tol n = some st ∧ CubeInv env rows (topkOptions tol) st ∧
      J st ∧ st.buf.length ≤ 3 ∧ (st.cand = [] ∨ 3 ≤ st.buf.length) := by
  have hr : 0 < rows.length := List.length_pos.mpr hrows
  have hc : 0 < (topkOptions tol).length := by
    rw [topkOptions_length]
    have := List.length_pos.mpr (translationOptionSet_ne_nil htol)
    omega
  obtain ⟨h0, hh0⟩ := get?_some_of_lt hr
  obtain ⟨o0, ho0⟩ := get?_some_of_lt hc
  have hsome : ∃ st0, cubeInit env rows (topkOptions tol) n = some st0 := by
    unfold cubeInit
    rw [hh0, ho0]
    exact ⟨_, rfl⟩
  obtain ⟨st0, hst0⟩ := hsome
  obtain ⟨hi0, hbuf0, _, _⟩ := CubeInv.cube_init hst0
  have hlen0 : st0.buf.length = 0 := by rw [hbuf0]; rfl
  have hloop := cubeLoop_spec hstep (top_k + extra) st0 hi0 (hinit st0 hst0)
    (by omega) (by unfold top_k extra; omega)
  refine ⟨cubeLoop env rows (topkOptions tol) (top_k + extra) st0, ?_, hloop⟩
  unfold cubeSearch
  rw [hst0]

theorem cubeSearch_inv {env : DecoderEnv} {rows : List SearchHypothesis}
    {tol : List TranslationOption} {n : Nat} {st : CubeState}
    (h : cubeSearch env rows tol n = some st) :
    CubeInv env rows (topkOptions tol) st ∧ st.buf.length ≤ 3 ∧
      (st.cand = [] ∨ 3 ≤ st.buf.length) := by
  unfold cubeSearch at h
  cases h0 : cubeInit env rows (topkOptions tol) n with
  | none => rw [h0] at h; cases h
  | some st0 =>
    rw [h0] at h
    simp only [Option.some.injEq] at h
    subst h
    obtain ⟨hi0, hbuf0, _, _⟩ := CubeInv.cube_init h0
    have hlen0 : st0.buf.length = 0 := by rw [hbuf0]; rfl
    have hloop := cubeLoop_spec (J := fun _ => True) (fun _ _ _ _ _ _ _ => trivial)
      (top_k + extra) st0 hi0 trivial (by omega) (by unfold top_k extra; omega)
    exact ⟨hloop.1, hloop.2.2.1, hloop.2.2.2⟩

/-- The set `D` holds the hypotheses of `buf`, ordered by score. -/
theorem cubeD_perm {env : DecoderEnv} {rows : List SearchHypothesis}
    {topk : List TranslationOption} {st : CubeState} (hi : CubeInv env rows topk st)
    (hlen : st.buf.length ≤ 3) :
    (cubeD st).Perm st.buf ∧
      (cubeD st).Pairwise (fun a b => b.hypo.score ≤ a.hypo.score) := by
  have hbufnd : (st.buf.map (fun a => a.hypo.id)).Nodup := by
    have h1 : ((st.cand ++ st.buf).map (fun a => a.hypo.id)).Nodup :=
      (hi.perm.map _).nodup_iff.mpr hi.ids_nodup
    rw [List.map_append, List.nodup_append] at h1
    exact h1.2.1
  have htake : st.buf.take top_k = st.buf := List.take_of_length_le (by unfold top_k; omega)
  have hD : cubeD st = scoreSetInsertAll st.buf [] := by
    unfold cubeD scoreSetInsertAll
    rw [htake]
  rw [hD]
  refine ⟨?_, scoreSetInsertAll_sorted _ _ List.Pairwise.nil⟩
  have := scoreSetInsertAll_perm st.buf [] (by rw [List.append_nil]; exact hbufnd)
  rw [List.append_nil] at this
  exact this

/-! ## How many hypotheses the main loop moves to `buf` -/

theorem nodup_map_of_countP {α β : Type} [DecidableEq β] (f : α → β) (l : List α)
    (h : ∀ b, l.countP (fun a => decide (f a = b)) ≤ 1) : (l.map f).Nodup := by
  induction l with
  | nil => exact List.nodup_nil
  | cons a rest ih =>
    rw [List.map_cons, List.nodup_cons]
    constructor
    · intro hmem
      obtain ⟨a1, ha1, he⟩ := List.mem_map.mp hmem
      have h1 := h (f a)
      rw [List.countP_cons] at h1
      have h2 : 0 < rest.countP (fun a2 => decide (f a2 = f a)) :=
        List.countP_pos_iff.mpr ⟨a1, ha1, by simpa using he⟩
      simp only [decide_True, if_true] at h1
      omega
    · apply ih
      intro b
      have h1 := h b
      rw [List.countP_cons] at h1
      omega

/-- The grid positions of the hypotheses in `buf` are pairwise different. -/
theorem CubeInv.cells_nodup {env : DecoderEnv} {rows : List SearchHypothesis}
    {topk : List TranslationOption} {st : CubeState} (hi : CubeInv env rows topk st)
    (hlen : st.buf.length ≤ 3) : (st.buf.map (fun a => (a.gridX, a.gridY))).Nodup := by
  apply nodup_map_of_countP
  rintro ⟨x, y⟩
  have h := hi.cells_distinct hlen x y
  unfold countCell at h
  refine le_trans (le_of_eq ?_) h
  apply List.countP_congr
  intro a _
  simp [Prod.ext_iff]

theorem CubeInv.buf_wf {env : DecoderEnv} {rows : List SearchHypothesis}
    {topk : List TranslationOption} {st : CubeState} (hi : CubeInv env rows topk st)
    {b : SearchHypothesis} (hb : b ∈ st.buf) :
    ∃ h o, rows.get? b.gridX = some h ∧ topk.get? b.gridY = some o ∧
      b = CreateNext env b.hypo.id h o b.gridX b.gridY :=
  hi.wf b (hi.perm.subset (List.mem_append_right _ hb))

/-- When the loop has ended, `buf` holds three hypotheses, or one for every grid position
when the grid has fewer. -/
theorem CubeInv.buf_length {env : DecoderEnv} {rows : List SearchHypothesis}
    {topk : List TranslationOption} {st : CubeState} (hi : CubeInv env rows topk st)
    (hlen : st.buf.length ≤ 3) (hend : st.cand = [] ∨ 3 ≤ st.buf.length) :
    st.buf.length = min 3 (rows.length * topk.length) := by
  have hnd := hi.cells_nodup hlen
  have hsub : st.buf.map (fun a => (a.gridX, a.gridY)) ⊆
      List.range rows.length ×ˢ List.range topk.length := by
    rintro ⟨x, y⟩ hxy
    obtain ⟨b, hb, hbe⟩ := List.mem_map.mp hxy
    obtain ⟨h, o, hh, ho, _⟩ := hi.buf_wf hb
    simp only [Prod.mk.injEq] at hbe
    rw [List.mem_product, List.mem_range, List.mem_range, ← hbe.1, ← hbe.2]
    exact ⟨get?_lt_length hh, get?_lt_length ho⟩
  have hle : st.buf.length ≤ rows.length * topk.length := by
    have := (List.subperm_of_subset hnd hsub).length_le
    rw [List.length_map, List.length_product, List.length_range, List.length_range] at this
    exact this
  rcases hend with hcand | hfull
  · have hsup : List.range rows.length ×ˢ List.range topk.length ⊆
        st.buf.map (fun a => (a.gridX, a.gridY)) := by
      rintro ⟨x, y⟩ hxy
      rw [List.mem_product, List.mem_range, List.mem_range] at hxy
      rcases hi.frontier x y hxy.1 hxy.2 with ⟨b, hb, hbx, hby⟩ | ⟨a, ha, _⟩
      · exact List.mem_map.mpr ⟨b, hb, by rw [hbx, hby]⟩
      · rw [hcand] at ha
        cases ha
    have hge : rows.length * topk.length ≤ st.buf.length := by
      have := (List.subperm_of_subset
        ((List.nodup_range _).product (List.nodup_range _)) hsup).length_le
      rw [List.length_map, List.length_product, List.length_range, List.length_range] at this
      exact this
    omega
  · omega

/-- Every position of the grid gets at most two hypotheses, one from each of the two
positions that push onto it. -/
theorem CubeInv.created_le_two {env : DecoderEnv} {rows : List SearchHypothesis}
    {topk : List TranslationOption} {st : CubeState} (hi : CubeInv env rows topk st)
    (hlen : st.buf.length ≤ 3) (x y : Nat) : countCell x y st.created ≤ 2 := by
  have h := hi.count x y
  by_cases hxy : x = 0 ∧ y = 0
  · rw [if_pos hxy] at h
    omega
  · rw [if_neg hxy] at h
    have hpar : countParents x y st.buf ≤
        st.buf.countP (fun a => decide (a.gridX = x) && decide (a.gridY + 1 = y)) +
          st.buf.countP (fun a => decide (a.gridX + 1 = x) && decide (a.gridY = y)) := by
      unfold countParents
      generalize st.buf = l
      induction l with
      | nil => simp
      | cons a rest ih =>
        simp only [List.countP_cons]
        split <;> split <;> split <;> simp_all <;> omega
    have h1 : st.buf.countP (fun a => decide (a.gridX = x) && decide (a.gridY + 1 = y)) ≤ 1 := by
      cases y with
      | zero =>
        rw [List.countP_eq_zero.mpr]
        · exact Nat.zero_le _
        · intro a _
          simp
      | succ y =>
        have := hi.cells_distinct hlen x y
        unfold countCell at this
        simpa using this
    have h2 : st.buf.countP (fun a => decide (a.gridX + 1 = x) && decide (a.gridY = y)) ≤ 1 := by
      cases x with
      | zero =>
        rw [List.countP_eq_zero.mpr]
        · exact Nat.zero_le _
        · intro a _
          simp
      | succ x =>
        have := hi.cells_distinct hlen x y
        unfold countCell at this
        simpa using this
    omega

/-! ## Cube pruning on a monotone grid -/

theorem largest_eq {G T Q : List Int} (hperm : G.Perm (T ++ Q))
    (hT : T.Pairwise (fun a b => b ≤ a)) (hdom : ∀ t ∈ T, ∀ q ∈ Q, q ≤ t) :
    largest T.length G = T := by
  haveI : IsTotal Int (fun a b : Int => b ≤ a) := ⟨fun a b => le_total b a⟩
  haveI : IsTrans Int (fun a b : Int => b ≤ a) := ⟨fun _ _ _ h1 h2 => le_trans h2 h1⟩
  haveI : IsAntisymm Int (fun a b : Int => b ≤ a) := ⟨fun _ _ h1 h2 => le_antisymm h2 h1⟩
  have hs1 := List.sorted_insertionSort (fun a b : Int => b ≤ a) G
  have hsQ := List.sorted_insertionSort (fun a b : Int => b ≤ a) Q
  have hpQ := List.perm_insertionSort (fun a b : Int => b ≤ a) Q
  have hs2 : (T ++ Q.insertionSort (fun a b : Int => b ≤ a)).Sorted (fun a b : Int => b ≤ a) := by
    unfold List.Sorted
    rw [List.pairwise_append]
    exact ⟨hT, hsQ, fun t ht q hq => hdom t ht q (hpQ.subset hq)⟩
  have hp : (G.insertionSort (fun a b : Int => b ≤ a)).Perm
      (T ++ Q.insertionSort (fun a b : Int => b ≤ a)) :=
    ((List.perm_insertionSort _ G).trans hperm).trans (List.Perm.append_left T hpQ.symm)
  unfold largest
  rw [List.eq_of_perm_of_sorted hp hs1 hs2]
  simp

theorem extensionScore_eq {env : DecoderEnv} {rows : List SearchHypothesis}
    {cols : List TranslationOption} {x y : Nat} {h : SearchHypothesis}
    {o : TranslationOption} (hh : rows.get? x = some h) (ho : cols.get? y = some o) :
    extensionScore env rows cols x y = env.totalScore h o := by
  unfold extensionScore
  rw [hh, ho]

/-- A hypothesis of the search scores what the grid says at its position. -/
theorem CubeInv.score_eq {env : DecoderEnv} {rows : List SearchHypothesis}
    {cols : List TranslationOption} {k : Nat} {st : CubeState}
    (hi : CubeInv env rows (cols.take k) st) {a : SearchHypothesis} (ha : a ∈ st.created) :
    a.hypo.score = extensionScore env rows cols a.gridX a.gridY := by
  obtain ⟨h, o, hh, ho, he⟩ := hi.wf a ha
  rw [extensionScore_eq hh (get?_take_some ho)]
  conv_lhs => rw [he]
  rfl

theorem MonotoneGrid.le {env : DecoderEnv} {rows : List SearchHypothesis}
    {cols : List TranslationOption} (hm : MonotoneGrid env rows cols) {x1 x2 y1 y2 : Nat}
    (hx : x1 ≤ x2) (hx2 : x2 < rows.length) (hy : y1 ≤ y2) (hy2 : y2 < cols.length) :
    extensionScore env rows cols x2 y2 ≤ extensionScore env rows cols x1 y1 :=
  le_trans (hm.1 x2 hx2 x1 hx y2 hy2) (hm.2 y2 hy2 y1 hy x1 (by omega))

theorem CubeDom.dom_init {env : DecoderEnv} {rows : List SearchHypothesis}
    {topk : List TranslationOption} {n : Nat} {st : CubeState}
    (h : cubeInit env rows topk n = some st) : CubeDom st := by
  intro b hb
  rw [(CubeInv.cube_init h).2.1] at hb
  cases hb

/-- On a monotone grid the loop body keeps every candidate at or below every popped
hypothesis. -/
theorem CubeDom.dom_step {env : DecoderEnv} {rows : List SearchHypothesis}
    {cols : List TranslationOption} {k : Nat} (hm : MonotoneGrid env rows cols)
    {st : CubeState} {item : SearchHypothesis} {rest : List SearchHypothesis}
    (hi : CubeInv env rows (cols.take k) st) (hd : CubeDom st)
    (hc : st.cand = item :: rest) : CubeDom (cubeStep env rows (cols.take k) st) := by
  obtain ⟨hi1, hbuf, hcand⟩ := hi.cube_step hc
  obtain ⟨hP1, _, _⟩ := pushes_spec env rows (cols.take k) st.nextId item
  have hitem_cand : item ∈ st.cand := by rw [hc]; exact List.mem_cons_self _ _
  have hitem_created : item ∈ st.created :=
    hi.perm.subset (List.mem_append_left _ hitem_cand)
  have hsorted := hi.sorted
  rw [hc] at hsorted
  have hpush : ∀ p ∈ pushes env rows (cols.take k) st.nextId item,
      p.hypo.score ≤ item.hypo.score := by
    intro p hp
    obtain ⟨_, _, ⟨h, o, hh, ho, he⟩, hpos⟩ := hP1 p hp
    have hps : p.hypo.score = extensionScore env rows cols p.gridX p.gridY := by
      rw [extensionScore_eq hh (get?_take_some ho)]
      conv_lhs => rw [he]
      rfl
    rw [hps, hi.score_eq hitem_created]
    have hx2 := get?_lt_length hh
    have hy2 := get?_lt_length (get?_take_some ho)
    rcases hpos with ⟨h1, h2⟩ | ⟨h1, h2⟩
    · exact hm.le (by omega) hx2 (by omega) hy2
    · exact hm.le (by omega) hx2 (by omega) hy2
  intro b hb a ha
  have hb1 := hbuf.subset hb
  rcases List.mem_cons.mp hb1 with rfl | hb1
  · rcases hcand a ha with ha | ha
    · exact (List.pairwise_cons.mp hsorted).1 a ha
    · exact hpush a ha
  · rcases hcand a ha with ha | ha
    · exact hd b hb1 a (by rw [hc]; exact List.mem_cons_of_mem _ ha)
    · exact le_trans (hpush a ha) (hd b hb1 item hitem_cand)

/-- When the loop has ended on a monotone grid, a grid position that is not in `buf`, in
the columns kept or in the columns cut off, scores at most what every hypothesis in `buf`
scores. -/
theorem CubeInv.dominates {env : DecoderEnv} {rows : List SearchHypothesis}
    {cols : List TranslationOption} (hm : MonotoneGrid env rows cols) {st : CubeState}
    (hi : CubeInv env rows (cols.take 3) st) (hd : CubeDom st) (hlen : st.buf.length ≤ 3)
    {x y : Nat} (hx : x < rows.length) (hy : y < cols.length)
    (hout : ¬ ∃ b ∈ st.buf, b.gridX = x ∧ b.gridY = y) :
    ∀ b ∈ st.buf, extensionScore env rows cols x y ≤ b.hypo.score := by
  have hres : ∀ y1, y1 < (cols.take 3).length → y1 ≤ y →
      (¬ ∃ b ∈ st.buf, b.gridX = x ∧ b.gridY = y1) →
      ∀ b ∈ st.buf, extensionScore env rows cols x y ≤ b.hypo.score := by
    intro y1 hy1 hle hout1 b hb
    rcases hi.frontier x y1 hx hy1 with hin | ⟨a, ha, hax, hay⟩
    · exact absurd hin hout1
    · have hsc := hi.score_eq (hi.perm.subset (List.mem_append_left _ ha))
      refine le_trans ?_ (hd b hb a ha)
      rw [hsc]
      exact hm.le hax hx (by omega) hy
  have htake : (cols.take 3).length = min 3 cols.length := List.length_take _ _
  by_cases hy3 : y < (cols.take 3).length
  · exact hres y hy3 (Nat.le_refl _) hout
  · have hc3 : (cols.take 3).length = 3 := by omega
    by_cases h0 : ∃ b ∈ st.buf, b.gridX = x ∧ b.gridY = 0
    · by_cases h1 : ∃ b ∈ st.buf, b.gridX = x ∧ b.gridY = 1
      · by_cases h2 : ∃ b ∈ st.buf, b.gridX = x ∧ b.gridY = 2
        · obtain ⟨b0, hb0, hb0x, hb0y⟩ := h0
          obtain ⟨b1, hb1, hb1x, hb1y⟩ := h1
          obtain ⟨b2, hb2, hb2x, hb2y⟩ := h2
          have hnd : [b0, b1, b2].Nodup := by
            simp only [List.nodup_cons, List.mem_cons, List.mem_singleton, List.not_mem_nil,
              not_false_eq_true, List.nodup_nil, and_true, not_or]
            refine ⟨⟨?_, ?_⟩, ?_⟩
            · intro h; rw [h] at hb0y; omega
            · intro h; rw [h] at hb0y; omega
            · intro h; rw [h] at hb1y; omega
          have hsub : [b0, b1, b2] ⊆ st.buf := by
            intro z hz
            simp only [List.mem_cons, List.mem_singleton, List.not_mem_nil, or_false] at hz
            rcases hz with rfl | rfl | rfl
            · exact hb0
            · exact hb1
            · exact hb2
          have hperm := (List.subperm_of_subset hnd hsub).perm_of_length_le (by simpa using hlen)
          intro b hb
          have hb3 := hperm.symm.subset hb
          have hbs := hi.score_eq (hi.perm.subset (List.mem_append_right _ hb))
          rw [hbs]
          simp only [List.mem_cons, List.mem_singleton, List.not_mem_nil, or_false] at hb3
          rcases hb3 with rfl | rfl | rfl
          · rw [hb0x, hb0y]
            exact hm.le (Nat.le_refl _) hx (by omega) hy
          · rw [hb1x, hb1y]
            exact hm.le (Nat.le_refl _) hx (by omega) hy
          · rw [hb2x, hb2y]
            exact hm.le (Nat.le_refl _) hx (by omega) hy
        · exact hres 2 (by omega) (by omega) h2
      · exact hres 1 (by omega) (by omega) h1
    · exact hres 0 (by omega) (by omega) h0

theorem perm_append_of_subset {α : Type} [DecidableEq α] {l s : List α} (hl : l.Nodup)
    (hs : s.Nodup) (hsub : s ⊆ l) :
    ∃ rest, l.Perm (s ++ rest) ∧ ∀ p ∈ rest, p ∈ l ∧ p ∉ s := by
  have h1 : (l.filter (fun p => decide (p ∈ s))).Perm s := by
    rw [List.perm_ext_iff_of_nodup (hl.filter _) hs]
    intro a
    rw [List.mem_filter]
    simp only [decide_eq_true_eq]
    exact ⟨fun h => h.2, fun h => ⟨hsub h, h⟩⟩
  refine ⟨l.filter (fun p => !decide (p ∈ s)),
    (List.filter_append_perm (fun p => decide (p ∈ s)) l).symm.trans
      (List.Perm.append_right _ h1), ?_⟩
  intro p hp
  rw [List.mem_filter] at hp
  exact ⟨hp.1, by simpa using hp.2⟩

/-- The scores that `CubePruning` passes on are the largest of the whole grid when the grid
is monotone. -/
theorem CubeInv.finds_largest {env : DecoderEnv} {rows : List SearchHypothesis}
    {cols : List TranslationOption} (hm : MonotoneGrid env rows cols) {st : CubeState}
    (hi : CubeInv env rows (cols.take 3) st) (hd : CubeDom st) (hlen : st.buf.length ≤ 3) :
    (cubeD st).map (fun h => h.hypo.score) =
      largest st.buf.length (gridScores env rows cols) := by
  obtain ⟨hDperm, hDsorted⟩ := cubeD_perm hi hlen
  have hnd := hi.cells_nodup hlen
  have hsub : st.buf.map (fun a => (a.gridX, a.gridY)) ⊆
      List.range rows.length ×ˢ List.range cols.length := by
    rintro ⟨x, y⟩ hxy
    obtain ⟨b, hb, hbe⟩ := List.mem_map.mp hxy
    obtain ⟨h, o, hh, ho, _⟩ := hi.buf_wf hb
    simp only [Prod.mk.injEq] at hbe
    rw [List.mem_product, List.mem_range, List.mem_range, ← hbe.1, ← hbe.2]
    exact ⟨get?_lt_length hh, get?_lt_length (get?_take_some ho)⟩
  obtain ⟨rest, hcells, hrest⟩ := perm_append_of_subset
    ((List.nodup_range rows.length).product (List.nodup_range cols.length)) hnd hsub
  have hbufscore : (st.buf.map (fun a => (a.gridX, a.gridY))).map
      (fun p => extensionScore env rows cols p.1 p.2) =
      st.buf.map (fun h => h.hypo.score) := by
    rw [List.map_map]
    apply List.map_congr_left
    intro b hb
    exact (hi.score_eq (hi.perm.subset (List.mem_append_right _ hb))).symm
  have hG : (gridScores env rows cols).Perm
      ((cubeD st).map (fun h => h.hypo.score) ++
        rest.map (fun p => extensionScore env rows cols p.1 p.2)) := by
    unfold gridScores
    refine (hcells.map _).trans ?_
    rw [List.map_append, hbufscore]
    exact List.Perm.append_right _ (hDperm.map _).symm
  have hlenD : ((cubeD st).map (fun h => h.hypo.score)).length = st.buf.length := by
    rw [List.length_map, hDperm.length_eq]
  rw [← hlenD]
  refine (largest_eq hG (List.pairwise_map.mpr hDsorted) ?_).symm
  intro t ht q hq
  obtain ⟨b, hb, rfl⟩ := List.mem_map.mp ht
  obtain ⟨⟨x, y⟩, hp, rfl⟩ := List.mem_map.mp hq
  obtain ⟨hp1, hp2⟩ := hrest _ hp
  rw [List.mem_product, List.mem_range, List.mem_range] at hp1
  refine hi.dominates hm hd hlen hp1.1 hp1.2 ?_ b (hDperm.subset hb)
  rintro ⟨b1, hb1, hb1x, hb1y⟩
  exact hp2 (List.mem_map.mpr ⟨b1, hb1, by rw [hb1x, hb1y]⟩)

/-! ## The claims about cube pruning -/

/-- C16 fails as stated where options are equivalent under the option ordering: the option
set keeps one of them.  With one row scoring 10 and two options of rank 1, the grid of the
row and the two options is monotone and its two largest values are 9 and 9, and
`CubePruning` passes one hypothesis on, scoring 9. -/
theorem C16_counterexample :
    MonotoneGrid (exampleEnv 3 (-1) 3 false true 2) [exampleRow 1 10]
      [⟨0, 1, ⟨1, 1⟩⟩, ⟨1, 1, ⟨1, 1⟩⟩] ∧
    largest (min 3 (1 * 2)) (gridScores (exampleEnv 3 (-1) 3 false true 2) [exampleRow 1 10]
      [⟨0, 1, ⟨1, 1⟩⟩, ⟨1, 1, ⟨1, 1⟩⟩]) = [9, 9] ∧
    ∃ st, cubeSearch (exampleEnv 3 (-1) 3 false true 2) [exampleRow 1 10]
        [⟨0, 1, ⟨1, 1⟩⟩, ⟨1, 1, ⟨1, 1⟩⟩] 100 = some st ∧
      (cubeD st).map (fun h => h.hypo.score) = [9] :=
  ⟨by decide, by decide, _, rfl, by decide⟩

/-- C16, as the code has it: for every non-empty row list (`r` hypotheses) and non-empty
option list, with the columns the `c` options that the option set keeps, in its order (one
of every group of options that are equivalent under the option ordering; all options where
they are pairwise distinct under it): if the grid of extension scores over the rows and all
columns is monotone, `CubePruning` runs to the end of its main loop, and the total scores
of the hypotheses it passes to `AddPrune`, in the order in which it passes them, are the
`min 3 (r * c)` largest values of the whole grid, largest first. -/
theorem C16_cube_pruning_passes_largest_of_grid (env : DecoderEnv)
    (rows : List SearchHypothesis) (tol : List TranslationOption) (n : Nat)
    (hrows : rows ≠ []) (htol : tol ≠ [])
    (hmono : MonotoneGrid env rows (translationOptionSet tol)) :
    ∃ st, cubeSearch env rows tol n = some st ∧
      (cubeD st).map (fun h => h.hypo.score) =
        largest (min 3 (rows.length * (translationOptionSet tol).length))
          (gridScores env rows (translationOptionSet tol)) ∧
      (tol.Pairwise (fun a b => a.rank ≠ b.rank) →
        (translationOptionSet tol).length = tol.length) := by
  obtain ⟨st, hst, hi, hd, hlen, hend⟩ := cubeSearch_spec env rows tol (J := CubeDom) n
    hrows htol (fun st h => CubeDom.dom_init h)
    (fun st item rest hi hd hc _ => @CubeDom.dom_step env rows (translationOptionSet tol) top_k
      hmono st item rest hi hd hc)
  have hi3 : CubeInv env rows ((translationOptionSet tol).take 3) st := hi
  refine ⟨st, hst, ?_,
    fun hdist => (translationOptionSet_perm (List.pairwise_map.mpr hdist)).length_eq⟩
  rw [hi3.finds_largest hmono hd hlen]
  have hbl := hi.buf_length hlen hend
  rw [topkOptions_length] at hbl
  have hr : 0 < rows.length := List.length_pos.mpr hrows
  have hcount : min 3 (rows.length * min 3 (translationOptionSet tol).length) =
      min 3 (rows.length * (translationOptionSet tol).length) := by
    rcases Nat.lt_or_ge 3 (translationOptionSet tol).length with hc | hc
    · have h1 : min 3 (translationOptionSet tol).length = 3 := by omega
      have h2 : (translationOptionSet tol).length ≤
          rows.length * (translationOptionSet tol).length := Nat.le_mul_of_pos_left _ hr
      rw [h1]
      omega
    · have h1 : min 3 (translationOptionSet tol).length = (translationOptionSet tol).length := by
        omega
      rw [h1]
  rw [hbl, hcount]

/-- Scenario F of the specification: five rows scoring 10, 8, 6, 4, 2 and five options, the
option of rank `k` lowering the score by `k`.  The three hypotheses passed on score 10, 9
and 8, the three largest of the 25 values of the grid. -/
theorem C16_cube_pruning_passes_largest_of_grid_witness :
    (cubeSearch (exampleEnv 3 (-1) 3 false true 5)
        [exampleRow 1 10, exampleRow 2 8, exampleRow 3 6, exampleRow 4 4, exampleRow 5 2]
        ((exampleEnv 3 (-1) 3 false true 5).translationOptionList ⟨1, 1⟩) 100).map
      (fun st => (cubeD st).map (fun h => h.hypo.score)) = some [10, 9, 8] ∧
    ∃ st, cubeSearch (exampleEnv 3 (-1) 3 false true 5)
        [exampleRow 1 10, exampleRow 2 8, exampleRow 3 6, exampleRow 4 4, exampleRow 5 2]
        ((exampleEnv 3 (-1) 3 false true 5).translationOptionList ⟨1, 1⟩) 100 = some st ∧
      (cubeD st).map (fun h => h.hypo.score) =
        largest (min 3 (5 * 5))
          (gridScores (exampleEnv 3 (-1) 3 false true 5)
            [exampleRow 1 10, exampleRow 2 8, exampleRow 3 6, exampleRow 4 4, exampleRow 5 2]
            (translationOptionSet
              ((exampleEnv 3 (-1) 3 false true 5).translationOptionList ⟨1, 1⟩))) ∧
      (((exampleEnv 3 (-1) 3 false true 5).translationOptionList ⟨1, 1⟩).Pairwise
          (fun a b => a.rank ≠ b.rank) →
        (translationOptionSet
          ((exampleEnv 3 (-1) 3 false true 5).translationOptionList ⟨1, 1⟩)).length = 5) :=
  ⟨by decide,
   C16_cube_pruning_passes_largest_of_grid (exampleEnv 3 (-1) 3 false true 5)
     [exampleRow 1 10, exampleRow 2 8, exampleRow 3 6, exampleRow 4 4, exampleRow 5 2]
     ((exampleEnv 3 (-1) 3 false true 5).translationOptionList ⟨1, 1⟩) 100
     (by decide) (by decide) (by decide)⟩

/-- C17: for every non-empty row list of `r` hypotheses and every non-empty option list of
`c` options that are pairwise distinct under the option ordering, `CubePruning` runs to the
end of its main loop (`cand` is empty or `buf` is full), passes exactly
`min 3 (r * min c 3)` hypotheses to `AddPrune`, at most `top_k`, and its main loop makes at
most 3 iterations. -/
theorem C17_cube_pruning_passes_at_most_top_k (env : DecoderEnv)
    (rows : List SearchHypothesis) (tol : List TranslationOption) (n : Nat)
    (hrows : rows ≠ []) (htol : tol ≠ [])
    (hdistinct : tol.Pairwise (fun a b => a.rank ≠ b.rank)) :
    ∃ st, cubeSearch env rows tol n = some st ∧
      (st.cand = [] ∨ ¬ st.buf.length < top_k + extra) ∧
      (cubeD st).length = min 3 (rows.length * min tol.length 3) ∧
      (cubeD st).length ≤ top_k ∧ st.iterations ≤ 3 := by
  obtain ⟨st, hst, hi, _, hlen, hend⟩ := cubeSearch_spec env rows tol (J := fun _ => True) n
    hrows htol (fun _ _ => trivial) (fun _ _ _ _ _ _ _ => trivial)
  have hD := (cubeD_perm hi hlen).1.length_eq
  have hbl := hi.buf_length hlen hend
  rw [topkOptions_length,
    (translationOptionSet_perm (List.pairwise_map.mpr hdistinct)).length_eq,
    Nat.min_comm 3 tol.length] at hbl
  refine ⟨st, hst, ?_, ?_, ?_, ?_⟩
  · rcases hend with h | h
    · exact Or.inl h
    · right
      unfold top_k extra
      omega
  · rw [hD, hbl]
  · rw [hD]
    unfold top_k
    exact hlen
  · rw [← hi.iters]
    exact hlen

/-- Five rows and five options: three hypotheses are passed on, after three iterations. -/
theorem C17_cube_pruning_passes_at_most_top_k_witness :
    (cubeSearch (exampleEnv 3 (-1) 3 false true 5)
        [exampleRow 1 10, exampleRow 2 8, exampleRow 3 6, exampleRow 4 4, exampleRow 5 2]
        ((exampleEnv 3 (-1) 3 false true 5).translationOptionList ⟨1, 1⟩) 100).map
      (fun st => ((cubeD st).length, st.iterations)) = some (3, 3) ∧
    ∃ st, cubeSearch (exampleEnv 3 (-1) 3 false true 5)
        [exampleRow 1 10, exampleRow 2 8, exampleRow 3 6, exampleRow 4 4, exampleRow 5 2]
        ((exampleEnv 3 (-1) 3 false true 5).translationOptionList ⟨1, 1⟩) 100 = some st ∧
      (st.cand = [] ∨ ¬ st.buf.length < top_k + extra) ∧
      (cubeD st).length = min 3 (5 * min 5 3) ∧
      (cubeD st).length ≤ top_k ∧ st.iterations ≤ 3 :=
  ⟨by decide,
   C17_cube_pruning_passes_at_most_top_k (exampleEnv 3 (-1) 3 false true 5)
     [exampleRow 1 10, exampleRow 2 8, exampleRow 3 6, exampleRow 4 4, exampleRow 5 2]
     ((exampleEnv 3 (-1) 3 false true 5).translationOptionList ⟨1, 1⟩) 100
     (by decide) (by decide) (by decide)⟩

/-- C18 fails as stated: with two rows scoring 10 and 5 and two options, the main loop pops
the grid positions `(0, 0)`, `(0, 1)` and `(1, 0)`, and the last two each create a
hypothesis at position `(1, 1)` and push it into `cand`: the hypotheses with the
identities 103 and 104. -/
theorem C18_counterexample :
    ∃ st, cubeSearch (exampleEnv 3 (-1) 3 false true 2)
        [exampleRow 1 10, exampleRow 2 5]
        ((exampleEnv 3 (-1) 3 false true 2).translationOptionList ⟨1, 1⟩) 100 = some st ∧
      st.buf.map (fun h => (h.gridX, h.gridY)) = [(0, 0), (0, 1), (1, 0)] ∧
      st.created.map (fun h => (h.hypo.id, h.gridX, h.gridY)) =
        [(100, 0, 0), (101, 0, 1), (102, 1, 0), (103, 1, 1), (104, 1, 1)] ∧
      st.cand.map (fun h => h.hypo.id) = [103, 104] ∧
      ¬ countCell 1 1 st.created ≤ 1 :=
  ⟨_, rfl, by decide, by decide, by decide, by decide⟩

/-- C18, as the code has it: within one `CubePruning` call, for every row list, option list
and assignment of scores, at most two hypotheses are created and pushed into `cand` for a
grid position (no more than positions popped to its left and above it, and one for
position `(0, 0)`); every hypothesis created is in `cand` or was moved to `buf`; and at
most one hypothesis of a grid position is moved to `buf` and passed to `AddPrune`. -/
theorem C18_at_most_two_candidates_per_cell (env : DecoderEnv)
    (rows : List SearchHypothesis) (tol : List TranslationOption) (n : Nat) (st : CubeState)
    (h : cubeSearch env rows tol n = some st) (x y : Nat) :
    countCell x y st.created ≤ 2 ∧
      (countCell x y st.created ≤ if x = 0 ∧ y = 0 then 1 else countParents x y st.buf) ∧
      (st.cand ++ st.buf).Perm st.created ∧
      countCell x y st.buf ≤ 1 ∧ countCell x y (cubeD st) ≤ 1 := by
  obtain ⟨hi, hlen, _⟩ := cubeSearch_inv h
  refine ⟨hi.created_le_two hlen x y, hi.count x y, hi.perm, hi.cells_distinct hlen x y, ?_⟩
  unfold countCell
  rw [(cubeD_perm hi hlen).1.countP_eq]
  exact hi.cells_distinct hlen x y

/-- Two rows and two options: position `(1, 1)` gets two hypotheses, neither of which is
passed on. -/
theorem C18_at_most_two_candidates_per_cell_witness :
    ∃ st, cubeSearch (exampleEnv 3 (-1) 3 false true 2)
        [exampleRow 1 10, exampleRow 2 5]
        ((exampleEnv 3 (-1) 3 false true 2).translationOptionList ⟨1, 1⟩) 100 = some st ∧
      countCell 1 1 st.created = 2 ∧ countCell 1 1 (cubeD st) = 0 ∧
      (countCell 1 1 st.created ≤ 2 ∧
        (countCell 1 1 st.created ≤
          if 1 = 0 ∧ 1 = 0 then 1 else countParents 1 1 st.buf) ∧
        (st.cand ++ st.buf).Perm st.created ∧
        countCell 1 1 st.buf ≤ 1 ∧ countCell 1 1 (cubeD st) ≤ 1) :=
  ⟨_, rfl, by decide, by decide,
   C18_at_most_two_candidates_per_cell (exampleEnv 3 (-1) 3 false true 2)
     [exampleRow 1 10, exampleRow 2 5]
     ((exampleEnv 3 (-1) 3 false true 2).translationOptionList ⟨1, 1⟩) 100 _ rfl 1 1⟩

/-! ## The coverage sets of a stack -/

theorem scoreOrder_trans {a b c : SearchHypothesis} (h1 : scoreOrderBefore a b = true)
    (h2 : scoreOrderBefore b c = true) : scoreOrderBefore a c = true := by
  unfold scoreOrderBefore at *
  simp only [Bool.or_eq_true, decide_eq_true_eq, Bool.and_eq_true] at *
  omega

theorem scoreOrder_asymm {a b : SearchHypothesis} (h1 : scoreOrderBefore a b = true) :
    scoreOrderBefore b a = false := by
  unfold scoreOrderBefore at *
  simp only [Bool.or_eq_true, decide_eq_true_eq, Bool.and_eq_true, Bool.or_eq_false_iff,
    decide_eq_false_iff_not, Bool.and_eq_false_iff] at *
  omega

theorem scoreSetInsert_ordered (h : SearchHypothesis) (l : List SearchHypothesis)
    (hl : l.Pairwise (fun a b => scoreOrderBefore a b = true)) :
    (scoreSetInsert h l).Pairwise (fun a b => scoreOrderBefore a b = true) := by
  induction l with
  | nil => simp [scoreSetInsert]
  | cons m rest ih =>
    have hp := List.pairwise_cons.mp hl
    unfold scoreSetInsert
    split
    · rename_i h1
      refine List.pairwise_cons.mpr ⟨?_, hl⟩
      intro z hz
      rcases List.mem_cons.mp hz with rfl | hz
      · exact h1
      · exact scoreOrder_trans h1 (hp.1 z hz)
    · split
      · rename_i h2
        refine List.pairwise_cons.mpr ⟨?_, ih hp.2⟩
        intro z hz
        rcases scoreSetInsert_mem hz with rfl | hz
        · exact h2
        · exact hp.1 z hz
      · exact hl

theorem scoreSetInsertAll_ordered (l : List SearchHypothesis) :
    ∀ set : List SearchHypothesis,
      set.Pairwise (fun a b => scoreOrderBefore a b = true) →
      (scoreSetInsertAll l set).Pairwise (fun a b => scoreOrderBefore a b = true) := by
  induction l with
  | nil => intro set h; exact h
  | cons h rest ih =>
    intro set hs
    exact ih _ (scoreSetInsert_ordered h set hs)

theorem scoreSetInsert_last (h : SearchHypothesis) (l : List SearchHypothesis)
    (hl : ∀ m ∈ l, scoreOrderBefore m h = true) : scoreSetInsert h l = l ++ [h] := by
  induction l with
  | nil => rfl
  | cons m rest ih =>
    have h1 := hl m (List.mem_cons_self _ _)
    unfold scoreSetInsert
    rw [if_neg (by rw [scoreOrder_asymm h1]; simp), if_pos h1,
      ih (fun z hz => hl z (List.mem_cons_of_mem _ hz))]
    rfl

/-- Inserting the elements of an ordered list, in order, into a set that comes before them
appends them. -/
theorem scoreSetInsertAll_append (l : List SearchHypothesis) :
    ∀ set : List SearchHypothesis,
      l.Pairwise (fun a b => scoreOrderBefore a b = true) →
      (∀ m ∈ set, ∀ h ∈ l, scoreOrderBefore m h = true) →
      scoreSetInsertAll l set = set ++ l := by
  induction l with
  | nil => intro set _ _; simp [scoreSetInsertAll]
  | cons h rest ih =>
    intro set hl hs
    have hp := List.pairwise_cons.mp hl
    show scoreSetInsertAll rest (scoreSetInsert h set) = _
    rw [scoreSetInsert_last h set (fun m hm => hs m hm h (List.mem_cons_self _ _)),
      ih _ hp.2]
    · simp
    · intro m hm z hz
      rcases List.mem_append.mp hm with hm | hm
      · exact hs m hm z (List.mem_cons_of_mem _ hz)
      · rw [List.mem_singleton.mp hm]
        exact hp.1 z hz

/-- The coverage set holds the members with the coverage, best first. -/
theorem GetCoverageSet_spec {members : List SearchHypothesis}
    (hids : (members.map (fun a => a.hypo.id)).Nodup) (wb : WordsBitmap) :
    (GetCoverageSet members wb).Perm
        (members.filter (fun h => decide (h.wordsBitmap = wb))) ∧
      (GetCoverageSet members wb).Pairwise (fun a b => scoreOrderBefore a b = true) := by
  have hsub : ((members.filter (fun h => decide (h.wordsBitmap = wb))).map
      (fun a => a.hypo.id)).Nodup :=
    ((List.filter_sublist members).map _).nodup hids
  refine ⟨?_, scoreSetInsertAll_ordered _ _ List.Pairwise.nil⟩
  have := scoreSetInsertAll_perm (members.filter (fun h => decide (h.wordsBitmap = wb))) []
    (by rw [List.append_nil]; exact hsub)
  rw [List.append_nil] at this
  exact this

/-- The vector `coverageVec` is the beginning of the coverage set. -/
theorem topkCoverageVec_eq {coverageSet : List SearchHypothesis}
    (h : coverageSet.Pairwise (fun a b => scoreOrderBefore a b = true)) :
    topkCoverageVec coverageSet = coverageSet.take (min 3 coverageSet.length) := by
  have h1 := scoreSetInsertAll_append (coverageSet.take top_k) []
    (h.sublist (List.take_sublist _ _)) (fun m hm => (by cases hm))
  rw [List.nil_append] at h1
  show scoreSetInsertAll (coverageSet.take top_k) [] = _
  rw [h1]
  unfold top_k
  rcases Nat.lt_or_ge coverageSet.length 3 with hlt | hge
  · rw [Nat.min_eq_right (Nat.le_of_lt hlt), List.take_of_length_le (Nat.le_of_lt hlt),
      List.take_of_length_le (Nat.le_refl _)]
  · rw [Nat.min_eq_left hge]

theorem GetCoverageSet_mem {members : List SearchHypothesis}
    (hids : (members.map (fun a => a.hypo.id)).Nodup) {h : SearchHypothesis}
    (hm : h ∈ members) : h ∈ GetCoverageSet members h.wordsBitmap :=
  (GetCoverageSet_spec hids h.wordsBitmap).1.symm.subset
    (List.mem_filter.mpr ⟨hm, by simp⟩)

theorem topkCoverageVec_length {members : List SearchHypothesis}
    (hids : (members.map (fun a => a.hypo.id)).Nodup) (wb : WordsBitmap) :
    (topkCoverageVec (GetCoverageSet members wb)).length =
      min 3 (GetCoverageSet members wb).length := by
  rw [topkCoverageVec_eq (GetCoverageSet_spec hids wb).2, List.length_take]
  omega

/-- The body of the loop over the members keeps what the loop keeps. -/
theorem CoverageLoopInv.coverage_step {env : DecoderEnv} {members done : List SearchHypothesis}
    {st : CoverageLoop} (hids : (members.map (fun a => a.hypo.id)).Nodup)
    (hinj : ∀ g ∈ members, ∀ h ∈ members,
      env.compressedRepresentation g.wordsBitmap = env.compressedRepresentation h.wordsBitmap →
        g.wordsBitmap = h.wordsBitmap)
    (hi : CoverageLoopInv env members done st) (hdone : ∀ g ∈ done, g ∈ members)
    {h : SearchHypothesis} (hm : h ∈ members) :
    CoverageLoopInv env members (done ++ [h]) (coverageStep env members st h) := by
  unfold coverageStep
  simp only
  by_cases hseen : st.seenCoverages.count (env.compressedRepresentation h.wordsBitmap) = 0
  · rw [if_pos hseen]
    have hnot : ¬ ∃ g ∈ done, g.wordsBitmap = h.wordsBitmap := by
      rintro ⟨g, hg, hgw⟩
      have : env.compressedRepresentation h.wordsBitmap ∈ st.seenCoverages :=
        (hi.seen _).mpr ⟨g, hg, by rw [hgw]⟩
      exact (List.count_eq_zero.mp hseen) this
    have hlen : (topkCoverageVec (GetCoverageSet members h.wordsBitmap)).length > 0 := by
      rw [topkCoverageVec_length hids]
      have := List.length_pos_of_mem (GetCoverageSet_mem hids hm)
      omega
    rw [if_pos hlen]
    refine ⟨?_, ?_, ?_, ?_⟩
    · intro c
      simp only [List.mem_cons, List.mem_append, List.not_mem_nil, or_false]
      rw [hi.seen]
      constructor
      · rintro (rfl | ⟨g, hg, rfl⟩)
        · exact ⟨h, Or.inr rfl, rfl⟩
        · exact ⟨g, Or.inl hg, rfl⟩
      · rintro ⟨g, hg | rfl, rfl⟩
        · exact Or.inr ⟨g, hg, rfl⟩
        · exact Or.inl rfl
    · rw [List.map_append, List.nodup_append]
      refine ⟨hi.nodup, by simp, ?_⟩
      intro B hB1 hB2
      simp only [List.map_cons, List.map_nil, List.mem_singleton] at hB2
      subst hB2
      exact hnot ((hi.mem _).mp hB1)
    · intro B
      simp only [List.map_append, List.map_cons, List.map_nil, List.mem_append,
        List.mem_singleton]
      rw [hi.mem]
      constructor
      · rintro (⟨g, hg, rfl⟩ | rfl)
        · exact ⟨g, Or.inl hg, rfl⟩
        · exact ⟨h, Or.inr rfl, rfl⟩
      · rintro ⟨g, hg | rfl, rfl⟩
        · exact Or.inl ⟨g, hg, rfl⟩
        · exact Or.inr rfl
    · intro c hc
      rcases List.mem_append.mp hc with hc | hc
      · exact hi.vec c hc
      · rw [List.mem_singleton.mp hc]
  · rw [if_neg hseen]
    have hin : env.compressedRepresentation h.wordsBitmap ∈ st.seenCoverages := by
      by_contra hn
      exact hseen (List.count_eq_zero.mpr hn)
    obtain ⟨g, hg, hgc⟩ := (hi.seen _).mp hin
    have hgw : g.wordsBitmap = h.wordsBitmap := hinj g (hdone g hg) h hm hgc
    refine ⟨?_, hi.nodup, ?_, hi.vec⟩
    · intro c
      rw [hi.seen]
      simp only [List.mem_append, List.mem_singleton]
      constructor
      · rintro ⟨g1, hg1, rfl⟩
        exact ⟨g1, Or.inl hg1, rfl⟩
      · rintro ⟨g1, hg1 | rfl, rfl⟩
        · exact ⟨g1, hg1, rfl⟩
        · exact ⟨g, hg, by rw [hgw]⟩
    · intro B
      rw [hi.mem]
      simp only [List.mem_append, List.mem_singleton]
      constructor
      · rintro ⟨g1, hg1, rfl⟩
        exact ⟨g1, Or.inl hg1, rfl⟩
      · rintro ⟨g1, hg1 | rfl, rfl⟩
        · exact ⟨g1, hg1, rfl⟩
        · exact ⟨g, hg, hgw⟩

theorem CoverageLoopInv.fold {env : DecoderEnv} {members : List SearchHypothesis}
    (hids : (members.map (fun a => a.hypo.id)).Nodup)
    (hinj : ∀ g ∈ members, ∀ h ∈ members,
      env.compressedRepresentation g.wordsBitmap = env.compressedRepresentation h.wordsBitmap →
        g.wordsBitmap = h.wordsBitmap) :
    ∀ (l done : List SearchHypothesis) (st : CoverageLoop),
      CoverageLoopInv env members done st → (∀ g ∈ done, g ∈ members) →
      (∀ h ∈ l, h ∈ members) →
      CoverageLoopInv env members (done ++ l) (l.foldl (coverageStep env members) st) := by
  intro l
  induction l with
  | nil =>
    intro done st hi _ _
    rw [List.append_nil]
    exact hi
  | cons h rest ih =>
    intro done st hi hdone hl
    have hh := hl h (List.mem_cons_self _ _)
    have := ih (done ++ [h]) _ (hi.coverage_step hids hinj hdone hh)
      (fun g hg => by
        rcases List.mem_append.mp hg with hg | hg
        · exact hdone g hg
        · rw [List.mem_singleton.mp hg]
          exact hh)
      (fun g hg => hl g (List.mem_cons_of_mem _ hg))
    rw [List.append_assoc] at this
    exact this

/-- After the loop over all members of the stack. -/
theorem coverageInvocations_inv (env : DecoderEnv) {members : List SearchHypothesis}
    (hids : (members.map (fun a => a.hypo.id)).Nodup)
    (hinj : ∀ g ∈ members, ∀ h ∈ members,
      env.compressedRepresentation g.wordsBitmap = env.compressedRepresentation h.wordsBitmap →
        g.wordsBitmap = h.wordsBitmap) :
    ((coverageInvocations env members).map Prod.snd).Nodup ∧
      (∀ B, B ∈ (coverageInvocations env members).map Prod.snd ↔
        ∃ h ∈ members, h.wordsBitmap = B) ∧
      ∀ c ∈ coverageInvocations env members,
        c.1 = topkCoverageVec (GetCoverageSet members c.2) := by
  have h0 : CoverageLoopInv env members [] ⟨[], []⟩ :=
    ⟨fun c => by simp, List.nodup_nil, fun B => by simp, fun c hc => by cases hc⟩
  have := CoverageLoopInv.fold hids hinj members [] _ h0 (fun _ h => (by cases h))
    (fun _ h => h)
  rw [List.nil_append] at this
  exact ⟨this.nodup, this.mem, this.vec⟩

/-- C19: while `ProcessSentence` processes one stack whose members are distinct hypotheses,
given that the compressed representation of a coverage is injective,
`ProcessCoverageVector` is invoked exactly once for every coverage that occurs among the
members and for no other; the coverage set is made of the members with that coverage,
ordered by `HypothesisScoreOrderer`; and the vector of rows passed is the first
`min 3 n` hypotheses of the coverage set, `n` its size, so it is not empty, has at most 3
entries and is sorted best first. -/
theorem C19_one_invocation_per_coverage (env : DecoderEnv)
    (members : List SearchHypothesis)
    (hids : (members.map (fun a => a.hypo.id)).Nodup)
    (hinj : ∀ g ∈ members, ∀ h ∈ members,
      env.compressedRepresentation g.wordsBitmap = env.compressedRepresentation h.wordsBitmap →
        g.wordsBitmap = h.wordsBitmap) :
    (∀ B, ((coverageInvocations env members).map Prod.snd).count B =
        if B ∈ members.map (fun h => h.wordsBitmap) then 1 else 0) ∧
      ∀ c ∈ coverageInvocations env members,
        (GetCoverageSet members c.2).Perm
            (members.filter (fun h => decide (h.wordsBitmap = c.2))) ∧
          (GetCoverageSet members c.2).Pairwise (fun a b => scoreOrderBefore a b = true) ∧
          c.1 = (GetCoverageSet members c.2).take
            (min 3 (GetCoverageSet members c.2).length) ∧
          c.1.length = min 3 (GetCoverageSet members c.2).length ∧
          c.1 ≠ [] ∧ c.1.length ≤ 3 ∧
          c.1.Pairwise (fun a b => b.hypo.score ≤ a.hypo.score) := by
  obtain ⟨hnd, hmem, hvec⟩ := coverageInvocations_inv env hids hinj
  constructor
  · intro B
    by_cases hB : B ∈ members.map (fun h => h.wordsBitmap)
    · rw [if_pos hB]
      obtain ⟨h, hh, rfl⟩ := List.mem_map.mp hB
      exact List.count_eq_one_of_mem hnd ((hmem _).mpr ⟨h, hh, rfl⟩)
    · rw [if_neg hB]
      apply List.count_eq_zero_of_not_mem
      intro hin
      obtain ⟨h, hh, rfl⟩ := (hmem _).mp hin
      exact hB (List.mem_map_of_mem _ hh)
  · intro c hc
    obtain ⟨hperm, hord⟩ := GetCoverageSet_spec hids c.2
    have heq := hvec c hc
    rw [topkCoverageVec_eq hord] at heq
    obtain ⟨h, hh, hhw⟩ := (hmem c.2).mp (List.mem_map_of_mem _ hc)
    have hpos : 0 < (GetCoverageSet members c.2).length := by
      rw [← hhw]
      exact List.length_pos_of_mem (GetCoverageSet_mem hids hh)
    have hlen : c.1.length = min 3 (GetCoverageSet members c.2).length := by
      rw [heq, List.length_take]
      omega
    refine ⟨hperm, hord, heq, hlen, ?_, by omega, ?_⟩
    · intro hnil
      rw [hnil] at hlen
      simp only [List.length_nil] at hlen
      omega
    · rw [heq]
      exact ((hord.sublist (List.take_sublist _ _)).imp (fun h => scoreOrder_le h))

/-- A stack of five members, four with coverage `{0}` scoring 5, 9, 7 and 8 and one with
coverage `{1}`: `ProcessCoverageVector` is invoked twice, first for `{0}` with the members
scoring 9, 8 and 7, then for `{1}`. -/
theorem C19_one_invocation_per_coverage_witness :
    coverageInvocations (exampleEnv 3 (-1) 3 false true 1)
        [exampleHypothesis 1 5 {0}, exampleHypothesis 2 9 {0}, exampleHypothesis 5 6 {1},
          exampleHypothesis 3 7 {0}, exampleHypothesis 4 8 {0}] =
      [([exampleHypothesis 2 9 {0}, exampleHypothesis 4 8 {0}, exampleHypothesis 3 7 {0}],
          {0}),
        ([exampleHypothesis 5 6 {1}], {1})] ∧
    GetCoverageSet [exampleHypothesis 1 5 {0}, exampleHypothesis 2 9 {0},
        exampleHypothesis 5 6 {1}, exampleHypothesis 3 7 {0}, exampleHypothesis 4 8 {0}] {0} =
      [exampleHypothesis 2 9 {0}, exampleHypothesis 4 8 {0}, exampleHypothesis 3 7 {0},
        exampleHypothesis 1 5 {0}] ∧
    ((∀ B, ((coverageInvocations (exampleEnv 3 (-1) 3 false true 1)
          [exampleHypothesis 1 5 {0}, exampleHypothesis 2 9 {0}, exampleHypothesis 5 6 {1},
            exampleHypothesis 3 7 {0}, exampleHypothesis 4 8 {0}]).map Prod.snd).count B =
        if B ∈ [exampleHypothesis 1 5 {0}, exampleHypothesis 2 9 {0},
            exampleHypothesis 5 6 {1}, exampleHypothesis 3 7 {0},
            exampleHypothesis 4 8 {0}].map (fun h => h.wordsBitmap) then 1 else 0) ∧
      ∀ c ∈ coverageInvocations (exampleEnv 3 (-1) 3 false true 1)
          [exampleHypothesis 1 5 {0}, exampleHypothesis 2 9 {0}, exampleHypothesis 5 6 {1},
            exampleHypothesis 3 7 {0}, exampleHypothesis 4 8 {0}],
        (GetCoverageSet [exampleHypothesis 1 5 {0}, exampleHypothesis 2 9 {0},
            exampleHypothesis 5 6 {1}, exampleHypothesis 3 7 {0},
            exampleHypothesis 4 8 {0}] c.2).Perm
          ([exampleHypothesis 1 5 {0}, exampleHypothesis 2 9 {0}, exampleHypothesis 5 6 {1},
            exampleHypothesis 3 7 {0}, exampleHypothesis 4 8 {0}].filter
              (fun h => decide (h.wordsBitmap = c.2))) ∧
          (GetCoverageSet [exampleHypothesis 1 5 {0}, exampleHypothesis 2 9 {0},
            exampleHypothesis 5 6 {1}, exampleHypothesis 3 7 {0},
            exampleHypothesis 4 8 {0}] c.2).Pairwise
              (fun a b => scoreOrderBefore a b = true) ∧
          c.1 = (GetCoverageSet [exampleHypothesis 1 5 {0}, exampleHypothesis 2 9 {0},
            exampleHypothesis 5 6 {1}, exampleHypothesis 3 7 {0},
            exampleHypothesis 4 8 {0}] c.2).take
              (min 3 (GetCoverageSet [exampleHypothesis 1 5 {0}, exampleHypothesis 2 9 {0},
                exampleHypothesis 5 6 {1}, exampleHypothesis 3 7 {0},
                exampleHypothesis 4 8 {0}] c.2).length) ∧
          c.1.length = min 3 (GetCoverageSet [exampleHypothesis 1 5 {0},
            exampleHypothesis 2 9 {0}, exampleHypothesis 5 6 {1}, exampleHypothesis 3 7 {0},
            exampleHypothesis 4 8 {0}] c.2).length ∧
          c.1 ≠ [] ∧ c.1.length ≤ 3 ∧
          c.1.Pairwise (fun a b => b.hypo.score ≤ a.hypo.score)) :=
  ⟨by decide, by decide,
   C19_one_invocation_per_coverage (exampleEnv 3 (-1) 3 false true 1)
     [exampleHypothesis 1 5 {0}, exampleHypothesis 2 9 {0}, exampleHypothesis 5 6 {1},
       exampleHypothesis 3 7 {0}, exampleHypothesis 4 8 {0}] (by decide) (by decide)⟩

/-! ## The members of a stack after a call -/

theorem PruneToSize_members [FloatAdd] {s s1 : HypothesisStack} (h : PruneToSize s = .ok s1) :
    ∀ m ∈ s1.m_hypos, m ∈ s.m_hypos := by
  rcases PruneToSize_ok h with ⟨rfl, _⟩ | ⟨_, _, t, rfl, _⟩
  · exact fun m hm => hm
  · exact fun m hm => (mem_prunedAt.mp hm).1

theorem AddPrune_members [FloatAdd] {s s1 : HypothesisStack} {hypo : Hypothesis}
    (h : AddPrune s hypo = .ok s1) : ∀ m ∈ s1.m_hypos, m = hypo ∨ m ∈ s.m_hypos := by
  rcases AddPrune_ok h with ⟨_, rfl⟩ | ⟨_, hf, ha⟩ | ⟨e, _, _, _, rfl⟩ | ⟨e, _, hf, hs, ha⟩
  · exact fun m hm => Or.inr hm
  · exact (Add_new_members hf ha).1
  · intro m hm
    rw [(loserDropped_core s hypo e).1.1] at hm
    exact Or.inr hm
  · intro m hm
    have hi : findEquiv hypo (loserRemoved s hypo e).m_hypos = none ∨
        ∃ e1, findEquiv hypo (loserRemoved s hypo e).m_hypos = some e1 := by
      cases findEquiv hypo (loserRemoved s hypo e).m_hypos with
      | none => exact Or.inl rfl
      | some e1 => exact Or.inr ⟨e1, rfl⟩
    rcases hi with hn | ⟨e1, he1⟩
    · rcases (Add_new_members hn ha).1 m hm with h1 | h1
      · exact Or.inl h1
      · rw [(loserRemoved_fields s hypo e).1] at h1
        exact Or.inr (List.mem_of_mem_erase h1)
    · rcases Add_ok ha with ⟨e2, _, hr⟩ | ⟨hn, _⟩
      · cases hr
      · rw [hn] at he1
        cases he1

/-! ## The outcome of the steps of the decoder loop -/

theorem Outcome.mono {total : Prop} {P Q : Manager → Prop}
    {r : Except ManagerFault Manager} (h : Outcome total P r) (hpq : ∀ m, P m → Q m) :
    Outcome total Q r := by
  cases r with
  | ok m => exact hpq m h
  | error f => cases f <;> exact h

/-- A loop whose body keeps `P` keeps `P`. -/
theorem Outcome.foldlM {α : Type} {total : Prop} {P : Manager → Prop}
    (f : Manager → α → Except ManagerFault Manager) :
    ∀ (l : List α) (m : Manager), P m →
      (∀ m1, P m1 → ∀ x ∈ l, Outcome total P (f m1 x)) →
      Outcome total P (l.foldlM f m) := by
  intro l
  induction l with
  | nil => intro m hm _; exact hm
  | cons x rest ih =>
    intro m hm hf
    rw [List.foldlM_cons]
    have hx := hf m hm x (List.mem_cons_self _ _)
    cases hfx : f m x with
    | ok m1 =>
      rw [hfx] at hx
      exact ih m1 hx (fun m2 hm2 y hy => hf m2 hm2 y (List.mem_cons_of_mem _ hy))
    | error fault =>
      rw [hfx] at hx
      cases fault <;> exact hx

theorem get?_set_cases {α : Type} {l : List α} {n j : Nat} {a b : α}
    (h : (l.set n a).get? j = some b) : (j = n ∧ b = a) ∨ (j ≠ n ∧ l.get? j = some b) := by
  induction l generalizing n j with
  | nil => simp at h
  | cons c rest ih =>
    cases n with
    | zero =>
      cases j with
      | zero =>
        simp only [List.set_cons_zero, List.get?_cons_zero, Option.some.injEq] at h
        exact Or.inl ⟨rfl, h.symm⟩
      | succ j =>
        simp only [List.set_cons_zero, List.get?_cons_succ] at h
        exact Or.inr ⟨by omega, by simpa using h⟩
    | succ n =>
      cases j with
      | zero =>
        simp only [List.set_cons_succ, List.get?_cons_zero] at h
        exact Or.inr ⟨by omega, by simpa using h⟩
      | succ j =>
        simp only [List.set_cons_succ, List.get?_cons_succ] at h
        rcases ih h with ⟨h1, h2⟩ | ⟨h1, h2⟩
        · exact Or.inl ⟨by omega, h2⟩
        · exact Or.inr ⟨by omega, by simpa using h2⟩

/-- The coverage of an extension: that of the hypothesis extended, and the range of the
option. -/
theorem CreateNext_coverage (env : DecoderEnv) (id : Nat) {h : SearchHypothesis}
    {o : TranslationOption} (x y : Nat) {B : WordsBitmap} {R : WordsRange}
    (hB : h.wordsBitmap = B) (hR : o.sourceRange = R) (hov : Overlap B R = false)
    (hse : R.startPos ≤ R.endPos) (he : R.endPos < env.sourceSize)
    (hsub : ∀ p ∈ B, p < env.sourceSize) :
    (CreateNext env id h o x y).wordsBitmap = B ∪ Finset.Icc R.startPos R.endPos ∧
      GetNumWordsCovered (CreateNext env id h o x y).wordsBitmap =
        B.card + (R.endPos + 1 - R.startPos) ∧
      B.card < GetNumWordsCovered (CreateNext env id h o x y).wordsBitmap ∧
      GetNumWordsCovered (CreateNext env id h o x y).wordsBitmap ≤ env.sourceSize ∧
      ∀ p ∈ (CreateNext env id h o x y).wordsBitmap, p < env.sourceSize := by
  have hcov : (CreateNext env id h o x y).wordsBitmap =
      B ∪ Finset.Icc R.startPos R.endPos := by
    show h.wordsBitmap ∪ Finset.Icc o.sourceRange.startPos o.sourceRange.endPos = _
    rw [hB, hR]
  have hdis : Disjoint B (Finset.Icc R.startPos R.endPos) := by
    unfold Overlap at hov
    simpa using hov
  have hin : ∀ p ∈ B ∪ Finset.Icc R.startPos R.endPos, p < env.sourceSize := by
    intro p hp
    rcases Finset.mem_union.mp hp with hp | hp
    · exact hsub p hp
    · have := (Finset.mem_Icc.mp hp).2
      omega
  have hcard : (B ∪ Finset.Icc R.startPos R.endPos).card =
      B.card + (R.endPos + 1 - R.startPos) := by
    rw [Finset.card_union_of_disjoint hdis, Nat.card_Icc]
  have hle : (B ∪ Finset.Icc R.startPos R.endPos).card ≤ env.sourceSize := by
    have hs : B ∪ Finset.Icc R.startPos R.endPos ⊆ Finset.range env.sourceSize :=
      fun p hp => Finset.mem_range.mpr (hin p hp)
    have := Finset.card_le_card hs
    rw [Finset.card_range] at this
    exact this
  unfold GetNumWordsCovered
  rw [hcov]
  exact ⟨rfl, hcard, by omega, hle, hin⟩

/-- A range that `ProcessCoverageVector` accepts lies in the sentence, does not overlap the
coverage, and has options. -/
theorem extensionRanges_accepts {env : DecoderEnv} {hypothesis : SearchHypothesis}
    {B : WordsBitmap} {R : WordsRange} (h : R ∈ extensionRanges env hypothesis B) :
    R.startPos ≤ R.endPos ∧ R.endPos < env.sourceSize ∧ Overlap B R = false ∧
      env.translationOptionList R ≠ [] := by
  obtain ⟨s, e⟩ := R
  unfold extensionRanges at h
  split at h
  · obtain ⟨hc, ha⟩ := List.mem_filter.mp h
    obtain ⟨_, h2, h3, h4⟩ := mem_candidateRanges.mp hc
    obtain ⟨h5, h6⟩ := noLimitInvokes_iff.mp ha
    exact ⟨h3, by show e < env.sourceSize; omega, h5, h6⟩
  · obtain ⟨hc, ha⟩ := List.mem_filter.mp h
    obtain ⟨_, h2, h3, h4⟩ := mem_candidateRanges.mp hc
    obtain ⟨h5, _, h6, _⟩ := limitedInvokes_iff.mp ha
    exact ⟨h3, by show e < env.sourceSize; omega, h5, h6⟩

theorem optionSetInsert_mem {opt a : TranslationOption} {l : List TranslationOption}
    (ha : a ∈ optionSetInsert opt l) : a = opt ∨ a ∈ l := by
  induction l with
  | nil =>
    simp only [optionSetInsert, List.mem_singleton] at ha
    exact Or.inl ha
  | cons other rest ih =>
    unfold optionSetInsert at ha
    split at ha
    · exact List.mem_cons.mp ha
    · split at ha
      · exact Or.inr ha
      · rcases List.mem_cons.mp ha with rfl | ha
        · exact Or.inr (List.mem_cons_self _ _)
        · rcases ih ha with h1 | h1
          · exact Or.inl h1
          · exact Or.inr (List.mem_cons_of_mem _ h1)

theorem optionSet_foldl_mem (tol : List TranslationOption) :
    ∀ (set : List TranslationOption) (a : TranslationOption),
      a ∈ tol.foldl (fun set opt => optionSetInsert opt set) set → a ∈ tol ∨ a ∈ set := by
  induction tol with
  | nil => intro set a h; exact Or.inr h
  | cons o rest ih =>
    intro set a h
    rcases ih _ a h with h1 | h1
    · exact Or.inl (List.mem_cons_of_mem _ h1)
    · rcases optionSetInsert_mem h1 with rfl | h2
      · exact Or.inl (List.mem_cons_self _ _)
      · exact Or.inr h2

/-- The columns of the grid are options of the list. -/
theorem topkOptions_mem {tol : List TranslationOption} {a : TranslationOption}
    (h : a ∈ topkOptions tol) : a ∈ tol := by
  rcases optionSet_foldl_mem tol [] a (List.mem_of_mem_take h) with h1 | h1
  · exact h1
  · cases h1

theorem scoreSetInsertAll_mem (l : List SearchHypothesis) :
    ∀ (set : List SearchHypothesis) (a : SearchHypothesis),
      a ∈ scoreSetInsertAll l set → a ∈ l ∨ a ∈ set := by
  induction l with
  | nil => intro set a h; exact Or.inr h
  | cons o rest ih =>
    intro set a h
    rcases ih _ a h with h1 | h1
    · exact Or.inl (List.mem_cons_of_mem _ h1)
    · rcases scoreSetInsert_mem h1 with rfl | h2
      · exact Or.inl (List.mem_cons_self _ _)
      · exact Or.inr h2

theorem cubeD_mem {st : CubeState} {d : SearchHypothesis} (h : d ∈ cubeD st) :
    d ∈ st.buf := by
  rcases scoreSetInsertAll_mem (st.buf.take top_k) [] d h with h1 | h1
  · exact List.mem_of_mem_take h1
  · cases h1

/-- The hypotheses that `CubePruning` passes on extend a row by an option of the list. -/
theorem cubeD_extends {env : DecoderEnv} {rows : List SearchHypothesis}
    {tol : List TranslationOption} {st : CubeState}
    (hi : CubeInv env rows (topkOptions tol) st) {d : SearchHypothesis}
    (hd : d ∈ cubeD st) :
    d ∈ st.created ∧ ∃ h ∈ rows, ∃ o ∈ tol, d = CreateNext env d.hypo.id h o d.gridX d.gridY := by
  have hc : d ∈ st.created := hi.perm.subset (List.mem_append_right _ (cubeD_mem hd))
  obtain ⟨h, o, hh, ho, he⟩ := hi.wf d hc
  exact ⟨hc, h, List.get?_mem hh, o, topkOptions_mem (List.get?_mem ho), he⟩

/-- Adding an object that covers `index` words to stack `index` keeps the invariant. -/
theorem addPruneAt_outcome [FloatAdd] [LawfulFloatAdd] {env : DecoderEnv} {beam : Score}
    {m : Manager}
    (hi : ManagerInv env beam m) {index : Nat} {hypo : SearchHypothesis}
    (hidx : index ≤ env.sourceSize) (hobj : hypo ∈ m.objects)
    (hcard : GetNumWordsCovered hypo.wordsBitmap = index)
    (hsub : ∀ p ∈ hypo.wordsBitmap, p < env.sourceSize) :
    Outcome (beam = ⊥)
      (fun m1 => ManagerInv env beam m1 ∧ m1.i = m.i ∧ m1.objects = m.objects ∧
        m1.nextId = m.nextId ∧ m1.addPruneCalls = m.addPruneCalls)
      (addPruneAt m index hypo) := by
  obtain ⟨stack, hget⟩ := get?_some_of_lt (l := m.m_hypoStackColl) (i := index)
    (by rw [hi.len]; omega)
  have hstack := hi.stackInv stack (List.get?_mem hget)
  unfold addPruneAt
  rw [hget]
  simp only
  cases hap : AddPrune stack hypo.hypo with
  | error fault =>
    show ¬ beam = ⊥
    intro hneg
    obtain ⟨s1, hs1⟩ :=
      AddPrune_total hypo.hypo hstack.1.loc.noEquiv (by rw [hstack.2]; exact hneg)
    rw [hs1] at hap
    cases hap
  | ok stack1 =>
    show ManagerInv env beam _ ∧ _
    refine ⟨⟨?_, hi.ids_lt, hi.ids_nodup, ?_, ?_, hi.calls⟩, rfl, rfl, rfl, rfl⟩
    · show (m.m_hypoStackColl.set index stack1).length = _
      rw [List.length_set, hi.len]
    · intro j s hj h hh
      rcases get?_set_cases hj with ⟨rfl, rfl⟩ | ⟨_, hj1⟩
      · rcases AddPrune_members hap h hh with rfl | hold
        · exact ⟨hypo, hobj, rfl, hcard, hsub⟩
        · exact hi.members _ stack hget h hold
      · exact hi.members j s hj1 h hh
    · intro s hs
      rcases List.mem_or_eq_of_mem_set hs with hs | rfl
      · exact hi.stackInv s hs
      · exact ⟨Inv.of_AddPrune hstack.1 hap, by rw [(AddPrune_params hap).1, hstack.2]⟩

/-- Lines 395-400 for one hypothesis that covers more words than the stack expanded has,
and no more than the sentence has. -/
theorem addToStack_outcome [FloatAdd] [LawfulFloatAdd] {env : DecoderEnv} {beam : Score}
    {m : Manager}
    (hi : ManagerInv env beam m) {newHypo : SearchHypothesis} (hobj : newHypo ∈ m.objects)
    (hlt : m.i < GetNumWordsCovered newHypo.wordsBitmap)
    (hle : GetNumWordsCovered newHypo.wordsBitmap ≤ env.sourceSize)
    (hsub : ∀ p ∈ newHypo.wordsBitmap, p < env.sourceSize) :
    Outcome (beam = ⊥)
      (fun m1 => ManagerInv env beam m1 ∧ m1.i = m.i ∧ m1.objects = m.objects ∧
        m1.nextId = m.nextId)
      (addToStack m newHypo) := by
  have h := addPruneAt_outcome hi hle hobj rfl hsub
  unfold addToStack
  simp only
  cases hap : addPruneAt m (GetNumWordsCovered newHypo.wordsBitmap) newHypo with
  | error fault =>
    rw [hap] at h
    cases fault <;> exact h
  | ok m1 =>
    rw [hap] at h
    obtain ⟨hi1, h1, h2, h3, h4⟩ := h
    show ManagerInv env beam _ ∧ _
    refine ⟨⟨hi1.len, hi1.ids_lt, hi1.ids_nodup, hi1.members, hi1.stackInv, ?_⟩, h1, h2, h3⟩
    intro c hc
    rcases List.mem_append.mp hc with hc | hc
    · exact hi1.calls c hc
    · rw [List.mem_singleton.mp hc]
      exact ⟨by show m1.i < _; rw [h1]; exact hlt, hle, rfl⟩

theorem IdsFrom.ids_init {env : DecoderEnv} {rows : List SearchHypothesis}
    {topk : List TranslationOption} {n : Nat} {st : CubeState}
    (h : cubeInit env rows topk n = some st) : IdsFrom n st := by
  unfold cubeInit at h
  cases h1 : rows.get? 0 with
  | none => rw [h1] at h; cases h
  | some h0 =>
    cases h2 : topk.get? 0 with
    | none => rw [h1, h2] at h; cases h
    | some o0 =>
      rw [h1, h2] at h
      simp only [Option.some.injEq] at h
      subst h
      refine ⟨Nat.le_succ n, ?_⟩
      intro a ha
      simp only [List.mem_singleton] at ha
      subst ha
      exact Nat.le_refl n

theorem IdsFrom.ids_step {env : DecoderEnv} {rows : List SearchHypothesis}
    {topk : List TranslationOption} {n : Nat} {st : CubeState} {item : SearchHypothesis}
    {rest : List SearchHypothesis} (hj : IdsFrom n st) (hc : st.cand = item :: rest) :
    IdsFrom n (cubeStep env rows topk st) := by
  rw [cubeStep_eq env rows topk st item rest hc]
  obtain ⟨hP1, _, _⟩ := pushes_spec env rows topk st.nextId item
  refine ⟨Nat.le_trans hj.1 (Nat.le_add_right _ _), ?_⟩
  intro a ha
  rcases List.mem_append.mp ha with ha | ha
  · exact hj.2 a ha
  · exact Nat.le_trans hj.1 (hP1 a ha).1

/-- One call of `CubePruning` from the expansion of stack `i`, for rows that cover the `i`
words `B` and the options of a range that was accepted, keeps the invariant. -/
theorem CubePruning_outcome [FloatAdd] [LawfulFloatAdd] {env : DecoderEnv} {beam : Score}
    {m : Manager}
    (hi : ManagerInv env beam m) {rows : List SearchHypothesis}
    {tol : List TranslationOption} {B : WordsBitmap} {R : WordsRange}
    (hrows : rows ≠ []) (hB : ∀ r ∈ rows, r.wordsBitmap = B) (hcard : B.card = m.i)
    (hsub : ∀ p ∈ B, p < env.sourceSize) (htol : tol ≠ [])
    (hR : ∀ o ∈ tol, o.sourceRange = R) (hov : Overlap B R = false)
    (hse : R.startPos ≤ R.endPos) (he : R.endPos < env.sourceSize) :
    Outcome (beam = ⊥) (fun m1 => ManagerInv env beam m1 ∧ m1.i = m.i)
      (CubePruning env rows tol m) := by
  obtain ⟨st, hst, hci, hids, _, _⟩ := cubeSearch_spec env rows tol (J := IdsFrom m.nextId)
    m.nextId hrows htol (fun st h => IdsFrom.ids_init h)
    (fun st item rest _ hj hc _ => hj.ids_step hc)
  unfold CubePruning
  rw [hst]
  simp only
  have hi1 : ManagerInv env beam
      { m with objects := m.objects ++ st.created, nextId := st.nextId } := by
    refine ⟨hi.len, ?_, ?_, ?_, hi.stackInv, hi.calls⟩
    · intro o ho
      rcases List.mem_append.mp ho with ho | ho
      · exact Nat.lt_of_lt_of_le (hi.ids_lt o ho) hids.1
      · exact hci.ids_lt o ho
    · show ((m.objects ++ st.created).map (fun o => o.hypo.id)).Nodup
      rw [List.map_append, List.nodup_append]
      refine ⟨hi.ids_nodup, hci.ids_nodup, ?_⟩
      intro k hk1 hk2
      obtain ⟨o, ho, rfl⟩ := List.mem_map.mp hk1
      obtain ⟨a, ha, hae⟩ := List.mem_map.mp hk2
      have := hi.ids_lt o ho
      have := hids.2 a ha
      omega
    · intro j s hj h hh
      obtain ⟨o, ho, h1⟩ := hi.members j s hj h hh
      exact ⟨o, List.mem_append_left _ ho, h1⟩
  have hfold : Outcome (beam = ⊥)
      (fun m1 => ManagerInv env beam m1 ∧ m1.i = m.i ∧
        m1.objects = m.objects ++ st.created)
      ((cubeD st).foldlM addToStack
        { m with objects := m.objects ++ st.created, nextId := st.nextId }) :=
    Outcome.foldlM addToStack (cubeD st) _ ⟨hi1, rfl, rfl⟩ (by
      intro m1 hm1 d hd
      obtain ⟨hdc, h, hh, o, ho, hde⟩ := cubeD_extends hci hd
      have hcov := CreateNext_coverage env d.hypo.id d.gridX d.gridY (hB h hh) (hR o ho)
        hov hse he hsub
      rw [← hde] at hcov
      obtain ⟨_, _, h3, h4, h5⟩ := hcov
      have hobj : d ∈ m1.objects := by
        rw [hm1.2.2]
        exact List.mem_append_right _ hdc
      refine (addToStack_outcome hm1.1 hobj (by rw [hm1.2.1, ← hcard]; exact h3) h4
        h5).mono ?_
      intro m2 hm2
      exact ⟨hm2.1, hm2.2.1.trans hm1.2.1, hm2.2.2.1.trans hm1.2.2⟩)
  exact hfold.mono (fun m1 hm1 => ⟨hm1.1, hm1.2.1⟩)

/-- One call of `ProcessCoverageVector` from the expansion of stack `i`, for rows that
cover the `i` words `B`, keeps the invariant. -/
theorem ProcessCoverageVector_outcome [FloatAdd] [LawfulFloatAdd] {env : DecoderEnv} {beam : Score}
    {m : Manager}
    (hstore : ∀ R, ∀ o ∈ env.translationOptionList R, o.sourceRange = R)
    (hi : ManagerInv env beam m) {rows : List SearchHypothesis} {B : WordsBitmap}
    (hrows : rows ≠ []) (hB : ∀ r ∈ rows, r.wordsBitmap = B) (hcard : B.card = m.i)
    (hsub : ∀ p ∈ B, p < env.sourceSize) :
    Outcome (beam = ⊥) (fun m1 => ManagerInv env beam m1 ∧ m1.i = m.i)
      (ProcessCoverageVector env rows B m) := by
  obtain ⟨hypothesis, hh⟩ := get?_some_of_lt (l := rows) (i := 0) (List.length_pos.mpr hrows)
  unfold ProcessCoverageVector
  rw [hh]
  simp only
  refine Outcome.foldlM _ _ m ⟨hi, rfl⟩ ?_
  intro m1 hm1 R hRin
  obtain ⟨h1, h2, h3, h4⟩ := extensionRanges_accepts hRin
  refine (CubePruning_outcome hm1.1 hrows hB (hcard.trans hm1.2.symm) hsub h4
    (hstore R) h3 h1 h2).mono ?_
  intro m2 hm2
  exact ⟨hm2.1, hm2.2.trans hm1.2⟩

theorem objectsOf_mem {objects : List SearchHypothesis} :
    ∀ {hs : List Hypothesis} {members : List SearchHypothesis},
      objectsOf objects hs = some members →
      ∀ r ∈ members, r ∈ objects ∧ r.hypo ∈ hs := by
  intro hs
  induction hs with
  | nil =>
    intro members h r hr
    simp only [objectsOf, Option.some.injEq] at h
    subst h
    cases hr
  | cons h rest ih =>
    intro members hm r hr
    unfold objectsOf at hm
    cases hf : objects.find? (fun o => decide (o.hypo = h)) with
    | none => rw [hf] at hm; cases hm
    | some o =>
      cases hrest : objectsOf objects rest with
      | none => rw [hf, hrest] at hm; cases hm
      | some os =>
        rw [hf, hrest] at hm
        simp only [Option.some.injEq] at hm
        subst hm
        rcases List.mem_cons.mp hr with rfl | hr
        · have := List.find?_some hf
          simp only [decide_eq_true_eq] at this
          exact ⟨List.mem_of_find?_eq_some hf, by rw [this]; exact List.mem_cons_self _ _⟩
        · obtain ⟨h1, h2⟩ := ih hrest r hr
          exact ⟨h1, List.mem_cons_of_mem _ h2⟩

theorem objectsOf_some {objects : List SearchHypothesis} :
    ∀ {hs : List Hypothesis}, (∀ h ∈ hs, ∃ o ∈ objects, o.hypo = h) →
      ∃ members, objectsOf objects hs = some members := by
  intro hs
  induction hs with
  | nil => intro _; exact ⟨[], rfl⟩
  | cons h rest ih =>
    intro hall
    obtain ⟨os, hos⟩ := ih (fun g hg => hall g (List.mem_cons_of_mem _ hg))
    obtain ⟨o, ho, hoh⟩ := hall h (List.mem_cons_self _ _)
    cases hf : objects.find? (fun o => decide (o.hypo = h)) with
    | none =>
      have := List.find?_eq_none.mp hf o ho
      simp only [decide_eq_true_eq] at this
      exact absurd hoh this
    | some o1 =>
      refine ⟨o1 :: os, ?_⟩
      unfold objectsOf
      rw [hf, hos]

/-- The rows of every invocation are members of the stack with the coverage passed, and
there is at least one. -/
theorem coverageInvocations_rows (env : DecoderEnv) (members : List SearchHypothesis) :
    ∀ c ∈ coverageInvocations env members,
      c.1 ≠ [] ∧ ∀ r ∈ c.1, r ∈ members ∧ r.wordsBitmap = c.2 := by
  have hstep : ∀ (l : List SearchHypothesis) (st : CoverageLoop),
      (∀ c ∈ st.invocations, c.1 ≠ [] ∧ ∀ r ∈ c.1, r ∈ members ∧ r.wordsBitmap = c.2) →
      ∀ c ∈ (l.foldl (coverageStep env members) st).invocations,
        c.1 ≠ [] ∧ ∀ r ∈ c.1, r ∈ members ∧ r.wordsBitmap = c.2 := by
    intro l
    induction l with
    | nil => intro st h; exact h
    | cons h rest ih =>
      intro st hst
      apply ih
      unfold coverageStep
      simp only
      split
      · split
        · rename_i hlen
          intro c hc
          rcases List.mem_append.mp hc with hc | hc
          · exact hst c hc
          · rw [List.mem_singleton.mp hc]
            refine ⟨List.ne_nil_of_length_pos hlen, ?_⟩
            intro r hr
            rcases scoreSetInsertAll_mem _ [] r hr with h1 | h1
            · rcases scoreSetInsertAll_mem _ [] r (List.mem_of_mem_take h1) with h2 | h2
              · obtain ⟨h3, h4⟩ := List.mem_filter.mp h2
                exact ⟨h3, by simpa using h4⟩
              · cases h2
            · cases h1
        · exact hst
      · exact hst
  exact hstep members ⟨[], []⟩ (fun c hc => by cases hc)

/-- The expansion of stack `i` keeps the invariant and ends with `i + 1`. -/
theorem processStack_outcome [FloatAdd] [LawfulFloatAdd] {env : DecoderEnv} {beam : Score}
    {m : Manager} (M : Nat)
    (hstore : ∀ R, ∀ o ∈ env.translationOptionList R, o.sourceRange = R)
    (hi : ManagerInv env beam m) (hle : m.i ≤ env.sourceSize) :
    Outcome (beam = ⊥) (fun m1 => ManagerInv env beam m1 ∧ m1.i = m.i + 1)
      (processStack env M m) := by
  obtain ⟨stack, hget⟩ := get?_some_of_lt (l := m.m_hypoStackColl) (i := m.i)
    (by rw [hi.len]; omega)
  have hstack := hi.stackInv stack (List.get?_mem hget)
  have hloc : Local { stack with m_maxHypoStackSize := M } :=
    ⟨hstack.1.loc.noEquiv, hstack.1.loc.le_best, hstack.1.loc.beam_le_worst,
      hstack.1.loc.above_beam, hstack.1.loc.best_attained⟩
  unfold processStack
  rw [hget]
  simp only
  cases hp0 : PruneToSizeTo M stack with
  | error fault =>
    show ¬ beam = ⊥
    intro hneg
    obtain ⟨s1, hs1⟩ := PruneToSize_total (s := { stack with m_maxHypoStackSize := M })
      (by show stack.m_beamThreshold = ⊥; rw [hstack.2]; exact hneg)
    unfold PruneToSizeTo at hp0
    rw [hs1] at hp0
    cases hp0
  | ok pruned =>
    have hp : PruneToSize { stack with m_maxHypoStackSize := M } = .ok pruned := hp0
    simp only
    have hi1 : ManagerInv env beam
        { m with m_hypoStackColl := m.m_hypoStackColl.set m.i pruned } := by
      refine ⟨?_, hi.ids_lt, hi.ids_nodup, ?_, ?_, hi.calls⟩
      · show (m.m_hypoStackColl.set m.i pruned).length = _
        rw [List.length_set, hi.len]
      · intro j s hj h hh
        rcases get?_set_cases hj with ⟨rfl, rfl⟩ | ⟨_, hj1⟩
        · exact hi.members _ stack hget h (PruneToSize_members hp h hh)
        · exact hi.members j s hj1 h hh
      · intro s hs
        rcases List.mem_or_eq_of_mem_set hs with hs | rfl
        · exact hi.stackInv s hs
        · exact ⟨Inv.of_PruneToSize hloc hp,
            by rw [(PruneToSize_params hp).1]; exact hstack.2⟩
    have hmem : ∀ h ∈ pruned.m_hypos, ∃ o ∈ m.objects, o.hypo = h ∧
        GetNumWordsCovered o.wordsBitmap = m.i ∧ ∀ p ∈ o.wordsBitmap, p < env.sourceSize :=
      fun h hh => hi.members _ stack hget h (PruneToSize_members hp h hh)
    have hall : ∀ h ∈ pruned.m_hypos, ∃ o ∈ m.objects, o.hypo = h :=
      fun h hh => (hmem h hh).imp (fun o ho => ⟨ho.1, ho.2.1⟩)
    obtain ⟨members, hmembers⟩ := objectsOf_some hall
    have hsm : stackMembers { m with m_hypoStackColl := m.m_hypoStackColl.set m.i pruned }
        pruned = some members := hmembers
    rw [hsm]
    simp only
    have hfacts : ∀ r ∈ members, GetNumWordsCovered r.wordsBitmap = m.i ∧
        ∀ p ∈ r.wordsBitmap, p < env.sourceSize := by
      intro r hr
      obtain ⟨hr1, hr2⟩ := objectsOf_mem hmembers r hr
      obtain ⟨o, ho, hoh, hfact⟩ := hmem r.hypo hr2
      have : o = r := List.inj_on_of_nodup_map hi.ids_nodup ho hr1 (by rw [hoh])
      rw [← this]
      exact hfact
    have hfold : Outcome (beam = ⊥) (fun m1 => ManagerInv env beam m1 ∧ m1.i = m.i)
        ((coverageInvocations env members).foldlM
          (fun m c => ProcessCoverageVector env c.1 c.2 m)
          { m with m_hypoStackColl := m.m_hypoStackColl.set m.i pruned }) := by
      refine Outcome.foldlM _ _ _ ⟨hi1, rfl⟩ ?_
      intro m1 hm1 c hc
      obtain ⟨hne, hrows⟩ := coverageInvocations_rows env members c hc
      obtain ⟨r, hr⟩ := List.exists_mem_of_ne_nil _ hne
      obtain ⟨hrm, hrw⟩ := hrows r hr
      obtain ⟨hf1, hf2⟩ := hfacts r hrm
      rw [hrw] at hf1 hf2
      refine (ProcessCoverageVector_outcome hstore hm1.1 hne (fun r1 hr1 => (hrows r1 hr1).2)
        (hf1.trans hm1.2.symm) hf2).mono ?_
      intro m2 hm2
      exact ⟨hm2.1, hm2.2.trans hm1.2⟩
    cases hres : (coverageInvocations env members).foldlM
        (fun m c => ProcessCoverageVector env c.1 c.2 m)
        { m with m_hypoStackColl := m.m_hypoStackColl.set m.i pruned } with
    | error fault =>
      rw [hres] at hfold
      cases fault <;> exact hfold
    | ok m2 =>
      rw [hres] at hfold
      obtain ⟨hi2, h2⟩ := hfold
      show ManagerInv env beam _ ∧ _
      exact ⟨⟨hi2.len, hi2.ids_lt, hi2.ids_nodup, hi2.members, hi2.stackInv, hi2.calls⟩,
        by show m2.i + 1 = m.i + 1; rw [h2]⟩

/-- The invariant holds when the seed hypothesis has been created. -/
theorem ManagerInv.at_seed [FloatAdd] [LawfulFloatAdd] (env : DecoderEnv) (nb : Bool) (M : Nat)
    (beam : Score) :
    ManagerInv env beam (Manager.seeded env nb M beam) := by
  refine ⟨by simp [Manager.seeded, Manager.init], ?_, by simp [Manager.seeded], ?_, ?_,
    fun c hc => by cases hc⟩
  · intro o ho
    simp only [Manager.seeded, List.mem_singleton] at ho
    subst ho
    exact Nat.zero_lt_one
  · intro j s hj h hh
    have := List.get?_mem hj
    simp only [Manager.seeded, Manager.init, List.mem_replicate] at this
    rw [this.2] at hh
    cases hh
  · intro s hs
    simp only [Manager.seeded, Manager.init, List.mem_replicate] at hs
    rw [hs.2]
    exact ⟨Inv.at_init nb M beam, rfl⟩

/-- The decoder loop keeps the invariant: it returns with the invariant, or it runs into an
undefined stack operation, which it does not without a beam (beam threshold minus
infinity). -/
theorem ProcessSentence_outcome [FloatAdd] [LawfulFloatAdd] {env : DecoderEnv}
    (hstore : ∀ R, ∀ o ∈ env.translationOptionList R, o.sourceRange = R)
    (nb : Bool) (M : Nat) (beam : Score) :
    Outcome (beam = ⊥) (fun m => ManagerInv env beam m ∧ m.i = env.sourceSize + 1)
      (ProcessSentence env nb M beam) := by
  have hobj : seedHypothesis env ∈ (Manager.seeded env nb M beam).objects :=
    List.mem_singleton.mpr rfl
  have hseed := addPruneAt_outcome (ManagerInv.at_seed env nb M beam)
    (Nat.zero_le env.sourceSize) hobj rfl (fun p hp => by cases hp)
  have hloop : ∀ (l : List Nat) (m : Manager), ManagerInv env beam m →
      m.i + l.length = env.sourceSize + 1 →
      Outcome (beam = ⊥) (fun m => ManagerInv env beam m ∧ m.i = env.sourceSize + 1)
        (l.foldlM (fun m _ => processStack env M m) m) := by
    intro l
    induction l with
    | nil =>
      intro m hm hlen
      exact ⟨hm, by simpa using hlen⟩
    | cons x rest ih =>
      intro m hm hlen
      rw [List.length_cons] at hlen
      rw [List.foldlM_cons]
      have hx := processStack_outcome M hstore hm (by omega)
      cases hfx : processStack env M m with
      | ok m1 =>
        rw [hfx] at hx
        exact ih m1 hx.1 (by rw [hx.2]; omega)
      | error fault =>
        rw [hfx] at hx
        cases fault <;> exact hx
  unfold ProcessSentence
  cases hs : addPruneAt (Manager.seeded env nb M beam) 0 (seedHypothesis env) with
  | error fault =>
    rw [hs] at hseed
    cases fault <;> exact hseed
  | ok m =>
    rw [hs] at hseed
    simp only
    refine hloop _ m hseed.1 ?_
    rw [hseed.2.1, List.length_range]
    simp [Manager.seeded, Manager.init]

/-! ## The claim about the stacks of the decoder loop -/

/-- C20: where the options that the store gives for a range have that range as source
range.  For every coverage `B` within the sentence, rows with that coverage and every range
`R` that `ProcessCoverageVector` accepts, each hypothesis that `CubePruning` passes to
`AddPrune` has the coverage `B ∪ R`, and the number of words it covers, which is the index
of the stack it is added to, is `|B| + |R|`, more than `|B|` and at most the length `N` of
the sentence.  And `ProcessSentence` runs into no index beyond the `N + 1` stacks (and into
no other fault than an undefined stack operation, and into none with beam threshold minus
infinity); when it returns, every `AddPrune` call of the expansion of stack `i` went to a
stack with an index above `i` and at most `N`, the number of words that the hypothesis
covers, and every member of a stack is an object, the only one with its identity, whose
number of covered words is the index of the stack. -/
theorem C20_hypotheses_go_to_the_stack_of_their_coverage [FloatAdd] [LawfulFloatAdd]
    (env : DecoderEnv)
    (hstore : ∀ R, ∀ o ∈ env.translationOptionList R, o.sourceRange = R) :
    (∀ (B : WordsBitmap) (rows : List SearchHypothesis) (hypothesis : SearchHypothesis)
        (R : WordsRange) (n : Nat) (st : CubeState),
        (∀ r ∈ rows, r.wordsBitmap = B) → (∀ p ∈ B, p < env.sourceSize) →
        R ∈ extensionRanges env hypothesis B →
        cubeSearch env rows (env.translationOptionList R) n = some st →
        ∀ d ∈ cubeD st,
          d.wordsBitmap = B ∪ Finset.Icc R.startPos R.endPos ∧
          GetNumWordsCovered d.wordsBitmap = B.card + (R.endPos + 1 - R.startPos) ∧
          B.card < GetNumWordsCovered d.wordsBitmap ∧
          GetNumWordsCovered d.wordsBitmap ≤ env.sourceSize) ∧
    ∀ (nb : Bool) (M : Nat) (beam : Score),
      (∀ m, ProcessSentence env nb M beam = .ok m →
        m.m_hypoStackColl.length = env.sourceSize + 1 ∧
        (∀ c ∈ m.addPruneCalls, c.expanding < c.wordsTranslated ∧
          c.wordsTranslated ≤ env.sourceSize ∧
          GetNumWordsCovered c.newHypo.wordsBitmap = c.wordsTranslated) ∧
        (m.objects.map (fun o => o.hypo.id)).Nodup ∧
        ∀ j stack, m.m_hypoStackColl.get? j = some stack → ∀ h ∈ stack.m_hypos,
          ∃ o ∈ m.objects, o.hypo = h ∧ GetNumWordsCovered o.wordsBitmap = j) ∧
      (∀ fault, ProcessSentence env nb M beam = .error fault → ∃ f, fault = .stack f) ∧
      (beam = ⊥ → ∃ m, ProcessSentence env nb M beam = .ok m) := by
  constructor
  · intro B rows hypothesis R n st hB hsub hR hst d hd
    obtain ⟨h1, h2, h3, _⟩ := extensionRanges_accepts hR
    obtain ⟨hci, _, _⟩ := cubeSearch_inv hst
    obtain ⟨_, h, hh, o, ho, hde⟩ := cubeD_extends hci hd
    have hcov := CreateNext_coverage env d.hypo.id d.gridX d.gridY (hB h hh)
      (hstore R o ho) h3 h1 h2 hsub
    rw [← hde] at hcov
    exact ⟨hcov.1, hcov.2.1, hcov.2.2.1, hcov.2.2.2.1⟩
  · intro nb M beam
    have hout := ProcessSentence_outcome hstore nb M beam
    refine ⟨?_, ?_, ?_⟩
    · intro m hm
      rw [hm] at hout
      obtain ⟨hi, _⟩ := hout
      refine ⟨hi.len, hi.calls, hi.ids_nodup, ?_⟩
      intro j stack hj h hh
      obtain ⟨o, ho, h1, h2, _⟩ := hi.members j stack hj h hh
      exact ⟨o, ho, h1, h2⟩
    · intro fault hf
      rw [hf] at hout
      cases fault with
      | stack f => exact ⟨f, rfl⟩
      | stackIndex => exact absurd hout id
      | emptyGrid => exact absurd hout id
      | dangling => exact absurd hout id
    · intro hneg
      cases hres : ProcessSentence env nb M beam with
      | ok m => exact ⟨m, rfl⟩
      | error fault =>
        rw [hres] at hout
        cases fault with
        | stack f => exact absurd hneg hout
        | stackIndex => exact absurd hout id
        | emptyGrid => exact absurd hout id
        | dangling => exact absurd hout id

/-- A sentence of two words without reordering limit, one option for every range: the
seed hypothesis is extended by `[0, 0]`, `[0, 1]` and `[1, 1]`, and the extensions go to the
stacks 1, 2 and 1; the member of stack 1 is extended by `[1, 1]`, and the extension goes to
stack 2.  The stacks are listed with the identity, the score and the coverage of their
members, the calls with the stack expanded, the stack added to and the identity. -/
theorem C20_hypotheses_go_to_the_stack_of_their_coverage_witness :
    (@ProcessSentence binary32 (exampleEnv 2 (-1) 2 false true 1) false 10 ⊥).toOption.map
        (fun m => m.summary (exampleEnv 2 (-1) 2 false true 1)) =
      some [[(0, 0, [])], [(1, 0, [0])], [(2, 0, [0, 1]), (4, 0, [0, 1])]] ∧
    (@ProcessSentence binary32 (exampleEnv 2 (-1) 2 false true 1) false 10 ⊥).toOption.map
        (fun m => m.addPruneCalls.map
          (fun c => (c.expanding, c.wordsTranslated, c.newHypo.hypo.id))) =
      some [(0, 1, 1), (0, 2, 2), (0, 1, 3), (1, 2, 4)] ∧
    (∃ st, cubeSearch (exampleEnv 2 (-1) 2 false true 1)
        [seedHypothesis (exampleEnv 2 (-1) 2 false true 1)]
        ((exampleEnv 2 (-1) 2 false true 1).translationOptionList ⟨0, 1⟩) 1 = some st ∧
      ∀ d ∈ cubeD st,
        d.wordsBitmap = ∅ ∪ Finset.Icc 0 1 ∧
        GetNumWordsCovered d.wordsBitmap = (∅ : WordsBitmap).card + (1 + 1 - 0) ∧
        (∅ : WordsBitmap).card < GetNumWordsCovered d.wordsBitmap ∧
        GetNumWordsCovered d.wordsBitmap ≤ 2) ∧
    ∃ m, @ProcessSentence binary32 (exampleEnv 2 (-1) 2 false true 1) false 10 ⊥ = .ok m :=
  ⟨by decide, by decide,
   ⟨_, rfl, (@C20_hypotheses_go_to_the_stack_of_their_coverage binary32 binary32_lawful
      (exampleEnv 2 (-1) 2 false true 1) (fun R o ho => by
        simp only [exampleEnv, List.mem_map] at ho
        obtain ⟨k, _, rfl⟩ := ho
        rfl)).1 ∅ [seedHypothesis (exampleEnv 2 (-1) 2 false true 1)]
      (seedHypothesis (exampleEnv 2 (-1) 2 false true 1)) ⟨0, 1⟩ 1 _
      (by decide) (by decide) (by decide) rfl⟩,
   ((@C20_hypotheses_go_to_the_stack_of_their_coverage binary32 binary32_lawful
      (exampleEnv 2 (-1) 2 false true 1) (fun R o ho => by
        simp only [exampleEnv, List.mem_map] at ho
        obtain ⟨k, _, rfl⟩ := ho
        rfl)).2 false 10 ⊥).2.2 rfl⟩

/-! ## The n-best list -/

/-- The loop of `CalcNBest` without the distinct mode: every iteration adds one path, the
paths added never exceed `count`, and the loop ends within the iterations given. -/
theorem nbestLoop_spec (env : NBestEnv) (count : Nat) (r0 : Nat) :
    ∀ (fuel : Nat) (st : NBestState),
      st.ret.length = r0 + st.iteration → st.iteration + fuel = sizeMul count 20 →
      (nbestLoop env count false fuel st).ret.length =
          r0 + (nbestLoop env count false fuel st).iteration ∧
        (nbestLoop env count false fuel st).iteration ≤ sizeMul count 20 ∧
        st.iteration ≤ (nbestLoop env count false fuel st).iteration ∧
        ((nbestLoop env count false fuel st).ret.length ≤ max count st.ret.length) ∧
        nbestContinues count false (nbestLoop env count false fuel st) = false := by
  intro fuel
  induction fuel with
  | zero =>
    intro st hret hfuel
    unfold nbestLoop
    refine ⟨hret, by omega, Nat.le_refl _, le_max_right _ _, ?_⟩
    unfold nbestContinues
    simp only [Bool.and_eq_false_iff, decide_eq_false_iff_not]
    right
    omega
  | succ fuel ih =>
    intro st hret hfuel
    unfold nbestLoop
    by_cases hc : nbestContinues count false st = true
    · rw [if_pos hc]
      unfold nbestContinues at hc
      simp only [Bool.false_eq_true, if_false, Bool.and_eq_true, decide_eq_true_eq] at hc
      obtain ⟨⟨h1, h2⟩, h3⟩ := hc
      obtain ⟨path, rest, hcont⟩ : ∃ path rest, st.contenders = path :: rest := by
        cases hl : st.contenders with
        | nil => rw [hl] at h2; simp at h2
        | cons path rest => exact ⟨path, rest, rfl⟩
      have hbody : (nbestBody env count false st).ret = st.ret ++ [path] ∧
          (nbestBody env count false st).iteration = st.iteration + 1 := by
        unfold nbestBody
        rw [hcont]
        exact ⟨rfl, rfl⟩
      have hlen : (nbestBody env count false st).ret.length = st.ret.length + 1 := by
        rw [hbody.1, List.length_append]
        rfl
      obtain ⟨i1, i2, i3, i4, i5⟩ := ih (nbestBody env count false st)
        (by rw [hlen, hbody.2]; omega) (by rw [hbody.2]; omega)
      refine ⟨i1, i2, by rw [hbody.2] at i3; omega, ?_, i5⟩
      rw [hlen] at i4
      have : max count (st.ret.length + 1) = count := by
        rw [max_eq_left]
        omega
      rw [this] at i4
      exact le_trans i4 (le_max_left _ _)
    · rw [if_neg hc]
      refine ⟨hret, by omega, Nat.le_refl _, le_max_right _ _, by simpa using hc⟩

theorem sizeMul_le (a b : Nat) : sizeMul a b ≤ a * b := Nat.mod_le _ _

/-- C21: for every count and every final stack, `CalcNBest` without the distinct mode,
called with an empty `ret`, leaves at most `count` paths in `ret`, one for every iteration
of its loop; it makes at most `count * 20` iterations (also as the `size_t` product), and
its loop has ended when the iterations given are used up.  With `count = 0` or an empty
final stack it adds no path. -/
theorem C21_CalcNBest_adds_at_most_count (env : NBestEnv) (finalStack : HypothesisStack)
    (count : Nat) :
    (CalcNBest env finalStack count [] false).ret.length ≤ count ∧
      (CalcNBest env finalStack count [] false).ret.length =
        (CalcNBest env finalStack count [] false).iteration ∧
      (CalcNBest env finalStack count [] false).iteration ≤ sizeMul count 20 ∧
      (CalcNBest env finalStack count [] false).iteration ≤ count * 20 ∧
      nbestContinues count false (CalcNBest env finalStack count [] false) = false ∧
      (count = 0 ∨ finalStack.m_hypos = [] →
        (CalcNBest env finalStack count [] false).ret = [] ∧
          (CalcNBest env finalStack count [] false).iteration = 0) := by
  unfold CalcNBest
  by_cases hcount : count ≤ 0
  · rw [if_pos hcount]
    refine ⟨Nat.zero_le _, rfl, Nat.zero_le _, Nat.zero_le _, ?_, fun _ => ⟨rfl, rfl⟩⟩
    unfold nbestContinues
    simp only [Bool.false_eq_true, if_false, List.length_nil, Bool.and_eq_false_iff,
      decide_eq_false_iff_not]
    left
    left
    omega
  · rw [if_neg hcount]
    simp only
    by_cases hempty : (GetSortedList finalStack).length = 0
    · rw [if_pos hempty]
      refine ⟨Nat.zero_le _, rfl, Nat.zero_le _, Nat.zero_le _, ?_, fun _ => ⟨rfl, rfl⟩⟩
      unfold nbestContinues
      simp
    · rw [if_neg hempty]
      obtain ⟨h1, h2, _, h4, h5⟩ := nbestLoop_spec env count 0 (sizeMul count 20)
        { ret := [], contenders := (GetSortedList finalStack).foldl
            (fun c hypo => contendersAdd (env.purePath hypo) c) []
          distinctHyps := [], iteration := 0 }
        rfl (by simp)
      refine ⟨by simpa using h4, by omega, h2, le_trans h2 (sizeMul_le _ _), h5, ?_⟩
      intro h
      exfalso
      rcases h with h | h
      · omega
      · apply hempty
        unfold GetSortedList
        rw [h]
        rfl

/-- Three members and `count = 2`: the two best paths are added, in two iterations. -/
theorem C21_CalcNBest_adds_at_most_count_witness :
    (CalcNBest (exampleNBestEnv [(1, [7]), (2, [8]), (3, [9])] [] 20)
        { HypothesisStack.init true 10 ⊥ with
          m_hypos := [⟨1, 1, 5⟩, ⟨2, 2, 4⟩, ⟨3, 3, 6⟩]
          m_bestScore := ((6 : Int) : Score) } 2 [] false).ret =
      [⟨[3], 6, [9]⟩, ⟨[1], 5, [7]⟩] ∧
    ((2 = 0 ∨ (HypothesisStack.init true 10 ⊥).m_hypos = [] →
        (CalcNBest (exampleNBestEnv [] [] 20) (HypothesisStack.init true 10 ⊥) 2 []
            false).ret = [] ∧
          (CalcNBest (exampleNBestEnv [] [] 20) (HypothesisStack.init true 10 ⊥) 2 []
            false).iteration = 0)) :=
  ⟨by decide,
   (C21_CalcNBest_adds_at_most_count (exampleNBestEnv [] [] 20)
     (HypothesisStack.init true 10 ⊥) 2).2.2.2.2.2⟩

/-- C22 at a hypothesis with a deviation of the same surface phrase: the final stack holds
one hypothesis, whose path has the surface phrase `[7]` and one deviant path with the same
surface phrase.  `CalcNBest` for two distinct translations adds both paths to `ret`, while
`distinctHyps` holds the one phrase. -/
theorem C22_distinct_mode_adds_duplicates :
    ∃ s, @run binary32 (HypothesisStack.init true 10 ⊥) [.addPrune ⟨1, 1, 5⟩] = .ok s ∧
      (CalcNBest (exampleNBestEnv [(1, [7])] [([1], ⟨[2], 4, [7]⟩)] 20) s 2 [] true).ret =
        [⟨[1], 5, [7]⟩, ⟨[2], 4, [7]⟩] ∧
      (CalcNBest (exampleNBestEnv [(1, [7])] [([1], ⟨[2], 4, [7]⟩)] 20) s 2 []
        true).distinctHyps = [[7]] ∧
      ¬ ((CalcNBest (exampleNBestEnv [(1, [7])] [([1], ⟨[2], 4, [7]⟩)] 20) s 2 []
        true).ret.map (fun path => path.surfacePhrase)).Nodup :=
  ⟨_, rfl, by decide, by decide, by decide⟩

/-! ## The best hypothesis -/

theorem best_foldl (rest : List Hypothesis) :
    ∀ (pre : List Hypothesis) (cur : Hypothesis) (mid : List Hypothesis),
      (∀ m ∈ pre, m.score < cur.score) → (∀ m ∈ mid, m.score ≤ cur.score) →
      ∃ pre1 post1,
        pre ++ cur :: (mid ++ rest) =
          pre1 ++ rest.foldl
            (fun bestHypo hypo => if hypo.score > bestHypo.score then hypo else bestHypo) cur ::
              post1 ∧
        (∀ m ∈ pre1, m.score < (rest.foldl
          (fun bestHypo hypo => if hypo.score > bestHypo.score then hypo else bestHypo)
            cur).score) ∧
        (∀ m ∈ post1, m.score ≤ (rest.foldl
          (fun bestHypo hypo => if hypo.score > bestHypo.score then hypo else bestHypo)
            cur).score) := by
  induction rest with
  | nil =>
    intro pre cur mid h1 h2
    exact ⟨pre, mid, by simp, h1, h2⟩
  | cons h t ih =>
    intro pre cur mid h1 h2
    rw [List.foldl_cons]
    by_cases hgt : h.score > cur.score
    · rw [if_pos hgt]
      obtain ⟨pre1, post1, e, p1, p2⟩ := ih (pre ++ cur :: mid) h [] (by
        intro m hm
        rcases List.mem_append.mp hm with hm | hm
        · exact lt_trans (h1 m hm) hgt
        · rcases List.mem_cons.mp hm with rfl | hm
          · exact hgt
          · exact lt_of_le_of_lt (h2 m hm) hgt) (fun m hm => by cases hm)
      refine ⟨pre1, post1, ?_, p1, p2⟩
      rw [← e]
      simp
    · rw [if_neg hgt]
      obtain ⟨pre1, post1, e, p1, p2⟩ := ih pre cur (mid ++ [h]) h1 (by
        intro m hm
        rcases List.mem_append.mp hm with hm | hm
        · exact h2 m hm
        · rw [List.mem_singleton.mp hm]
          exact not_lt.mp hgt)
      refine ⟨pre1, post1, ?_, p1, p2⟩
      rw [← e]
      simp

theorem getLast?_eq_get? {α : Type} (l : List α) (n : Nat) (h : l.length = n + 1) :
    l.getLast? = l.get? n := by
  induction l generalizing n with
  | nil => simp at h
  | cons a rest ih =>
    cases rest with
    | nil =>
      simp only [List.length_singleton] at h
      have : n = 0 := by omega
      subst this
      rfl
    | cons b rest2 =>
      cases n with
      | zero => simp at h
      | succ n =>
        rw [List.getLast?_cons_cons, List.get?_cons_succ]
        exact ih n (by simpa using h)

/-- C23: `HypothesisStack::GetBestHypothesis` returns `NULL` if and only if the stack is
empty; a hypothesis it returns is a member that scores at least what every member scores,
and strictly more than every member before it in iteration order; and
`Manager::GetBestHypothesis`, with `N + 1` stacks, returns what
`HypothesisStack::GetBestHypothesis` returns for the stack with index `N`. -/
theorem C23_GetBestHypothesis_returns_first_best (s : HypothesisStack) :
    (GetBestHypothesis s = none ↔ s.m_hypos = []) ∧
      (∀ best, GetBestHypothesis s = some best →
        best ∈ s.m_hypos ∧ (∀ m ∈ s.m_hypos, m.score ≤ best.score) ∧
        ∃ pre post, s.m_hypos = pre ++ best :: post ∧
          (∀ m ∈ pre, m.score < best.score) ∧ (∀ m ∈ post, m.score ≤ best.score)) ∧
      ∀ (m : Manager) (N : Nat), m.m_hypoStackColl.length = N + 1 →
        ∃ stack, m.m_hypoStackColl.get? N = some stack ∧
          m.GetBestHypothesis = .ok (GetBestHypothesis stack) := by
  refine ⟨?_, ?_, ?_⟩
  · unfold GetBestHypothesis
    cases s.m_hypos with
    | nil => simp
    | cons first rest => simp
  · intro best hbest
    unfold GetBestHypothesis at hbest
    cases hl : s.m_hypos with
    | nil => rw [hl] at hbest; cases hbest
    | cons first rest =>
      rw [hl] at hbest
      simp only [Option.some.injEq] at hbest
      obtain ⟨pre, post, e, p1, p2⟩ := best_foldl rest [] first []
        (fun m hm => by cases hm) (fun m hm => by cases hm)
      rw [hbest] at e p1 p2
      simp only [List.nil_append] at e
      refine ⟨?_, ?_, pre, post, e, p1, p2⟩
      · rw [e]
        exact List.mem_append_right _ (List.mem_cons_self _ _)
      · intro m hm
        rw [e] at hm
        rcases List.mem_append.mp hm with hm | hm
        · exact le_of_lt (p1 m hm)
        · rcases List.mem_cons.mp hm with rfl | hm
          · exact le_refl _
          · exact p2 m hm
  · intro m N hlen
    obtain ⟨stack, hstack⟩ := get?_some_of_lt (l := m.m_hypoStackColl) (i := N) (by omega)
    refine ⟨stack, hstack, ?_⟩
    unfold Manager.GetBestHypothesis
    rw [getLast?_eq_get? _ N hlen, hstack]

/-- Members scoring 5, 6, 6 and 3: the first member that scores 6 is returned, for the
stack and for a `Manager` whose last stack it is. -/
theorem C23_GetBestHypothesis_returns_first_best_witness :
    GetBestHypothesis { HypothesisStack.init true 10 ⊥ with
        m_hypos := [⟨1, 1, 5⟩, ⟨2, 2, 6⟩, ⟨3, 3, 6⟩, ⟨4, 4, 3⟩] } = some ⟨2, 2, 6⟩ ∧
    GetBestHypothesis (HypothesisStack.init true 10 ⊥) = none ∧
    ∃ stack, ([HypothesisStack.init true 10 ⊥, { HypothesisStack.init true 10 ⊥ with
        m_hypos := [⟨1, 1, 5⟩, ⟨2, 2, 6⟩, ⟨3, 3, 6⟩, ⟨4, 4, 3⟩] }] :
          List HypothesisStack).get? 1 = some stack ∧
      Manager.GetBestHypothesis
        { m_hypoStackColl := [HypothesisStack.init true 10 ⊥,
            { HypothesisStack.init true 10 ⊥ with
              m_hypos := [⟨1, 1, 5⟩, ⟨2, 2, 6⟩, ⟨3, 3, 6⟩, ⟨4, 4, 3⟩] }]
          objects := [], nextId := 0, i := 0, addPruneCalls := [] } =
        .ok (GetBestHypothesis stack) :=
  ⟨by decide, by decide,
   (C23_GetBestHypothesis_returns_first_best (HypothesisStack.init true 10 ⊥)).2.2
     { m_hypoStackColl := [HypothesisStack.init true 10 ⊥,
         { HypothesisStack.init true 10 ⊥ with
           m_hypos := [⟨1, 1, 5⟩, ⟨2, 2, 6⟩, ⟨3, 3, 6⟩, ⟨4, 4, 3⟩] }]
       objects := [], nextId := 0, i := 0, addPruneCalls := [] } 1 rfl⟩

/-! ## The re-insertion after a recombination, and the heap of `PruneToSize` -/

theorem PruneToSize_fault [FloatAdd] {s : HypothesisStack} {fault : Fault}
    (h : PruneToSize s = .error fault) : fault = Fault.emptyHeapTop := by
  unfold PruneToSize at h
  split at h
  · cases h
  · split at h
    · simp only at h
      split at h
      · cases h
        rfl
      · cases h
    · cases h

theorem Add_fault [FloatAdd] {s : HypothesisStack} {hypo : Hypothesis} {fault : Fault}
    (h : Add s hypo = .error fault) : fault = Fault.emptyHeapTop := by
  cases hf : findEquiv hypo s.m_hypos with
  | some e =>
    unfold Add at h
    rw [hf] at h
    cases h
  | none =>
    rw [Add_new_eq hf] at h
    split at h
    · cases hp : PruneToSize (inserted s hypo) with
      | ok s2 => rw [hp] at h; cases h
      | error f =>
        rw [hp] at h
        simp only [Except.error.injEq] at h
        rw [← h]
        exact PruneToSize_fault hp
    · cases h

/-- C24: on every stack state in which no two members are equivalent, `AddPrune` never
reaches the `assert(false)` of line 127; and when the incoming hypothesis is not below the
worst score and scores strictly higher than its equivalent member, then, after that member
was removed or detached, no member is equivalent to the incoming hypothesis, the second
`Add` inserts it into the set, and whenever that `Add` returns it reports the insertion. -/
theorem C24_reinsertion_always_inserts [FloatAdd] (s : HypothesisStack) (hypo : Hypothesis)
    (hne : NoEquiv s.m_hypos) :
    AddPrune s hypo ≠ .error Fault.assertFailed ∧
      ∀ e, ¬ (hypo.score : Score) < s.m_worstScore → findEquiv hypo s.m_hypos = some e →
        e.score < hypo.score →
        findEquiv hypo (loserRemoved s hypo e).m_hypos = none ∧
          hypo ∈ (inserted (loserRemoved s hypo e) hypo).m_hypos ∧
          ∀ r, Add (loserRemoved s hypo e) hypo = .ok r → r.2 = (hypo, true) := by
  have hsecond : ∀ e, findEquiv hypo s.m_hypos = some e →
      findEquiv hypo (loserRemoved s hypo e).m_hypos = none ∧
        hypo ∈ (inserted (loserRemoved s hypo e) hypo).m_hypos ∧
        ∀ r, Add (loserRemoved s hypo e) hypo = .ok r → r.2 = (hypo, true) := by
    intro e hf
    have hnone := findEquiv_loserRemoved hne hf
    refine ⟨hnone, ?_, ?_⟩
    · rw [inserted_hypos, (setInsert_perm _ _).mem_iff]
      exact List.mem_cons_self _ _
    · intro r hr
      rcases Add_ok hr with ⟨e1, he1, _⟩ | ⟨_, h2, _⟩
      · rw [hnone] at he1
        cases he1
      · exact h2
  refine ⟨?_, fun e _ hf _ => hsecond e hf⟩
  by_cases hw : (hypo.score : Score) < s.m_worstScore
  · rw [AddPrune_discard hw]
    intro h
    cases h
  · rw [AddPrune_eq hw]
    cases hf : findEquiv hypo s.m_hypos with
    | none =>
      simp only
      cases ha : Add s hypo with
      | error f =>
        simp only
        rw [Add_fault ha]
        intro h
        cases h
      | ok r =>
        obtain ⟨s1, h1, b⟩ := r
        simp only
        intro h
        cases h
    | some e =>
      simp only
      split
      · obtain ⟨_, _, hrep⟩ := hsecond e hf
        cases ha : Add (loserRemoved s hypo e) hypo with
        | error f =>
          simp only
          rw [Add_fault ha]
          intro h
          cases h
        | ok r =>
          have hr := hrep r ha
          obtain ⟨s4, h4, b⟩ := r
          simp only at hr
          cases hr
          simp only
          intro h
          cases h
      · intro h
        cases h

/-- A member scoring 1 and an incoming equivalent hypothesis scoring 2, with n-best enabled:
the member is detached and the incoming hypothesis is inserted. -/
theorem C24_reinsertion_always_inserts_witness :
    @AddPrune binary32 { HypothesisStack.init true 200 ⊥ with
        m_hypos := [⟨1, 7, 1⟩], m_bestScore := ((1 : Int) : Score) } ⟨2, 7, 2⟩ =
      .ok { HypothesisStack.init true 200 ⊥ with
            m_hypos := [⟨2, 7, 2⟩], m_bestScore := ((2 : Int) : Score)
            stats := { discarded := 0, recombinations := 1, pruned := 0 }
            arcs := [(⟨2, 7, 2⟩, ⟨1, 7, 1⟩)] } ∧
    (@AddPrune binary32 { HypothesisStack.init true 200 ⊥ with
        m_hypos := [⟨1, 7, 1⟩], m_bestScore := ((1 : Int) : Score) } ⟨2, 7, 2⟩ ≠
      .error Fault.assertFailed ∧
      ∀ e, ¬ (((⟨2, 7, 2⟩ : Hypothesis).score : Score) <
          ({ HypothesisStack.init true 200 ⊥ with
              m_hypos := [⟨1, 7, 1⟩], m_bestScore := ((1 : Int) : Score) } :
            HypothesisStack).m_worstScore) →
        findEquiv ⟨2, 7, 2⟩ ({ HypothesisStack.init true 200 ⊥ with
            m_hypos := [⟨1, 7, 1⟩], m_bestScore := ((1 : Int) : Score) } :
          HypothesisStack).m_hypos = some e →
        e.score < (⟨2, 7, 2⟩ : Hypothesis).score →
        findEquiv ⟨2, 7, 2⟩ (loserRemoved { HypothesisStack.init true 200 ⊥ with
            m_hypos := [⟨1, 7, 1⟩], m_bestScore := ((1 : Int) : Score) }
          ⟨2, 7, 2⟩ e).m_hypos = none ∧
          (⟨2, 7, 2⟩ : Hypothesis) ∈ (@inserted binary32 (loserRemoved
            { HypothesisStack.init true 200 ⊥ with
              m_hypos := [⟨1, 7, 1⟩], m_bestScore := ((1 : Int) : Score) }
            ⟨2, 7, 2⟩ e) ⟨2, 7, 2⟩).m_hypos ∧
          ∀ r, @Add binary32 (loserRemoved { HypothesisStack.init true 200 ⊥ with
              m_hypos := [⟨1, 7, 1⟩], m_bestScore := ((1 : Int) : Score) }
            ⟨2, 7, 2⟩ e) ⟨2, 7, 2⟩ = .ok r → r.2 = (⟨2, 7, 2⟩, true)) :=
  ⟨rfl,
   @C24_reinsertion_always_inserts binary32
     { HypothesisStack.init true 200 ⊥ with
       m_hypos := [⟨1, 7, 1⟩], m_bestScore := ((1 : Int) : Score) } ⟨2, 7, 2⟩
     (by simp [NoEquiv])⟩

/-- C25 at beam threshold 0: with maximal size 2, three `AddPrune` calls of hypotheses that
are not equivalent and all score 5 return and leave a stack of three members, more than the
maximal size; no member scores strictly more than the best score plus the beam threshold,
the heap that `PruneToSize` builds is empty, and `PruneToSize` reads the top of the empty
heap. -/
theorem C25_heap_is_empty_at_zero_beam :
    ∃ s, @run binary32 (HypothesisStack.init false 2 ((0 : Int) : Score))
        [.addPrune ⟨1, 1, 5⟩, .addPrune ⟨2, 2, 5⟩, .addPrune ⟨3, 3, 5⟩] = .ok s ∧
      s.m_hypos = [⟨1, 1, 5⟩, ⟨2, 2, 5⟩, ⟨3, 3, 5⟩] ∧
      s.m_maxHypoStackSize < s.m_hypos.length ∧
      (∀ m ∈ s.m_hypos, ¬ binary32Sum s.m_bestScore s.m_beamThreshold < (m.score : Score)) ∧
      pushScores (binary32Sum s.m_bestScore s.m_beamThreshold) s.m_hypos [] = [] ∧
      @PruneToSize binary32 s = .error Fault.emptyHeapTop :=
  ⟨_, rfl, rfl, by decide, by decide, by decide, rfl⟩

/-! ## The grid positions that cube pruning passes on -/

theorem OriginFirst.origin_init {env : DecoderEnv} {rows : List SearchHypothesis}
    {topk : List TranslationOption} {n : Nat} {st : CubeState}
    (h : cubeInit env rows topk n = some st) : OriginFirst st := by
  left
  refine ⟨(CubeInv.cube_init h).2.1, ?_⟩
  unfold cubeInit at h
  cases h1 : rows.get? 0 with
  | none => rw [h1] at h; cases h
  | some h0 =>
    cases h2 : topk.get? 0 with
    | none => rw [h1, h2] at h; cases h
    | some o0 =>
      rw [h1, h2] at h
      simp only [scoreSetInsert, Option.some.injEq] at h
      subst h
      intro a ha
      simp only [List.mem_singleton] at ha
      subst ha
      exact ⟨rfl, rfl⟩

theorem OriginFirst.origin_step {env : DecoderEnv} {rows : List SearchHypothesis}
    {topk : List TranslationOption} {st : CubeState} {item : SearchHypothesis}
    {rest : List SearchHypothesis} (hi : CubeInv env rows topk st) (ho : OriginFirst st)
    (hc : st.cand = item :: rest) : OriginFirst (cubeStep env rows topk st) := by
  obtain ⟨_, hbuf, _⟩ := hi.cube_step hc
  right
  rcases ho with ⟨_, hcand⟩ | ⟨b, hb, hb0⟩
  · exact ⟨item, hbuf.symm.subset (List.mem_cons_self _ _),
      hcand item (by rw [hc]; exact List.mem_cons_self _ _)⟩
  · exact ⟨b, hbuf.symm.subset (List.mem_cons_of_mem _ hb), hb0⟩

/-- After the main loop the hypothesis at grid position `(0, 0)` is in `buf`. -/
theorem cubeSearch_origin {env : DecoderEnv} {rows : List SearchHypothesis}
    {tol : List TranslationOption} {n : Nat} {st : CubeState}
    (h : cubeSearch env rows tol n = some st) :
    ∃ b ∈ st.buf, b.gridX = 0 ∧ b.gridY = 0 := by
  unfold cubeSearch at h
  cases h0 : cubeInit env rows (topkOptions tol) n with
  | none => rw [h0] at h; cases h
  | some st0 =>
    rw [h0] at h
    simp only [Option.some.injEq] at h
    subst h
    obtain ⟨hi0, hbuf0, _, _⟩ := CubeInv.cube_init h0
    have hlen0 : st0.buf.length = 0 := by rw [hbuf0]; rfl
    obtain ⟨hi, ho, _, hend⟩ := cubeLoop_spec (J := OriginFirst)
      (fun st item rest hi hj hc _ => hj.origin_step hi hc)
      (top_k + extra) st0 hi0 (OriginFirst.origin_init h0) (by omega)
      (by unfold top_k extra; omega)
    rcases ho with ⟨hbuf, hcand⟩ | hb
    · exfalso
      have hcand0 : (cubeLoop env rows (topkOptions tol) (top_k + extra) st0).cand = [] := by
        rcases hend with h1 | h1
        · exact h1
        · rw [hbuf] at h1
          simp at h1
      obtain ⟨a, ha, _⟩ := hi.origin
      have := hi.perm.symm.subset ha
      rw [hcand0, hbuf] at this
      cases this
    · exact hb

/-- C26: with `top_k = 3` and no slack, for every row list, option list and assignment of
scores: `CubePruning` runs to the end of its main loop when there is a row and an option,
and then the hypotheses it passes to `AddPrune` sit at pairwise different grid positions,
and one of them sits at `(0, 0)`: the extension of the first row by the first option of
the option set. -/
theorem C26_passed_cells_distinct_and_origin_passed (env : DecoderEnv)
    (rows : List SearchHypothesis) (tol : List TranslationOption) (n : Nat) :
    (rows ≠ [] → tol ≠ [] → ∃ st, cubeSearch env rows tol n = some st) ∧
      ∀ st, cubeSearch env rows tol n = some st →
        ((cubeD st).map (fun d => (d.gridX, d.gridY))).Nodup ∧
        ∃ d ∈ cubeD st, d.gridX = 0 ∧ d.gridY = 0 ∧
          ∃ h o, rows.get? 0 = some h ∧ (translationOptionSet tol).get? 0 = some o ∧
            d = CreateNext env d.hypo.id h o 0 0 := by
  constructor
  · intro hrows htol
    obtain ⟨st, hst, _⟩ := cubeSearch_spec env rows tol (J := fun _ => True) n
      hrows htol (fun _ _ => trivial) (fun _ _ _ _ _ _ _ => trivial)
    exact ⟨st, hst⟩
  · intro st hst
    obtain ⟨hi, hlen, _⟩ := cubeSearch_inv hst
    obtain ⟨hperm, _⟩ := cubeD_perm hi hlen
    refine ⟨((hperm.map _).nodup_iff).mpr (hi.cells_nodup hlen), ?_⟩
    obtain ⟨b, hb, hbx, hby⟩ := cubeSearch_origin hst
    obtain ⟨h, o, hh, ho, he⟩ := hi.buf_wf hb
    rw [hbx] at hh
    rw [hby] at ho
    rw [hbx, hby] at he
    exact ⟨b, hperm.symm.subset hb, hbx, hby, h, o, hh, get?_take_some ho, he⟩

/-- Two rows scoring 10 and 5 and two options: the hypotheses passed on sit at the grid
positions `(0, 0)`, `(0, 1)` and `(1, 0)`. -/
theorem C26_passed_cells_distinct_and_origin_passed_witness :
    (cubeSearch (exampleEnv 3 (-1) 3 false true 2) [exampleRow 1 10, exampleRow 2 5]
        ((exampleEnv 3 (-1) 3 false true 2).translationOptionList ⟨1, 1⟩) 100).map
      (fun st => (cubeD st).map (fun d => (d.gridX, d.gridY))) =
        some [(0, 0), (0, 1), (1, 0)] ∧
    ∃ st, cubeSearch (exampleEnv 3 (-1) 3 false true 2) [exampleRow 1 10, exampleRow 2 5]
        ((exampleEnv 3 (-1) 3 false true 2).translationOptionList ⟨1, 1⟩) 100 = some st ∧
      ((cubeD st).map (fun d => (d.gridX, d.gridY))).Nodup ∧
      ∃ d ∈ cubeD st, d.gridX = 0 ∧ d.gridY = 0 ∧
        ∃ h o, [exampleRow 1 10, exampleRow 2 5].get? 0 = some h ∧
          (translationOptionSet
            ((exampleEnv 3 (-1) 3 false true 2).translationOptionList ⟨1, 1⟩)).get? 0 =
              some o ∧
          d = CreateNext (exampleEnv 3 (-1) 3 false true 2) d.hypo.id h o 0 0 :=
  ⟨by decide,
   ⟨_, rfl, (C26_passed_cells_distinct_and_origin_passed (exampleEnv 3 (-1) 3 false true 2)
      [exampleRow 1 10, exampleRow 2 5]
      ((exampleEnv 3 (-1) 3 false true 2).translationOptionList ⟨1, 1⟩) 100).2 _ rfl⟩⟩

end Moses
